import Mathlib

/-!
# The sealing input pipeline of venus-sealer

A shallow embedding of three parts of `storage-sealing`:

* `input.go`: the piece-to-sector matcher (`AddPieceToAnySector`, `updateInput`,
  `tryCreateDealSector`) and the sector handlers `handleWaitDeals`,
  `maybeStartSealing` and `handleAddPiece`;
* `precommit_policy.go`: `BasicPreCommitPolicy.Expiration`;
* `precommit_batch.go`: the pre-commit batcher (`batchWait`, `maybeStartBatch`,
  `processBatch`, `AddPreCommit`, `Pending`, `getPreCommitCutoff`).

Conventions of the embedding.

* A Go map is the list of its entries in one iteration order (`GoMap`).  Every
  statement quantifies over all such lists, hence over all iteration orders.
* `abi.ChainEpoch`, `time.Duration` (nanoseconds) and `time.Time` (nanoseconds
  since the zero `Time`) are signed 64-bit or wider quantities that stay far away
  from their bounds; they are mathematical integers here.  `IsZero` is `= 0`.
* `abi.UnpaddedPieceSize` is `uint64`; the subtraction and the addition of
  `updateInput` are taken modulo `2^64`, as the machine does.  The handlers only
  add up the piece sizes of one sector, of at most 64 GiB; their sums are
  natural numbers.
* A timer of `time.AfterFunc` is the instant at which it fires and a flag that
  records a call of `Stop`; the wall clock `time.Now()` is an argument.
* Calls that leave the package (chain API, messager, address selector, CBOR
  encoder, FSM event bus, sector counter) are oracles of an environment record,
  and every effect the code has on them is written to a trace.
* Go `error` values are their message (`Option String`, `none` for `nil`).
-/

namespace VenusSealer

/-! ## Go maps -/

/-- A Go map, given by its entries in the order one `range` loop visits them. -/
abbrev GoMap (K V : Type) := List (K × V)

namespace GoMap

variable {K V : Type} [DecidableEq K]

/-- Read `m[k]` together with the presence flag. -/
def lookup : GoMap K V → K → Option V
  | [], _ => none
  | (k0, v) :: rest, k => if k0 = k then some v else lookup rest k

/-- Builtin `delete(m, k)`. -/
def delete (m : GoMap K V) (k : K) : GoMap K V :=
  m.filter (fun e => decide (e.1 ≠ k))

/-- Assignment `m[k] = v`: the entry is replaced when the key is present and
added otherwise. -/
def set : GoMap K V → K → V → GoMap K V
  | [], k, v => [(k, v)]
  | (k0, v0) :: rest, k, v =>
    if k0 = k then (k, v) :: rest else (k0, v0) :: set rest k v

/-- Presence of a key. -/
def has (m : GoMap K V) (k : K) : Bool := (lookup m k).isSome

/-- The keys in iteration order. -/
def keys (m : GoMap K V) : List K := m.map Prod.fst

end GoMap

/-! ## Shared types (`types`, `abi`) -/

/-- Nanoseconds since the zero `time.Time`. -/
abbrev Time := Int

/-- A `time.Duration`, in nanoseconds. -/
abbrev Duration := Int

/-- An `abi.ChainEpoch`. -/
abbrev ChainEpoch := Int

/-- A content identifier (`cid.Cid`), kept abstract. -/
abbrev Cid := Nat

/-- One second, `time.Second`. -/
def Second : Duration := 1000000000

/-- One nanosecond, `time.Nanosecond`. -/
def Nanosecond : Duration := 1

structure SectorID where
  Miner : Nat
  Number : Nat
deriving DecidableEq, Repr

structure DealSchedule where
  StartEpoch : ChainEpoch
  EndEpoch : ChainEpoch
deriving DecidableEq, Repr

structure DealInfo where
  DealID : Nat
  DealSchedule : DealSchedule
deriving DecidableEq, Repr

/-- A `types.Piece`: the padded size of its `abi.PieceInfo` and the optional deal. -/
structure Piece where
  Size : Nat
  DealInfo : Option DealInfo
deriving DecidableEq, Repr

/-- The fields of `types.SectorInfo` that the matcher and the batcher read. -/
structure SectorInfo where
  SectorNumber : Nat
  SectorType : Int := 0
  Pieces : List Piece := []
  TicketEpoch : ChainEpoch := 0
  CreationTime : Int := 0
deriving DecidableEq, Repr

/-- Sector size of a registered seal proof (`abi.RegisteredSealProof.SectorSize`
of go-state-types): 2KiB, 8MiB, 512MiB, 32GiB, 64GiB for the V1 proofs 0..4 and
for the V1_1 proofs 5..9, an error for any other value. -/
def SectorSize (sp : Int) : Except String Nat :=
  if sp = 0 ∨ sp = 5 then .ok 2048
  else if sp = 1 ∨ sp = 6 then .ok 8388608
  else if sp = 2 ∨ sp = 7 then .ok 536870912
  else if sp = 3 ∨ sp = 8 then .ok 34359738368
  else if sp = 4 ∨ sp = 9 then .ok 68719476736
  else .error "unsupported proof type"

/-- The method `abi.PaddedPieceSize.Unpadded`: `s - (s >> 7)`. -/
def Unpadded (s : Nat) : Nat := s - s / 128

/-- The method `abi.UnpaddedPieceSize.Padded`: `s + s / 127`. -/
def Padded (s : Nat) : Nat := s + s / 127

/-- Modelled from the spec: the method `SectorInfo.DealIDs` is not among the
sources; the specification counts the deals in the sector, which are the pieces
that carry deal info. -/
def SectorInfo.DealIDs (si : SectorInfo) : List Nat :=
  (si.Pieces.filterMap (fun p => p.DealInfo)).map (fun d => d.DealID)

/-- Subtraction of `uint64` values. -/
def subU64 (a b : Nat) : Nat := (a % 2 ^ 64 + 2 ^ 64 - b % 2 ^ 64) % 2 ^ 64

/-- Addition of `uint64` values. -/
def addU64 (a b : Nat) : Nat := (a + b) % 2 ^ 64

/-! ## The matcher (`input.go`) -/

/-- The entry `pendingPiece`.  The field `data` is handed to the sealer, which is
an oracle here; a call of the `accepted` callback is an event of the trace. -/
structure pendingPiece where
  size : Nat
  assigned : Bool := false
  deal : DealInfo := { DealID := 0, DealSchedule := { StartEpoch := 0, EndEpoch := 0 } }
deriving DecidableEq, Repr

/-- A `*time.Timer` made by `time.AfterFunc`: the instant at which it fires, and
whether `Stop` was called on it while it was running. -/
structure Timer where
  fireAt : Time
  stopped : Bool := false
deriving DecidableEq, Repr

/-- The method `Timer.Stop` at the instant `now`: it reports `true` when the call
stops the timer and `false` when the timer has already expired or been stopped. -/
def Timer.Stop (t : Timer) (now : Time) : Bool × Timer :=
  if t.stopped ∨ t.fireAt ≤ now then (false, t) else (true, { t with stopped := true })

/-- The entry `openSector`.  Its closure `maybeAccept` is `maybeAccept` below. -/
structure openSector where
  used : Nat
deriving DecidableEq, Repr

/-- The read side of `SectorStats` that `tryCreateDealSector` consults. -/
structure SectorStats where
  curSealing : Nat := 0
  curStaging : Nat := 0
deriving DecidableEq, Repr

/-- The fields of `sealiface.Config` used by the matcher and the batcher. -/
structure Config where
  MaxWaitDealsSectors : Nat := 0
  MaxSealingSectorsForDeals : Nat := 0
  WaitDealsDelay : Duration := 0
  MaxPreCommitBatch : Int := 0
  PreCommitBatchWait : Duration := 0
  PreCommitBatchSlack : Duration := 0
deriving DecidableEq, Repr

/-- The matcher state of `Sealing`, guarded by `inputLk`. -/
structure Sealing where
  pendingPieces : GoMap Cid pendingPiece := []
  openSectors : GoMap SectorID openSector := []
  assignedPieces : GoMap SectorID (List Cid) := []
  creating : Option Nat := none
  stats : SectorStats := {}
  sectorTimers : GoMap SectorID Timer := []
deriving DecidableEq, Repr

/-- What the matcher does to the outside. -/
inductive InputEvent where
  /-- The call `ctx.Send(SectorAddPiece{})` on the FSM of a sector. -/
  | sendSectorAddPiece (sector : SectorID)
  /-- A call of `pendingPiece.accepted(sn, offset, err)`. -/
  | accepted (deal : Cid) (sn : Nat) (offset : Nat) (err : Option String)
  /-- The call `m.sc.Next()`. -/
  | nextSectorNumber
  /-- The call `m.sealer.NewSector`. -/
  | newSector (sid : Nat)
  /-- The call `m.sectors.Send(sid, SectorStart{ID, SectorType})`. -/
  | sendSectorStart (sid : Nat) (sectorType : Int)
  /-- The call `ctx.Send(SectorStartPacking{})` on the FSM of a sector. -/
  | sendSectorStartPacking (sector : SectorID)
  /-- A call of `m.sealer.AddPiece` for sector `sn` with the sizes of the pieces
  written so far, the unpadded size to write, and whether the data is the null
  reader of a padding piece. -/
  | sealerAddPiece (sn : Nat) (existing : List Nat) (size : Nat) (isPadding : Bool)
  /-- The call `ctx.Send(SectorPieceAdded{NewPieces})` on the FSM of sector `sn`. -/
  | sendSectorPieceAdded (sn : Nat) (newPieces : List Piece)
  /-- The call `ctx.Send(SectorAddPieceFailed{err})` on the FSM of sector `sn`. -/
  | sendSectorAddPieceFailed (sn : Nat) (err : String)
deriving DecidableEq, Repr

/-- Least power of two that is at least `n`, searched upwards from `p` in at most
`fuel` doublings. -/
def pow2AtLeast : Nat → Nat → Nat → Nat
  | 0, p, _ => p
  | fuel + 1, p, n => if n ≤ p then p else pow2AtLeast fuel (2 * p) n

/-- The function `padreader.PaddedSize` of go-padreader: 127 for sizes up to 127;
otherwise the size is rounded up to a multiple of 127, scaled to the padded size
`(size + 126) / 127 * 128`, rounded up to a power of two, and unpadded again. -/
def PaddedSize (size : Nat) : Nat :=
  if size ≤ 127 then 127
  else Unpadded (pow2AtLeast 64 1 ((size + 126) / 127 * 128))

/-- The collaborators of the matcher. -/
structure InputEnv where
  /-- Result of `ctx.Send(SectorAddPiece{})` for a sector and a deal. -/
  sendAddPiece : SectorID → Cid → Option String := fun _ _ => none
  /-- Result of `m.getConfig()`. -/
  getConfig : Except String Config := .ok {}
  /-- Result of `m.sc.Next()`. -/
  scNext : Except String Nat := .ok 0
  /-- Result of `m.sealer.NewSector`. -/
  newSector : Nat → Option String := fun _ => none
  /-- The method `m.stats.UpdateSector(cfg, id, UndefinedSectorState)`. -/
  updateSector : Config → SectorStats → SectorID → SectorStats := fun _ s _ => s
  /-- Result of `m.sectors.Send(sid, SectorStart{..})`. -/
  sendStart : Nat → Option String := fun _ => none
  /-- The actor id behind `m.minerSectorID`. -/
  minerID : Nat := 0
  /-- The function `padreader.PaddedSize`. -/
  paddedSize : Nat → Nat := PaddedSize
  /-- Result of `m.currentSealProof(ctx)`. -/
  currentSealProof : Except String Int := .ok 0
  /-- Result of `getDealPerSectorLimit` for a sector size. -/
  dealLimit : Nat → Except String Int := fun _ => .ok 256
  /-- Result of `sector.DealIDs()`. -/
  dealIDs : SectorInfo → List Nat := SectorInfo.DealIDs
  /-- Result of `ffiwrapper.GetRequiredPadding` for the padded offset and the
  padded size of the next piece: the padded sizes of the padding pieces and their
  total. -/
  getRequiredPadding : Nat → Nat → List Nat × Nat := fun _ _ => ([], 0)
  /-- Result of `m.sealer.AddPiece` for the sizes written so far, the unpadded
  size to write and whether the data is a null reader: the padded size of the
  returned `abi.PieceInfo`, or an error. -/
  sealerAddPiece : List Nat → Nat → Bool → Except String Nat := fun _ size _ => .ok (Padded size)
  /-- Result of `ctx.Send` in the sector handlers, by the event sent. -/
  ctxSend : InputEvent → Option String := fun _ => none

/-- The local type `match` of `updateInput`. -/
structure Match where
  sector : SectorID
  deal : Cid
  size : Nat
  padding : Nat
deriving DecidableEq, Repr

/-- Inner loop of the match construction: one pending piece against every open
sector.  Pending pieces have a positive size (`AddPieceToAnySector` admits only
the sizes `127 * 2^k`), so the remainder has a non-zero divisor. -/
def matchesOfPiece (cap : Nat) (proposalCid : Cid) (piece : pendingPiece) :
    GoMap SectorID openSector → List Match
  | [] => []
  | (id, sector) :: rest =>
    let avail := subU64 cap sector.used
    if piece.size ≤ avail then
      { sector := id, deal := proposalCid, size := piece.size,
        padding := avail % piece.size } :: matchesOfPiece cap proposalCid piece rest
    else matchesOfPiece cap proposalCid piece rest

/-- Outer loop of the match construction; returns `matches` and `toAssign`. -/
def buildMatches (cap : Nat) (openSectors : GoMap SectorID openSector) :
    GoMap Cid pendingPiece → List Match × List Cid
  | [] => ([], [])
  | (proposalCid, piece) :: rest =>
    let r := buildMatches cap openSectors rest
    if piece.assigned then r
    else (matchesOfPiece cap proposalCid piece openSectors ++ r.1, proposalCid :: r.2)

/-- The comparison function handed to `sort.Slice`. -/
def matchLess (a b : Match) : Bool :=
  if a.padding ≠ b.padding then decide (a.padding < b.padding)
  else if a.size ≠ b.size then decide (a.size < b.size)
  else decide (a.sector.Number < b.sector.Number)

/-- Inner loop of an insertion sort: `x` travels to the left past every
predecessor `y` with `less x y`.  The sorted prefix is given with the nearest
predecessor first and is returned the same way. -/
def sinkInto {α : Type} (less : α → α → Bool) (x : α) : List α → List α
  | [] => [x]
  | y :: ys => if less x y then y :: sinkInto less x ys else x :: y :: ys

/-- The function `sort.Slice` as an insertion sort, which is what the Go runtime
runs on slices of at most 12 elements.  On longer slices the runtime may order
elements that compare equal differently. -/
def sortSlice {α : Type} (less : α → α → Bool) (data : List α) : List α :=
  (data.foldl (fun sortedRev x => sinkInto less x sortedRev) []).reverse

/-- The closure `maybeAccept` that `handleWaitDeals` stores in an open sector:
append the deal to `assignedPieces[sid]`, then send `SectorAddPiece`. -/
def maybeAccept (env : InputEnv) (m : Sealing) (sid : SectorID) (c : Cid) :
    Sealing × Option String :=
  ({ m with assignedPieces :=
      m.assignedPieces.set sid ((m.assignedPieces.lookup sid).getD [] ++ [c]) },
   env.sendAddPiece sid c)

/-- State of the assignment loop of `updateInput`. -/
structure AssignState where
  m : Sealing
  toAssign : List Cid
  assigned : Nat := 0
  trace : List InputEvent := []

/-- One iteration of the assignment loop of `updateInput`.  Every match names a
key of `pendingPieces`, so the first `none` branch is never taken. -/
def assignStep (env : InputEnv) (cap : Nat) (st : AssignState) (mt : Match) : AssignState :=
  match st.m.pendingPieces.lookup mt.deal with
  | none => st
  | some piece =>
    if piece.assigned then { st with assigned := st.assigned + 1 }
    else
      match st.m.openSectors.lookup mt.sector with
      | none => st
      | some sector =>
        let avail := subU64 cap sector.used
        if mt.size > avail then st
        else
          let (m1, err) := maybeAccept env st.m mt.sector mt.deal
          let tr1 := st.trace ++ [InputEvent.sendSectorAddPiece mt.sector]
          let tr2 := match err with
            | none => tr1
            | some e => tr1 ++ [InputEvent.accepted mt.deal mt.sector.Number 0 (some e)]
          let m2 := { m1 with
            openSectors := m1.openSectors.set mt.sector
              { sector with used := addU64 sector.used (addU64 mt.padding mt.size) },
            pendingPieces := m1.pendingPieces.set mt.deal { piece with assigned := true } }
          { m := m2, toAssign := st.toAssign.filter (fun c => decide (c ≠ mt.deal)),
            assigned := st.assigned, trace := tr2 }

/-- The helper `createSector`. -/
def createSector (env : InputEnv) (m : Sealing) (cfg : Config) :
    Sealing × Except String Nat × List InputEvent :=
  match env.scNext with
  | .error e => (m, .error ("getting sector number: " ++ e), [InputEvent.nextSectorNumber])
  | .ok sid =>
    match env.newSector sid with
    | some e => (m, .error ("initializing sector: " ++ e),
        [InputEvent.nextSectorNumber, InputEvent.newSector sid])
    | none =>
      ({ m with stats := env.updateSector cfg m.stats { Miner := env.minerID, Number := sid } },
       .ok sid, [InputEvent.nextSectorNumber, InputEvent.newSector sid])

/-- The method `tryCreateDealSector`. -/
def tryCreateDealSector (env : InputEnv) (m : Sealing) (sp : Int) :
    Sealing × Option String × List InputEvent :=
  if m.creating.isSome then (m, none, [])
  else
    match env.getConfig with
    | .error e => (m, some ("getting storage config: " ++ e), [])
    | .ok cfg =>
      if cfg.MaxSealingSectorsForDeals > 0 ∧ m.stats.curSealing ≥ cfg.MaxSealingSectorsForDeals then
        (m, none, [])
      else if cfg.MaxWaitDealsSectors > 0 ∧ m.stats.curStaging ≥ cfg.MaxWaitDealsSectors then
        (m, none, [])
      else
        match createSector env m cfg with
        | (m1, .error e, tr) => (m1, some e, tr)
        | (m1, .ok sid, tr) =>
          ({ m1 with creating := some sid }, env.sendStart sid,
           tr ++ [InputEvent.sendSectorStart sid sp])

/-- The sorted candidate list of `updateInput` for a sector capacity. -/
def sortedMatches (cap : Nat) (m : Sealing) : List Match :=
  sortSlice matchLess (buildMatches cap m.openSectors m.pendingPieces).1

/-- The method `updateInput`, called with `inputLk` held.  Returns the new state,
the returned error and the trace of effects. -/
def updateInput (env : InputEnv) (m : Sealing) (sp : Int) :
    Sealing × Option String × List InputEvent :=
  match SectorSize sp with
  | .error e => (m, some e, [])
  | .ok ssize =>
    let cap := Unpadded ssize
    let built := buildMatches cap m.openSectors m.pendingPieces
    let sorted := sortSlice matchLess built.1
    let st := sorted.foldl (assignStep env cap) { m := m, toAssign := built.2 }
    if st.toAssign.length > 0 then
      let (m1, _, tr) := tryCreateDealSector env st.m sp
      (m1, none, st.trace ++ tr)
    else (st.m, none, st.trace)

/-- The statement `m.pendingPieces[proposalCID(deal)] = &pendingPiece{..}` of
`AddPieceToAnySector`: a new, unassigned pending piece. -/
def insertPending (m : Sealing) (c : Cid) (size : Nat) : Sealing :=
  { m with pendingPieces := m.pendingPieces.set c { size := size, assigned := false } }

/-- The method `AddPieceToAnySector` up to the point where the caller parks on
its result channel: the validation, the insertion into `pendingPieces` and the
matching pass started under `inputLk`.  `dealCid` is the outcome of
`deal.DealProposal.Cid()`.  Returns the new state, the error returned before
anything is inserted (`none` when the caller is left waiting for `accepted`) and
the trace of effects. -/
def AddPieceToAnySector (env : InputEnv) (m : Sealing) (size : Nat)
    (dealCid : Except String Cid) : Sealing × Option String × List InputEvent :=
  if env.paddedSize size ≠ size then (m, some "cannot allocate unpadded piece", [])
  else
    match env.currentSealProof with
    | .error e => (m, some ("getting current seal proof type: " ++ e), [])
    | .ok sp =>
      match SectorSize sp with
      | .error e => (m, some e, [])
      | .ok ssize =>
        if size > Unpadded ssize then (m, some "piece cannot fit into a sector", [])
        else
          match dealCid with
          | .error e => (m, some ("getting proposal CID: " ++ e), [])
          | .ok c =>
            if (m.pendingPieces.lookup c).isSome then
              (m, some ("piece for deal " ++ toString c ++ " already pending"), [])
            else
              let (m2, _, tr) := updateInput env (insertPending m c size) sp
              (m2, none, tr)

/-- Whether an iteration of the assignment loop of `updateInput` passes its three
guards and calls `maybeAccept`. -/
def assignStepAccepts (cap : Nat) (st : AssignState) (mt : Match) : Bool :=
  match st.m.pendingPieces.lookup mt.deal with
  | none => false
  | some piece =>
    if piece.assigned then false
    else
      match st.m.openSectors.lookup mt.sector with
      | none => false
      | some sector => if mt.size > subU64 cap sector.used then false else true

/-- The assignments made by the assignment loop of `updateInput` over the given
matches: the pairs (deal, sector) handed to `maybeAccept`, in order. -/
def assignmentsFrom (env : InputEnv) (cap : Nat) : AssignState → List Match → List (Cid × SectorID)
  | _, [] => []
  | st, mt :: rest =>
    (if assignStepAccepts cap st mt then [(mt.deal, mt.sector)] else []) ++
      assignmentsFrom env cap (assignStep env cap st mt) rest

/-- The sector of a `SectorAddPiece` event, `none` for any other event. -/
def addPieceSector : InputEvent → Option SectorID
  | .sendSectorAddPiece sector => some sector
  | _ => none

/-- The sequence of assignments made by one call of `updateInput`. -/
def assignments (env : InputEnv) (m : Sealing) (sp : Int) : List (Cid × SectorID) :=
  match SectorSize sp with
  | .error _ => []
  | .ok ssize =>
    assignmentsFrom env (Unpadded ssize)
      { m := m, toAssign := (buildMatches (Unpadded ssize) m.openSectors m.pendingPieces).2 }
      (sortedMatches (Unpadded ssize) m)

/-! ## The sector handlers (`input.go`) -/

/-- The instant of the Unix epoch, in nanoseconds since the zero `time.Time`. -/
def unixEpoch : Time := 62135596800 * Second

/-- The function `time.Unix(sec, 0)`. -/
def timeUnix (sec : Int) : Time := unixEpoch + sec * Second

/-- What `maybeStartSealing` returns and does: the matcher state with its timers,
the two results and the events sent. -/
structure StartSealingOut where
  m : Sealing
  started : Bool
  err : Option String
  trace : List InputEvent
deriving DecidableEq, Repr

/-- The statement `return true, ctx.Send(SectorStartPacking{})` of
`maybeStartSealing`. -/
def startPacking (env : InputEnv) (m : Sealing) (sid : SectorID) : StartSealingOut :=
  { m := m, started := true, err := env.ctxSend (InputEvent.sendSectorStartPacking sid),
    trace := [InputEvent.sendSectorStartPacking sid] }

/-- The statement `m.sectorTimers[sid] = time.AfterFunc(d, ..)` at the instant
`now`: the new timer fires `d` later. -/
def armTimer (m : Sealing) (sid : SectorID) (d : Duration) (now : Time) : Sealing :=
  { m with sectorTimers := m.sectorTimers.set sid { fireAt := now + d } }

/-- The part of `maybeStartSealing` after the check of the stored timer. -/
def maybeStartSealingChecks (env : InputEnv) (m : Sealing) (now : Time) (sector : SectorInfo)
    (used : Nat) : StartSealingOut :=
  let sid : SectorID := { Miner := env.minerID, Number := sector.SectorNumber }
  match SectorSize sector.SectorType with
  | .error _ => { m := m, started := false, err := some "getting sector size", trace := [] }
  | .ok ssize =>
    match env.dealLimit ssize with
    | .error e =>
      { m := m, started := false, err := some ("getting per-sector deal limit: " ++ e),
        trace := [] }
    | .ok maxDeals =>
      if (((env.dealIDs sector).length : Nat) : Int) ≥ maxDeals then startPacking env m sid
      else if Padded used = ssize then startPacking env m sid
      else if sector.CreationTime ≠ 0 then
        match env.getConfig with
        | .error e =>
          { m := m, started := false, err := some ("getting storage config: " ++ e),
            trace := [] }
        | .ok cfg =>
          let sealTime := timeUnix sector.CreationTime + cfg.WaitDealsDelay
          if now > sealTime then startPacking env m sid
          else
            { m := armTimer m sid (sealTime - now) now, started := false, err := none,
              trace := [] }
      else { m := m, started := false, err := none, trace := [] }

/-- The method `maybeStartSealing`, with `now` the reading of `time.Now()`.  The
callback of the timer it arms sends `SectorStartPacking` when the timer fires. -/
def maybeStartSealing (env : InputEnv) (m : Sealing) (now : Time) (sector : SectorInfo)
    (used : Nat) : StartSealingOut :=
  let sid : SectorID := { Miner := env.minerID, Number := sector.SectorNumber }
  match m.sectorTimers.lookup sid with
  | none => maybeStartSealingChecks env m now sector used
  | some st =>
    let m1 := { m with sectorTimers := m.sectorTimers.set sid (st.Stop now).2 }
    if (st.Stop now).1 then maybeStartSealingChecks env m1 now sector used
    else startPacking env m1 sid

/-- The statement `if m.creating != nil && *m.creating == sector.SectorNumber
{ m.creating = nil }` of `handleWaitDeals`. -/
def clearCreating (m : Sealing) (sn : Nat) : Sealing :=
  if m.creating = some sn then { m with creating := none } else m

/-- The statement `if _, has := m.openSectors[sid]; !has { m.openSectors[sid] =
&openSector{used, maybeAccept} }` of `handleWaitDeals`. -/
def openIfAbsent (m : Sealing) (sid : SectorID) (used : Nat) : Sealing :=
  if (m.openSectors.lookup sid).isSome then m
  else { m with openSectors := m.openSectors.set sid { used := used } }

/-- The handler `handleWaitDeals`.  The matching pass that it starts in a
goroutine inherits `inputLk`, so it runs before any other access to the matcher
state; it is part of the call here.  Returns the new state, the returned error
and the trace of effects. -/
def handleWaitDeals (env : InputEnv) (m : Sealing) (now : Time) (sector : SectorInfo) :
    Sealing × Option String × List InputEvent :=
  let used := (sector.Pieces.map (fun p => Unpadded p.Size)).sum
  let m0 := clearCreating m sector.SectorNumber
  let sid : SectorID := { Miner := env.minerID, Number := sector.SectorNumber }
  if ((m0.assignedPieces.lookup sid).getD []).length > 0 then
    (m0, env.ctxSend (InputEvent.sendSectorAddPiece sid), [InputEvent.sendSectorAddPiece sid])
  else
    let out := maybeStartSealing env m0 now sector used
    if out.err.isSome ∨ out.started = true then
      ({ out.m with openSectors := out.m.openSectors.delete sid }, out.err, out.trace)
    else
      let r := updateInput env (openIfAbsent out.m sid used) sector.SectorType
      (r.1, none, out.trace ++ r.2.2)

/-- The local variables of the loop of `handleAddPiece`: `offset`, `pieceSizes`
and `res.NewPieces`, with the trace of effects so far. -/
structure AddPieceState where
  offset : Nat
  pieceSizes : List Nat
  newPieces : List Piece := []
  trace : List InputEvent := []
deriving DecidableEq, Repr

/-- How the loop of `handleAddPiece` ends: it runs to its end, or it returns
because an assigned piece is not in `pendingPieces`, or because `AddPiece` of the
sealer failed. -/
inductive AddPieceEnd where
  | done
  | notFound (piece : Cid)
  | failed (err : String)
deriving DecidableEq, Repr

/-- The error text of a deal over the per-sector deal limit. -/
def errTooManyDeals (sn : Nat) : String :=
  "too many deals assigned to sector " ++ toString sn ++ ", dropping deal"

/-- The error text of a deal that does not fit. -/
def errNotEnoughSpace (piece : Cid) (sn : Nat) : String :=
  "piece " ++ toString piece ++ " assigned to sector " ++ toString sn ++
    " with not enough space"

/-- The error text of an assigned piece that is not pending. -/
def errNotFound (piece : Cid) (sn : Nat) : String :=
  "piece " ++ toString piece ++ " assigned to sector " ++ toString sn ++ " not found"

/-- The loop `for _, p := range pads` of `handleAddPiece` up to the first failure
of `AddPiece`: every pad is written with a null reader; the error of the sealer
is returned with the state reached. -/
def writePads (env : InputEnv) (sn : Nat) : List Nat → AddPieceState → AddPieceState × Option String
  | [], st => (st, none)
  | p :: rest, st =>
    match env.sealerAddPiece st.pieceSizes (Unpadded p) true with
    | .error e =>
      ({ st with trace := st.trace ++ [InputEvent.sealerAddPiece sn st.pieceSizes (Unpadded p) true] },
       some e)
    | .ok ppi =>
      writePads env sn rest
        { st with
          pieceSizes := st.pieceSizes ++ [Unpadded p],
          newPieces := st.newPieces ++ [{ Size := ppi, DealInfo := none }],
          trace := st.trace ++ [InputEvent.sealerAddPiece sn st.pieceSizes (Unpadded p) true] }

/-- Body of the loop `for i, piece := range pending` of `handleAddPiece`; the
second component says how the handler returns when the body returns. -/
def addPieceStep (env : InputEnv) (m : Sealing) (sector : SectorInfo) (ssize : Nat)
    (maxDeals : Int) (i : Nat) (st : AddPieceState) (piece : Cid) :
    AddPieceState × Option AddPieceEnd :=
  let sn := sector.SectorNumber
  match m.pendingPieces.lookup piece with
  | none => (st, some (AddPieceEnd.notFound piece))
  | some deal =>
    if (((env.dealIDs sector).length : Nat) : Int) + ((i : Int) + 1) > maxDeals then
      ({ st with trace := st.trace ++
          [InputEvent.accepted piece sn st.offset (some (errTooManyDeals sn))] }, none)
    else
      let pad := env.getRequiredPadding (Padded st.offset) (Padded deal.size)
      if Padded st.offset + pad.2 + Padded deal.size > ssize then
        ({ st with trace := st.trace ++
            [InputEvent.accepted piece sn st.offset (some (errNotEnoughSpace piece sn))] }, none)
      else
        let offset := st.offset + Unpadded pad.2
        match writePads env sn pad.1 { st with offset := offset } with
        | (st1, some e) =>
          ({ st1 with trace := st1.trace ++
              [InputEvent.accepted piece sn offset (some ("writing padding piece: " ++ e)),
               InputEvent.sendSectorAddPieceFailed sn ("writing padding piece: " ++ e)] },
           some (AddPieceEnd.failed ("writing padding piece: " ++ e)))
        | (st1, none) =>
          match env.sealerAddPiece st1.pieceSizes deal.size false with
          | .error e =>
            ({ st1 with trace := st1.trace ++
                [InputEvent.sealerAddPiece sn st1.pieceSizes deal.size false,
                 InputEvent.accepted piece sn offset (some ("writing piece: " ++ e)),
                 InputEvent.sendSectorAddPieceFailed sn ("writing piece: " ++ e)] },
             some (AddPieceEnd.failed ("writing piece: " ++ e)))
          | .ok ppi =>
            ({ offset := offset + deal.size,
               pieceSizes := st1.pieceSizes ++ [deal.size],
               newPieces := st1.newPieces ++ [{ Size := ppi, DealInfo := some deal.deal }],
               trace := st1.trace ++
                [InputEvent.sealerAddPiece sn st1.pieceSizes deal.size false,
                 InputEvent.accepted piece sn offset none] }, none)

/-- The loop `for i, piece := range pending` of `handleAddPiece` from index `i`. -/
def addPieceLoop (env : InputEnv) (m : Sealing) (sector : SectorInfo) (ssize : Nat)
    (maxDeals : Int) : Nat → List Cid → AddPieceState → AddPieceState × AddPieceEnd
  | _, [], st => (st, AddPieceEnd.done)
  | i, piece :: rest, st =>
    match addPieceStep env m sector ssize maxDeals i st piece with
    | (st1, some e) => (st1, e)
    | (st1, none) => addPieceLoop env m sector ssize maxDeals (i + 1) rest st1

/-- The local variables of `handleAddPiece` before its loop: `offset` is the sum
of the unpadded sizes of the pieces in the sector, `pieceSizes` lists them. -/
def addPieceStart (sector : SectorInfo) : AddPieceState :=
  { offset := (sector.Pieces.map (fun p => Unpadded p.Size)).sum,
    pieceSizes := sector.Pieces.map (fun p => Unpadded p.Size) }

/-- The statement `delete(m.assignedPieces, sid)` of `handleAddPiece`. -/
def takeAssigned (m : Sealing) (sid : SectorID) : Sealing :=
  { m with assignedPieces := m.assignedPieces.delete sid }

/-- The handler `handleAddPiece`.  Returns the new state, the returned error and
the trace of effects. -/
def handleAddPiece (env : InputEnv) (m : Sealing) (sector : SectorInfo) :
    Sealing × Option String × List InputEvent :=
  let sn := sector.SectorNumber
  let sid : SectorID := { Miner := env.minerID, Number := sn }
  match SectorSize sector.SectorType with
  | .error e => (m, some e, [])
  | .ok ssize =>
    match m.assignedPieces.lookup sid with
    | none =>
      (m, env.ctxSend (InputEvent.sendSectorPieceAdded sn []),
       [InputEvent.sendSectorPieceAdded sn []])
    | some pending =>
      let m1 := takeAssigned m sid
      match env.dealLimit ssize with
      | .error e => (m1, some ("getting per-sector deal limit: " ++ e), [])
      | .ok maxDeals =>
        match addPieceLoop env m1 sector ssize maxDeals 0 pending (addPieceStart sector) with
        | (st, AddPieceEnd.done) =>
          (m1, env.ctxSend (InputEvent.sendSectorPieceAdded sn st.newPieces),
           st.trace ++ [InputEvent.sendSectorPieceAdded sn st.newPieces])
        | (st, AddPieceEnd.notFound piece) => (m1, some (errNotFound piece sn), st.trace)
        | (st, AddPieceEnd.failed err) =>
          (m1, env.ctxSend (InputEvent.sendSectorAddPieceFailed sn err), st.trace)

/-- All events of a list are calls of `m.sealer.AddPiece`. -/
def onlySealerCalls (tr : List InputEvent) : Prop :=
  ∀ ev ∈ tr, ∃ sn existing size isPadding, ev = InputEvent.sealerAddPiece sn existing size isPadding

/-- Sum of the padded sizes of a list of pieces. -/
def sumPadded (ps : List Piece) : Nat := (ps.map (fun p => p.Size)).sum

/-- Sum of the unpadded sizes of a list of pieces. -/
def sumUnpadded (ps : List Piece) : Nat := (ps.map (fun p => Unpadded p.Size)).sum

/-- An event of `handleAddPiece` before its final send: a call of the sealer that
succeeded, or a call of `accepted` for a piece of `pendingPieces`. -/
def quietEvent (env : InputEnv) (m : Sealing) (ev : InputEvent) : Prop :=
  (∃ sn existing size isPadding r, ev = InputEvent.sealerAddPiece sn existing size isPadding ∧
    env.sealerAddPiece existing size isPadding = .ok r) ∨
  (∃ c sn offset err, ev = InputEvent.accepted c sn offset err ∧
    (m.pendingPieces.lookup c).isSome = true)

/-- The error that `handleAddPiece` makes of a failure `e` of the sealer. -/
def errWriting (isPadding : Bool) (e : String) : String :=
  (if isPadding then "writing padding piece: " else "writing piece: ") ++ e

/-- A trace of `handleAddPiece` that ends in a failure of the sealer: quiet
events, then the failing call, the `accepted` callback of the deal with the
error and `SectorAddPieceFailed` with the same error. -/
def failedTrace (env : InputEnv) (m : Sealing) (sn : Nat) (err : String)
    (tr : List InputEvent) : Prop :=
  ∃ pre existing size isPadding e piece offset,
    tr = pre ++ [InputEvent.sealerAddPiece sn existing size isPadding,
      InputEvent.accepted piece sn offset (some err),
      InputEvent.sendSectorAddPieceFailed sn err] ∧
    env.sealerAddPiece existing size isPadding = .error e ∧
    err = errWriting isPadding e ∧
    (m.pendingPieces.lookup piece).isSome = true ∧
    ∀ ev ∈ pre, quietEvent env m ev

/-- The trace of the loop of `handleAddPiece` by the way the loop ends. -/
def endsOk (env : InputEnv) (m : Sealing) (sn : Nat) (e : Option AddPieceEnd)
    (tr : List InputEvent) : Prop :=
  match e with
  | some (AddPieceEnd.failed err) => failedTrace env m sn err tr
  | _ => ∀ ev ∈ tr, quietEvent env m ev

/-- The unpadded size that a call of the sealer writes, `none` for any other
event. -/
def writtenSize : InputEvent → Option Nat
  | .sealerAddPiece _ _ size _ => some size
  | _ => none

/-- What an `accepted` callback without error must report when `cur` lists the
unpadded sizes of the pieces in the sector at that moment: the last piece is the
one of the deal and the offset is the sum of the sizes before it. -/
def acceptedOk (pp : GoMap Cid pendingPiece) (cur : List Nat) : InputEvent → Prop
  | .accepted c _ offset none =>
    ∃ d P, pp.lookup c = some d ∧ cur = P ++ [d.size] ∧ offset = P.sum
  | _ => True

/-- Every `accepted` callback without error in a trace reports the right offset,
for a sector that holds pieces of the sizes `cur` before the trace. -/
def offsetsOk (pp : GoMap Cid pendingPiece) : List Nat → List InputEvent → Prop
  | _, [] => True
  | cur, ev :: rest =>
    acceptedOk pp (cur ++ (writtenSize ev).toList) ev ∧
      offsetsOk pp (cur ++ (writtenSize ev).toList) rest

/-- The invariant of the loop of `handleAddPiece`: `pieceSizes` lists the pieces
of the sector followed by the pieces written so far, `offset` is their sum, the
padded sizes of the pieces of the sector and of the new pieces sum to at most
the padded offset and to at most the sector size, and the offsets reported so
far are right. -/
def addPieceInv (pp : GoMap Cid pendingPiece) (sector : SectorInfo) (ssize : Nat)
    (st : AddPieceState) : Prop :=
  st.pieceSizes =
    sector.Pieces.map (fun p => Unpadded p.Size) ++ st.trace.filterMap writtenSize ∧
  st.offset = st.pieceSizes.sum ∧
  sumPadded sector.Pieces + sumPadded st.newPieces ≤ Padded st.offset ∧
  sumPadded sector.Pieces + sumPadded st.newPieces ≤ ssize ∧
  offsetsOk pp (sector.Pieces.map (fun p => Unpadded p.Size)) st.trace

/-- The contract of `ffiwrapper.GetRequiredPadding` and of the sealer: the
padding pieces are valid padded sizes that sum to the returned total, and a
written piece has the padded size of what was asked for. -/
def sizeContracts (env : InputEnv) : Prop :=
  (∀ a b, (env.getRequiredPadding a b).1.sum = (env.getRequiredPadding a b).2 ∧
    ∀ p ∈ (env.getRequiredPadding a b).1, 128 ∣ p) ∧
  ∀ existing size isPadding r,
    env.sealerAddPiece existing size isPadding = .ok r → r = Padded size

/-! ## The pre-commit policy (`precommit_policy.go`) -/

/-- The record `BasicPreCommitPolicy`; its `api` is the `chainHead` argument of
`Expiration`. -/
structure BasicPreCommitPolicy where
  provingBoundary : ChainEpoch
  duration : ChainEpoch
deriving DecidableEq, Repr

/-- Loop body of `Expiration`: the running `end` pointer after one piece. -/
def expirationStep (epoch : ChainEpoch) (acc : Option ChainEpoch) (pc : Piece) :
    Option ChainEpoch :=
  match pc.DealInfo with
  | none => acc
  | some d =>
    if d.DealSchedule.EndEpoch < epoch then acc
    else
      match acc with
      | none => some d.DealSchedule.EndEpoch
      | some e => if e < d.DealSchedule.EndEpoch then some d.DealSchedule.EndEpoch else some e

/-- The method `BasicPreCommitPolicy.Expiration`.  `wpostProvingPeriod` is
`miner.WPoStProvingPeriod`, a non-zero constant of the actors library, and
`chainHead` is the outcome of `p.api.ChainHead`.  The remainder `%` of Go
truncates towards zero (`Int.tmod`).  Returns the epoch and the error. -/
def Expiration (wpostProvingPeriod : ChainEpoch) (p : BasicPreCommitPolicy)
    (chainHead : Except String ChainEpoch) (ps : List Piece) : ChainEpoch × Option String :=
  match chainHead with
  | .error e => (0, some e)
  | .ok epoch =>
    let last := ps.foldl (expirationStep epoch) none
    let e := match last with
      | none => epoch + p.duration
      | some v => v
    (e + (wpostProvingPeriod - Int.tmod e wpostProvingPeriod + p.provingBoundary - 1), none)

/-! ## The pre-commit batcher (`precommit_batch.go`) -/

/-- The record `miner0.SectorPreCommitInfo`. -/
structure SectorPreCommitInfo where
  SealProof : Int := 0
  SectorNumber : Nat
  SealedCID : Cid := 0
  SealRandEpoch : ChainEpoch := 0
  DealIDs : List Nat := []
  Expiration : ChainEpoch := 0
  ReplaceCapacity : Bool := false
  ReplaceSectorDeadline : Nat := 0
  ReplaceSectorPartition : Nat := 0
  ReplaceSectorNumber : Nat := 0
deriving DecidableEq, Repr

/-- The record `preCommitEntry`. -/
structure preCommitEntry where
  deposit : Int
  pci : SectorPreCommitInfo
deriving DecidableEq, Repr

/-- The record `sealiface.PreCommitBatchRes`. -/
structure PreCommitBatchRes where
  Sectors : List Nat := []
  Msg : String := ""
  Error : String := ""
deriving DecidableEq, Repr

/-- A result channel made by `AddPreCommit`, named by its allocation number. -/
abbrev ChanId := Nat

/-- The mutable fields of `PreCommitBatcher`, guarded by `lk`.  `notify` tells
whether the one-slot channel `notify` holds a token, `nextChan` numbers the
channels allocated so far. -/
structure PreCommitBatcher where
  cutoffs : GoMap Nat Time := []
  todo : GoMap Nat preCommitEntry := []
  waiting : GoMap Nat (List ChanId) := []
  notify : Bool := false
  nextChan : Nat := 0
deriving DecidableEq, Repr

/-- The state built by `NewPreCommitBatcher`. -/
def NewPreCommitBatcher : PreCommitBatcher := {}

/-- The record `config.BatchFeeConfig`. -/
structure BatchFeeConfig where
  Base : Int
  PerSector : Int
deriving DecidableEq, Repr

/-- Modelled from the spec: `config.BatchFeeConfig.FeeForSectors` is not among
the sources; the specification gives `maxFee = baseFee + perSectorFee × batchSize`. -/
def BatchFeeConfig.FeeForSectors (b : BatchFeeConfig) (nSectors : Nat) : Int :=
  b.Base + b.PerSector * nSectors

/-- An address (`address.Address`), kept abstract. -/
abbrev Address := Nat

/-- The record `miner.MinerInfo`, kept abstract. -/
abbrev MinerInfo := Nat

/-- A call of the batcher that leaves the package. -/
inductive ApiCall where
  /-- The call `params.MarshalCBOR(enc)`. -/
  | marshalCBOR (sectors : List SectorPreCommitInfo)
  /-- The call `b.api.StateMinerInfo(b.mctx, b.maddr, nil)`. -/
  | stateMinerInfo (maddr : Address)
  /-- The call `b.addrSel(b.mctx, mi, api.PreCommitAddr, goodFunds, minFunds)`. -/
  | addrSel (mi : MinerInfo) (goodFunds minFunds : Int)
  /-- The call `b.api.MessagerSendMsg(.., from, to, PreCommitSectorBatch, value,
  maxFee, params)`. -/
  | messagerSendMsg (sender dest : Address) (value maxFee : Int) (params : List Nat)
deriving DecidableEq, Repr

/-- The collaborators of the batcher. -/
structure BatcherEnv where
  /-- The field `maddr`. -/
  maddr : Address := 0
  /-- The field `feeCfg.MaxPreCommitBatchGasFee`. -/
  maxPreCommitBatchGasFee : BatchFeeConfig := { Base := 0, PerSector := 0 }
  /-- Result of `b.getConfig()`. -/
  getConfig : Except String Config := .ok {}
  /-- Result of `params.MarshalCBOR`: the encoded bytes or an error. -/
  marshalCBOR : List SectorPreCommitInfo → Except String (List Nat) := fun _ => .ok []
  /-- Result of `b.api.StateMinerInfo`. -/
  stateMinerInfo : Except String MinerInfo := .ok 0
  /-- Result of `b.addrSel` for miner info, good funds and minimal funds. -/
  addrSel : MinerInfo → Int → Int → Except String Address := fun _ _ _ => .ok 0
  /-- Result of `b.api.MessagerSendMsg` for sender, value, fee cap and params. -/
  messagerSendMsg : Address → Int → Int → List Nat → Except String String :=
    fun _ _ _ _ => .ok ""

/-- Loop body of the cutoff search in `batchWait`; the zero `Time` means that no
cutoff was found so far, and `b.cutoffs[sn]` of an absent key is the zero `Time`. -/
def pickCutoff (cutoffs : GoMap Nat Time) (cutoff : Time) (sn : Nat) : Time :=
  let sectorCutoff := (cutoffs.lookup sn).getD 0
  if cutoff = 0 ∨ (sectorCutoff ≠ 0 ∧ sectorCutoff < cutoff) then sectorCutoff else cutoff

/-- The two loops of `batchWait`: over `b.todo`, then over `b.waiting`. -/
def earliestCutoff (b : PreCommitBatcher) : Time :=
  b.waiting.keys.foldl (pickCutoff b.cutoffs) (b.todo.keys.foldl (pickCutoff b.cutoffs) 0)

/-- The method `batchWait`; `now` is the reading of `time.Now()`. -/
def batchWait (b : PreCommitBatcher) (now : Time) (maxWait slack : Duration) : Duration :=
  if b.todo.length = 0 then maxWait
  else
    let cutoff := earliestCutoff b
    if cutoff = 0 then maxWait
    else
      let cutoff := cutoff + (-slack)
      if cutoff < now then Nanosecond
      else
        let wait := cutoff - now
        if wait > maxWait then maxWait else wait

/-- Loop of `processBatch` over `b.todo`: entries are taken until the batch holds
`MaxPreCommitBatch` of them. -/
def collectBatch (maxPreCommitBatch : Int) :
    GoMap Nat preCommitEntry → List preCommitEntry → List preCommitEntry
  | [], acc => acc
  | (_, p) :: rest, acc =>
    if (acc.length : Int) ≥ maxPreCommitBatch then acc
    else collectBatch maxPreCommitBatch rest (acc ++ [p])

/-- What `processBatch` returns and does. -/
structure BatchOut where
  res : List PreCommitBatchRes
  err : Option String
  calls : List ApiCall
deriving DecidableEq, Repr

/-- The method `processBatch`. -/
def processBatch (env : BatcherEnv) (b : PreCommitBatcher) (cfg : Config) : BatchOut :=
  let batch := collectBatch cfg.MaxPreCommitBatch b.todo []
  let res : PreCommitBatchRes := { Sectors := batch.map (fun p => p.pci.SectorNumber) }
  let params := batch.map (fun p => p.pci)
  let deposit := (batch.map (fun p => p.deposit)).foldl (fun x y => x + y) 0
  let c1 := [ApiCall.marshalCBOR params]
  match env.marshalCBOR params with
  | .error e =>
    { res := [res], err := some ("couldn't serialize PreCommitSectorBatchParams: " ++ e),
      calls := c1 }
  | .ok enc =>
    let c2 := c1 ++ [ApiCall.stateMinerInfo env.maddr]
    match env.stateMinerInfo with
    | .error e => { res := [res], err := some ("couldn't get miner info: " ++ e), calls := c2 }
    | .ok mi =>
      let maxFee := env.maxPreCommitBatchGasFee.FeeForSectors params.length
      let goodFunds := deposit + maxFee
      let c3 := c2 ++ [ApiCall.addrSel mi goodFunds deposit]
      match env.addrSel mi goodFunds deposit with
      | .error e => { res := [res], err := some ("no good address found: " ++ e), calls := c3 }
      | .ok sender =>
        let c4 := c3 ++ [ApiCall.messagerSendMsg sender env.maddr deposit maxFee enc]
        match env.messagerSendMsg sender deposit maxFee enc with
        | .error e => { res := [res], err := some ("sending message failed: " ++ e), calls := c4 }
        | .ok uid => { res := [{ res with Msg := uid }], err := none, calls := c4 }

/-- The maps of the batcher together with the results put on waiting channels. -/
structure DeliverState where
  b : PreCommitBatcher
  delivered : List (ChanId × PreCommitBatchRes) := []
deriving DecidableEq, Repr

/-- Innermost loops of `maybeStartBatch` for one sector number of a result: send
`r` on every channel of `b.waiting[sn]`, then delete `sn` from the three maps. -/
def deliverSector (r : PreCommitBatchRes) (st : DeliverState) (sn : Nat) : DeliverState :=
  { b := { st.b with
      waiting := st.b.waiting.delete sn,
      todo := st.b.todo.delete sn,
      cutoffs := st.b.cutoffs.delete sn },
    delivered := st.delivered ++ ((st.b.waiting.lookup sn).getD []).map (fun ch => (ch, r)) }

/-- The statement `if err != nil { r.Error = err.Error() }` of `maybeStartBatch`
on the loop variable `r`, which is a copy of the element of `res`. -/
def sentCopy (err : Option String) (r : PreCommitBatchRes) : PreCommitBatchRes :=
  match err with
  | none => r
  | some e => { r with Error := e }

/-- Body of the loop `for _, r := range res` of `maybeStartBatch`. -/
def deliverResult (err : Option String) (st : DeliverState) (r : PreCommitBatchRes) :
    DeliverState :=
  r.Sectors.foldl (deliverSector (sentCopy err r)) st

/-- What `maybeStartBatch` returns and does. -/
structure StartOut where
  b : PreCommitBatcher
  res : List PreCommitBatchRes := []
  err : Option String := none
  delivered : List (ChanId × PreCommitBatchRes) := []
  calls : List ApiCall := []
deriving DecidableEq, Repr

/-- The method `maybeStartBatch`. -/
def maybeStartBatch (env : BatcherEnv) (b : PreCommitBatcher) (notif : Bool) : StartOut :=
  let total := b.todo.length
  if total = 0 then { b := b }
  else
    match env.getConfig with
    | .error e => { b := b, err := some ("getting config: " ++ e) }
    | .ok cfg =>
      if notif ∧ (total : Int) < cfg.MaxPreCommitBatch then { b := b }
      else
        let out := processBatch env b cfg
        if out.err.isSome ∧ out.res.length = 0 then { b := b, err := out.err, calls := out.calls }
        else
          let st := out.res.foldl (deliverResult out.err) { b := b }
          { b := st.b, res := out.res, err := none, delivered := st.delivered,
            calls := out.calls }

/-- Loop body of `getPreCommitCutoff` over the pieces of the sector. -/
def cutoffStep (cutoffEpoch : ChainEpoch) (p : Piece) : ChainEpoch :=
  match p.DealInfo with
  | none => cutoffEpoch
  | some d =>
    if d.DealSchedule.StartEpoch < cutoffEpoch then d.DealSchedule.StartEpoch else cutoffEpoch

/-- The function `getPreCommitCutoff`.  `lookback` is the constant
`policy.MaxPreCommitRandomnessLookback` and `now` the reading of `time.Now()`. -/
def getPreCommitCutoff (lookback : ChainEpoch) (now : Time) (curEpoch : ChainEpoch)
    (si : SectorInfo) (blockDelaySecs : Nat) : Time :=
  let cutoffEpoch := si.Pieces.foldl cutoffStep (si.TicketEpoch + lookback)
  if cutoffEpoch ≤ curEpoch then now
  else now + (cutoffEpoch - curEpoch) * (blockDelaySecs : Int) * Second

/-- The method `AddPreCommit` up to the point where the caller parks on its
result channel: the registration done under `lk`.  Returns the new state and the
channel of the caller, or the error of `ChainHead`. -/
def AddPreCommit (lookback : ChainEpoch) (blockDelaySecs : Nat) (now : Time)
    (chainHead : Except String ChainEpoch) (b : PreCommitBatcher) (s : SectorInfo)
    (deposit : Int) (pci : SectorPreCommitInfo) : PreCommitBatcher × Except String ChanId :=
  match chainHead with
  | .error e => (b, .error e)
  | .ok curEpoch =>
    let sn := s.SectorNumber
    let sent := b.nextChan
    ({ cutoffs := b.cutoffs.set sn (getPreCommitCutoff lookback now curEpoch s blockDelaySecs),
       todo := b.todo.set sn { deposit := deposit, pci := pci },
       waiting := b.waiting.set sn ((b.waiting.lookup sn).getD [] ++ [sent]),
       notify := true,
       nextChan := b.nextChan + 1 },
     .ok sent)

/-- The method `Pending`; `mid` is the result of `address.IDFromAddress(b.maddr)`. -/
def Pending (mid : Except String Nat) (b : PreCommitBatcher) : Except String (List SectorID) :=
  match mid with
  | .error e => .error e
  | .ok id =>
    .ok (sortSlice
      (fun (x y : SectorID) =>
        if x.Miner ≠ y.Miner then decide (x.Miner < y.Miner) else decide (x.Number < y.Number))
      (b.todo.map (fun e => ({ Miner := id, Number := e.2.pci.SectorNumber } : SectorID))))

/-- One move of the batcher: a registration by `AddPreCommit` or a call of
`maybeStartBatch` by the background loop. -/
inductive BatcherStep : PreCommitBatcher → PreCommitBatcher → Prop where
  | addPreCommit (lookback : ChainEpoch) (blockDelaySecs : Nat) (now : Time)
      (chainHead : Except String ChainEpoch) (b : PreCommitBatcher) (s : SectorInfo)
      (deposit : Int) (pci : SectorPreCommitInfo) :
      BatcherStep b (AddPreCommit lookback blockDelaySecs now chainHead b s deposit pci).1
  | maybeStartBatch (env : BatcherEnv) (b : PreCommitBatcher) (notif : Bool) :
      BatcherStep b (maybeStartBatch env b notif).b

/-- The states the batcher can be in, starting from `NewPreCommitBatcher`. -/
inductive BatcherReachable : PreCommitBatcher → Prop where
  | init : BatcherReachable NewPreCommitBatcher
  | step {b b1 : PreCommitBatcher} :
      BatcherReachable b → BatcherStep b b1 → BatcherReachable b1

/-- The local variable `params.Sectors` of `processBatch` after its loop. -/
def batchParams (b : PreCommitBatcher) (cfg : Config) : List SectorPreCommitInfo :=
  (collectBatch cfg.MaxPreCommitBatch b.todo []).map (fun p => p.pci)

/-- The local variable `res.Sectors` of `processBatch` after its loop. -/
def batchSectors (b : PreCommitBatcher) (cfg : Config) : List Nat :=
  (collectBatch cfg.MaxPreCommitBatch b.todo []).map (fun p => p.pci.SectorNumber)

/-- The local variable `deposit` of `processBatch` after its loop. -/
def batchDeposit (b : PreCommitBatcher) (cfg : Config) : Int :=
  ((collectBatch cfg.MaxPreCommitBatch b.todo []).map (fun p => p.deposit)).foldl
    (fun x y => x + y) 0

/-- The local variable `maxFee` of `processBatch`. -/
def batchMaxFee (env : BatcherEnv) (b : PreCommitBatcher) (cfg : Config) : Int :=
  env.maxPreCommitBatchGasFee.FeeForSectors (batchParams b cfg).length

/-- The comparison function with which the test sorts `r[0].Sectors`. -/
def sectorNumberLess (x y : Nat) : Bool := decide (x < y)

/-- The arguments of one successful call of `AddPreCommit`, with the readings of
the clock and of the chain head it sees. -/
structure Registration where
  now : Time
  curEpoch : ChainEpoch
  s : SectorInfo
  deposit : Int
  pci : SectorPreCommitInfo
deriving DecidableEq, Repr

/-- The batcher after a sequence of `AddPreCommit` registrations. -/
def registerAll (lookback : ChainEpoch) (blockDelaySecs : Nat) (regs : List Registration)
    (b : PreCommitBatcher) : PreCommitBatcher :=
  regs.foldl
    (fun acc g =>
      (AddPreCommit lookback blockDelaySecs g.now (.ok g.curEpoch) acc g.s g.deposit g.pci).1)
    b

/-- The comparison function that `Pending` hands to `sort.Slice`. -/
def sectorIDLess (x y : SectorID) : Bool :=
  if x.Miner ≠ y.Miner then decide (x.Miner < y.Miner) else decide (x.Number < y.Number)

/-! ## Reference definitions taken from the specification -/

/-- Least element of a list of times, `none` for the empty list. -/
def minTime : List Time → Option Time
  | [] => none
  | c :: cs =>
    match minTime cs with
    | none => some c
    | some m => some (min c m)

/-- The cutoffs that are set (not the zero `Time`) for the given sector numbers. -/
def setCutoffs (cutoffs : GoMap Nat Time) (sns : List Nat) : List Time :=
  (sns.filterMap (fun s => cutoffs.lookup s)).filter (fun c => decide (c ≠ 0))

/-- Reference definition of `batchWait` in the words of the specification:
`maxWait` when `todo` is empty; otherwise, with `cutoff` the minimum of
`cutoffs[s]` over `s` in `todo` or `waiting` (unset and zero cutoffs ignored),
`maxWait` when there is no such cutoff and `min(cutoff - slack - now, maxWait)`
when `cutoff - slack` is after `now`.  `none` where these sentences say nothing
(`cutoff - slack` not after `now`). -/
def batchWaitRef (b : PreCommitBatcher) (now : Time) (maxWait slack : Duration) :
    Option Duration :=
  if b.todo = [] then some maxWait
  else
    match minTime (setCutoffs b.cutoffs (b.todo.keys ++ b.waiting.keys)) with
    | none => some maxWait
    | some cutoff =>
      if now < cutoff - slack then some (min (cutoff - slack - now) maxWait) else none

/-- Greatest element of a list of epochs, `none` for the empty list. -/
def maxEpoch : List ChainEpoch → Option ChainEpoch
  | [] => none
  | c :: cs =>
    match maxEpoch cs with
    | none => some c
    | some m => some (max c m)

/-- End epochs of the pieces that have deal info and whose deal does not end
before epoch `E`. -/
def liveDealEnds (E : ChainEpoch) (ps : List Piece) : List ChainEpoch :=
  ((ps.filterMap (fun pc => pc.DealInfo)).map (fun d => d.DealSchedule.EndEpoch)).filter
    (fun e => decide (E ≤ e))

/-- Alignment to the proving period in the words of the specification:
`end + WPoStProvingPeriod - (end mod WPoStProvingPeriod) + provingBoundary - 1`,
with `mod` the remainder of the source language. -/
def alignRef (wpostProvingPeriod provingBoundary e : ChainEpoch) : ChainEpoch :=
  e + wpostProvingPeriod - Int.tmod e wpostProvingPeriod + provingBoundary - 1

/-- Pre-alignment end epoch in the words of the specification. -/
def expirationEndRef (E duration : ChainEpoch) (ps : List Piece) : ChainEpoch :=
  match maxEpoch (liveDealEnds E ps) with
  | some m => m
  | none => E + duration

/-- Reference definition of `Expiration` in the words of the specification: the
aligned end epoch, and an error together with epoch 0 when `ChainHead` fails. -/
def ExpirationRef (wpostProvingPeriod : ChainEpoch) (p : BasicPreCommitPolicy)
    (chainHead : Except String ChainEpoch) (ps : List Piece) : ChainEpoch × Option String :=
  match chainHead with
  | .error e => (0, some e)
  | .ok E =>
    (alignRef wpostProvingPeriod p.provingBoundary (expirationEndRef E p.duration ps), none)

/-- Start epochs of the pieces that have deal info. -/
def dealStarts (ps : List Piece) : List ChainEpoch :=
  (ps.filterMap (fun pc => pc.DealInfo)).map (fun d => d.DealSchedule.StartEpoch)

/-- Cutoff epoch in the words of the specification:
`min(ticketEpoch + MaxPreCommitRandomnessLookback, min over pieces of deal.startEpoch)`. -/
def cutoffEpochRef (lookback : ChainEpoch) (si : SectorInfo) : ChainEpoch :=
  (dealStarts si.Pieces).foldr min (si.TicketEpoch + lookback)

/-- Reference definition of `getPreCommitCutoff` in the words of the
specification. -/
def getPreCommitCutoffRef (lookback : ChainEpoch) (now : Time) (curEpoch : ChainEpoch)
    (si : SectorInfo) (blockDelaySecs : Nat) : Time :=
  if cutoffEpochRef lookback si ≤ curEpoch then now
  else now + (cutoffEpochRef lookback si - curEpoch) * (blockDelaySecs : Int) * Second

/-! ## Concrete states used by the statements below -/

/-- A 2KiB sector (unpadded capacity 2032) without pieces, and two pending
pieces of 127 and 254 bytes, both of which leave padding 0. -/
def stateTwoSizes : Sealing :=
  { pendingPieces := [(1, { size := 127 }), (2, { size := 254 })],
    openSectors := [({ Miner := 1000, Number := 1 }, { used := 0 })] }

/-- The state `stateTwoSizes` with the pending pieces visited in the other order. -/
def stateTwoSizesRev : Sealing :=
  { pendingPieces := [(2, { size := 254 }), (1, { size := 127 })],
    openSectors := [({ Miner := 1000, Number := 1 }, { used := 0 })] }

/-- A 2KiB sector that holds one piece of 127 bytes, and two pending pieces of
127 and 1016 bytes. -/
def stateOverfill : Sealing :=
  { pendingPieces := [(1, { size := 127 }), (2, { size := 1016 })],
    openSectors := [({ Miner := 1000, Number := 1 }, { used := 127 })] }

/-- The state `stateOverfill` with the pending pieces visited in the other order. -/
def stateOverfillRev : Sealing :=
  { pendingPieces := [(2, { size := 1016 }), (1, { size := 127 })],
    openSectors := [({ Miner := 1000, Number := 1 }, { used := 127 })] }

/-- A piece of padded size 128 that carries a deal with the given schedule. -/
def dealPiece (startEpoch endEpoch : ChainEpoch) : Piece :=
  { Size := 128,
    DealInfo := some { DealID := 1, DealSchedule := { StartEpoch := startEpoch, EndEpoch := endEpoch } } }

/-- A piece of padded size 128 without deal info. -/
def fillerPiece : Piece := { Size := 128, DealInfo := none }

/-- A policy with default duration 10 and proving boundary 0. -/
def policyTen : BasicPreCommitPolicy := { provingBoundary := 0, duration := 10 }

/-- One hour, `time.Hour`. -/
def Hour : Duration := 3600 * Second

/-- A reading of the clock. -/
def clockNow : Time := 63800000000 * Second

/-- Two registered sectors with cutoffs `later0` and `later1` after `clockNow`. -/
def batcherTwo (later0 later1 : Duration) : PreCommitBatcher :=
  { cutoffs := [(0, clockNow + later0), (1, clockNow + later1)],
    todo := [(0, { deposit := 0, pci := { SectorNumber := 0 } }),
             (1, { deposit := 0, pci := { SectorNumber := 1 } })],
    waiting := [(0, [0]), (1, [1])],
    notify := true,
    nextChan := 2 }

/-- An environment whose configuration allows batches of `maxBatch` sectors and
whose messager answers with the message UID `"uid"`. -/
def envBatch (maxBatch : Int) : BatcherEnv :=
  { getConfig := .ok { MaxPreCommitBatch := maxBatch },
    messagerSendMsg := fun _ _ _ _ => .ok "uid" }

/-- The batcher after `AddPreCommit` for sector 0 and for sector 1 and a timer
flush with `MaxPreCommitBatch = 1`, which sends sector 0 alone. -/
def batcherAfterFlush : PreCommitBatcher :=
  (maybeStartBatch (envBatch 1)
    (AddPreCommit 10 30 clockNow (.ok 1)
      (AddPreCommit 10 30 clockNow (.ok 1) NewPreCommitBatcher
        { SectorNumber := 0 } 0 { SectorNumber := 0 }).1
      { SectorNumber := 1 } 0 { SectorNumber := 1 }).1
    false).b

/-- The batcher invariant: every sector number of `todo` has a cutoff and at
least one waiting channel. -/
def BatcherInv (b : PreCommitBatcher) : Prop :=
  ∀ sn, b.todo.has sn = true →
    b.cutoffs.has sn = true ∧ ∃ chs, b.waiting.lookup sn = some chs ∧ chs ≠ []

/-- No channel occurs twice in a waiting map: not twice in the list of a sector
and not in the lists of two sectors. -/
def ChansDistinct (w : GoMap Nat (List ChanId)) : Prop :=
  ∀ s chs, w.lookup s = some chs →
    chs.Nodup ∧ ∀ s2 chs2, s2 ≠ s → w.lookup s2 = some chs2 → ∀ c ∈ chs, c ∉ chs2

/-- The channels of a batcher are distinct and were all allocated before
`nextChan`. -/
def ChansFresh (b : PreCommitBatcher) : Prop :=
  (b.waiting.map Prod.snd).flatten.Nodup ∧ ∀ c ∈ (b.waiting.map Prod.snd).flatten, c < b.nextChan

/-- The entries of `todo` are filed under their own sector number, as
`AddPreCommit` does for a caller that passes the pre-commit info of the sector
it names, and no key occurs twice. -/
def TodoKeyed (todo : GoMap Nat preCommitEntry) : Prop :=
  todo.keys.Nodup ∧ ∀ e ∈ todo, e.2.pci.SectorNumber = e.1

/-- A registration of sector `sn` with its own pre-commit info and no deposit. -/
def regOf (sn : Nat) : Registration :=
  { now := clockNow, curEpoch := 1, s := { SectorNumber := sn }, deposit := 0,
    pci := { SectorNumber := sn } }

/-- The batcher `batcherTwo` with `todo` visited in the order 1, 0. -/
def batcherTwoRev : PreCommitBatcher :=
  { cutoffs := [(0, clockNow + Hour), (1, clockNow + Hour)],
    todo := [(1, { deposit := 0, pci := { SectorNumber := 1 } }),
             (0, { deposit := 0, pci := { SectorNumber := 0 } })],
    waiting := [(0, [0]), (1, [1])],
    notify := true,
    nextChan := 2 }

/-- An environment in which the miner info query fails. -/
def envNoMinerInfo : BatcherEnv :=
  { getConfig := .ok { MaxPreCommitBatch := 256 },
    stateMinerInfo := .error "unreachable" }

/-- Two whole-sector pieces of 2032 bytes and one empty 2KiB sector. -/
def stateTie : Sealing :=
  { pendingPieces := [(1, { size := 2032 }), (2, { size := 2032 })],
    openSectors := [({ Miner := 1000, Number := 1 }, { used := 0 })] }

/-- The state `stateTie` with the pending pieces visited in the other order. -/
def stateTieRev : Sealing :=
  { pendingPieces := [(2, { size := 2032 }), (1, { size := 2032 })],
    openSectors := [({ Miner := 1000, Number := 1 }, { used := 0 })] }

/-- Scenario D scaled to a 2KiB sector: sector 1 has 1016 bytes used, sector 2
has 1524 bytes used, sector 2 is visited first; one assigned piece and one
pending piece of 508 bytes. -/
def stateScenarioD : Sealing :=
  { pendingPieces := [(7, { size := 254, assigned := true }), (8, { size := 508 })],
    openSectors := [({ Miner := 1000, Number := 2 }, { used := 1524 }),
                    ({ Miner := 1000, Number := 1 }, { used := 1016 })] }

/-- A matcher in which deal 8 is pending. -/
def statePending : Sealing :=
  { pendingPieces := [(8, { size := 508 })] }

/-- Sector 7, created at Unix time 1700000000, without pieces. -/
def sectorSeven : SectorInfo := { SectorNumber := 7, CreationTime := 1700000000 }

/-- An environment with a cap of two sealing sectors, a wait of six hours for
deals and 8 as the next sector number. -/
def envCaps : InputEnv :=
  { getConfig := .ok { MaxSealingSectorsForDeals := 2, WaitDealsDelay := 6 * Hour },
    scNext := .ok 8 }

/-- A matcher that is creating sector 7 while one sector is sealing. -/
def stateCreatingSeven : Sealing := { creating := some 7, stats := { curSealing := 1 } }

/-- A matcher with a running timer for sector 7 that fires six hours after the
creation of the sector. -/
def stateTimerSeven : Sealing :=
  { sectorTimers := [({ Miner := 0, Number := 7 }, { fireAt := timeUnix 1700000000 + 6 * Hour })] }

/-- A matcher in which the deals 8, 9 and 10, of unpadded sizes 508, 1016 and
1016, are assigned to sector 7. -/
def stateThreeAssigned : Sealing :=
  { pendingPieces := [(8, { size := 508, assigned := true }),
                      (9, { size := 1016, assigned := true }),
                      (10, { size := 1016, assigned := true })],
    assignedPieces := [({ Miner := 0, Number := 7 }, [8, 9, 10])] }

/-- An environment whose `GetRequiredPadding` fills the gap to the next multiple
of the piece size with one padding piece. -/
def envAligned : InputEnv :=
  { getRequiredPadding := fun a b =>
      if 128 ∣ (b - a % b) ∧ a % b ≠ 0 then ([b - a % b], b - a % b) else ([], 0) }

/-- An environment whose sealer fails on the second piece of a sector. -/
def envDiskFull : InputEnv :=
  { sealerAddPiece := fun existing size _ =>
      if existing.length = 1 then .error "disk full" else .ok (Padded size) }

/-- An environment in which the configuration cannot be read. -/
def envConfigDown : InputEnv := { getConfig := .error "unreachable" }

/-- The matcher after `handleWaitDeals` for sector 7 half an hour after its
creation, with a wait of six hours for deals: the sector is open and its timer
runs. -/
def stateSevenWaiting : Sealing :=
  (handleWaitDeals envCaps {} (timeUnix 1700000000 + 1800 * Second) sectorSeven).1

/-- The matcher after a further `handleWaitDeals` for sector 7 one hour after its
creation, during which the configuration cannot be read. -/
def stateSevenConfigFailed : Sealing :=
  (handleWaitDeals envConfigDown stateSevenWaiting (timeUnix 1700000000 + Hour) sectorSeven).1

/-! ## Go maps: lookup after update -/

namespace GoMap

variable {K V : Type} [DecidableEq K]

theorem lookup_delete (m : GoMap K V) (k k1 : K) :
    lookup (delete m k) k1 = if k1 = k then none else lookup m k1 := by
  induction m with
  | nil => simp [delete, lookup]
  | cons e rest ih =>
    obtain ⟨k0, v⟩ := e
    unfold delete at ih ⊢
    by_cases h0 : k0 = k
    · subst h0
      by_cases h1 : k1 = k0
      · subst h1
        simpa [List.filter, lookup] using ih
      · have h2 : ¬ k0 = k1 := fun h => h1 h.symm
        simpa [List.filter, lookup, h1, h2] using ih
    · by_cases h1 : k1 = k
      · subst h1
        simpa [List.filter, lookup, h0] using ih
      · by_cases h2 : k0 = k1
        · simp [List.filter, lookup, h0, h1, h2]
        · simpa [List.filter, lookup, h0, h1, h2] using ih

theorem lookup_set (m : GoMap K V) (k k1 : K) (v : V) :
    lookup (set m k v) k1 = if k1 = k then some v else lookup m k1 := by
  induction m with
  | nil =>
    by_cases h1 : k1 = k
    · subst h1; simp [set, lookup]
    · have h2 : ¬ k = k1 := fun h => h1 h.symm
      simp [set, lookup, h1, h2]
  | cons e rest ih =>
    obtain ⟨k0, v0⟩ := e
    by_cases h0 : k0 = k
    · subst h0
      by_cases h1 : k1 = k0
      · subst h1; simp [set, lookup]
      · have h2 : ¬ k0 = k1 := fun h => h1 h.symm
        simp [set, lookup, h1, h2]
    · by_cases h1 : k1 = k
      · subst h1
        simpa [set, lookup, h0] using ih
      · by_cases h2 : k0 = k1
        · simp [set, lookup, h0, h1, h2]
        · simpa [set, lookup, h0, h1, h2] using ih

theorem lookup_foldl_delete (sns : List K) (m : GoMap K V) (k : K) :
    lookup (sns.foldl delete m) k = if k ∈ sns then none else lookup m k := by
  induction sns generalizing m with
  | nil => simp
  | cons s rest ih =>
    rw [List.foldl_cons, ih, lookup_delete]
    by_cases h1 : k = s
    · simp [h1]
    · by_cases h2 : k ∈ rest
      · simp [h2]
      · simp [h1, h2]

theorem mem_of_lookup (m : GoMap K V) (k : K) (v : V) (h : lookup m k = some v) :
    (k, v) ∈ m := by
  induction m with
  | nil => simp [lookup] at h
  | cons e rest ih =>
    obtain ⟨k0, v0⟩ := e
    by_cases h0 : k0 = k
    · simp [lookup, h0] at h
      simp [h0, h]
    · simp [lookup, h0] at h
      exact List.mem_cons_of_mem _ (ih h)

end GoMap

/-! ## The matcher -/

/-- Among matches of equal padding the comparison of `updateInput` ranks the
smaller piece first. -/
theorem matchLess_of_smaller_size (x y : Match) (hp : x.padding = y.padding)
    (hs : x.size < y.size) : matchLess x y = true ∧ matchLess y x = false := by
  have h1 : x.size ≠ y.size := Nat.ne_of_lt hs
  have h2 : y.size ≠ x.size := fun h => h1 h.symm
  have h3 : ¬ y.size < x.size := Nat.lt_asymm hs
  simp [matchLess, hp, h1, h2, hs, h3]

/-- C1 (the code at the failing input): a 2KiB sector with nothing used and two
pending pieces of 127 and 254 bytes give two matches of padding 0; in either
iteration order of `pendingPieces` the sorted list of `updateInput` has the
127-byte piece before the 254-byte piece, the smaller piece first. -/
theorem updateInput_sorts_smaller_piece_first :
    sortedMatches (Unpadded 2048) stateTwoSizes =
      [{ sector := { Miner := 1000, Number := 1 }, deal := 1, size := 127, padding := 0 },
       { sector := { Miner := 1000, Number := 1 }, deal := 2, size := 254, padding := 0 }] ∧
    sortedMatches (Unpadded 2048) stateTwoSizesRev =
      [{ sector := { Miner := 1000, Number := 1 }, deal := 1, size := 127, padding := 0 },
       { sector := { Miner := 1000, Number := 1 }, deal := 2, size := 254, padding := 0 }] := by
  decide

/-- C2 (the code at the failing input): a 2KiB sector (capacity 2032) with 127
bytes used takes the pending pieces of 127 and 1016 bytes in one pass of
`updateInput`; afterwards `used` is 2159, above the capacity, and the next
`capacity - used` wraps around to `2^64 - 127`.  Both iteration orders of
`pendingPieces` give this. -/
theorem updateInput_overfills_sector :
    (updateInput {} stateOverfill 0).1.openSectors =
      [({ Miner := 1000, Number := 1 }, { used := 2159 })] ∧
    (updateInput {} stateOverfillRev 0).1.openSectors =
      [({ Miner := 1000, Number := 1 }, { used := 2159 })] ∧
    (updateInput {} stateOverfill 0).1.assignedPieces =
      [({ Miner := 1000, Number := 1 }, [1, 2])] ∧
    Unpadded 2048 = 2032 ∧
    subU64 (Unpadded 2048) 2159 = 2 ^ 64 - 127 := by
  decide

/-! ## The batcher: `batchWait` -/

/-- The cutoff search of `batchWait` from a running value `acc`: the set cutoffs
of the visited sectors are merged into it by `min`. -/
theorem foldl_pickCutoff (cutoffs : GoMap Nat Time) (sns : List Nat) (acc : Time) :
    sns.foldl (pickCutoff cutoffs) acc =
      match minTime (setCutoffs cutoffs sns) with
      | none => acc
      | some m => if acc = 0 then m else min acc m := by
  induction sns generalizing acc with
  | nil => simp [setCutoffs, minTime]
  | cons s rest ih =>
    rw [List.foldl_cons, ih]
    cases hl : cutoffs.lookup s with
    | none =>
      have e1 : setCutoffs cutoffs (s :: rest) = setCutoffs cutoffs rest := by
        simp [setCutoffs, List.filterMap_cons, hl]
      have e2 : pickCutoff cutoffs acc s = acc := by
        unfold pickCutoff
        simp only [hl, Option.getD_none]
        split_ifs with h
        · rcases h with h | h
          · exact h.symm
          · exact absurd rfl h.1
        · rfl
      rw [e1, e2]
    | some c =>
      by_cases hc : c = 0
      · have e1 : setCutoffs cutoffs (s :: rest) = setCutoffs cutoffs rest := by
          simp [setCutoffs, List.filterMap_cons, hl, hc]
        have e2 : pickCutoff cutoffs acc s = acc := by
          unfold pickCutoff
          simp only [hl, Option.getD_some, hc]
          split_ifs with h
          · rcases h with h | h
            · exact h.symm
            · exact absurd rfl h.1
          · rfl
        rw [e1, e2]
      · have e1 : setCutoffs cutoffs (s :: rest) = c :: setCutoffs cutoffs rest := by
          simp [setCutoffs, List.filterMap_cons, hl, hc]
        have e2 : pickCutoff cutoffs acc s = if acc = 0 then c else min acc c := by
          unfold pickCutoff
          simp only [hl, Option.getD_some]
          by_cases ha : acc = 0
          · simp [ha]
          · by_cases hlt : c < acc
            · simp [ha, hc, hlt, min_eq_right (le_of_lt hlt)]
            · simp [ha, hc, hlt, min_eq_left (not_lt.mp hlt)]
        rw [e1, e2]
        simp only [minTime]
        cases hm : minTime (setCutoffs cutoffs rest) with
        | none => simp
        | some m =>
          by_cases ha : acc = 0
          · simp [ha, hc]
          · simp only [ha, if_false]
            by_cases hz : min acc c = 0
            · exfalso
              rcases min_choice acc c with h | h
              · exact ha (h ▸ hz)
              · exact hc (h ▸ hz)
            · simp [hz, min_assoc]

/-- Every element of the least-time search is one of the given times. -/
theorem minTime_mem (l : List Time) (m : Time) (h : minTime l = some m) : m ∈ l := by
  induction l generalizing m with
  | nil => simp [minTime] at h
  | cons c cs ih =>
    simp only [minTime] at h
    cases hm : minTime cs with
    | none =>
      rw [hm] at h
      simp at h
      simp [h]
    | some m1 =>
      rw [hm] at h
      simp at h
      rcases min_choice c m1 with h1 | h1
      · simp [← h, h1]
      · rw [h1] at h
        exact List.mem_cons_of_mem _ (ih m1 hm |> fun x => h ▸ x)

/-- The earliest cutoff found by `batchWait` is the least set cutoff over the
sectors of `todo` and `waiting`, and the zero `Time` when there is none. -/
theorem earliestCutoff_eq (b : PreCommitBatcher) :
    earliestCutoff b =
      (minTime (setCutoffs b.cutoffs (b.todo.keys ++ b.waiting.keys))).getD 0 := by
  unfold earliestCutoff
  rw [← List.foldl_append, foldl_pickCutoff]
  cases minTime (setCutoffs b.cutoffs (b.todo.keys ++ b.waiting.keys)) <;> simp

/-- C3 (counterexample): with an empty `todo` and `maxWait = 0` the duration
returned by `batchWait` is `0`, which is not positive. -/
theorem batchWait_zero_maxWait :
    ¬ (0 < batchWait NewPreCommitBatcher clockNow 0 (3 * Hour) ∧
       batchWait NewPreCommitBatcher clockNow 0 (3 * Hour) ≤ 0) := by
  decide

/-- C3 (amended): for every batcher state, every `now`, every `slack` and every
positive `maxWait`, `batchWait` returns at most `maxWait`, and it returns a
positive duration unless `todo` is non-empty and the earliest cutoff minus
`slack` is exactly `now`. -/
theorem batchWait_bounds (b : PreCommitBatcher) (now : Time) (maxWait slack : Duration)
    (hmax : 0 < maxWait) :
    batchWait b now maxWait slack ≤ maxWait ∧
    (¬ (b.todo ≠ [] ∧ earliestCutoff b ≠ 0 ∧ earliestCutoff b - slack = now) →
      0 < batchWait b now maxWait slack) := by
  unfold batchWait
  by_cases ht : b.todo.length = 0
  · simp [ht, hmax]
  · have hne : b.todo ≠ [] := fun h => ht (by simp [h])
    by_cases hc : earliestCutoff b = 0
    · simp [ht, hc, hmax]
    · simp only [ht, hc, if_false, Nanosecond]
      by_cases hlt : earliestCutoff b + -slack < now
      · simp only [hlt, if_true]
        exact ⟨by simp only [Time, Duration] at *; omega,
          fun _ => by simp only [Time, Duration] at *; omega⟩
      · simp only [hlt, if_false]
        by_cases hw : earliestCutoff b + -slack - now > maxWait
        · simp only [hw, if_true]
          exact ⟨le_refl _, fun _ => hmax⟩
        · simp only [hw, if_false]
          refine ⟨by simp only [Time, Duration] at *; omega, fun hn => ?_⟩
          have hneq : earliestCutoff b - slack ≠ now := fun h => hn ⟨hne, hc, h⟩
          simp only [Time, Duration] at *
          omega

/-- C3 (witness): the two sectors of the cutoff-driven scenario, cutoffs 10
minutes and 2 hours after now, `maxWait` 24 hours and `slack` 3 hours. -/
theorem batchWait_bounds_witness :
    0 < 24 * Hour ∧
    batchWait (batcherTwo (Hour / 6) (2 * Hour)) clockNow (24 * Hour) (3 * Hour) ≤ 24 * Hour ∧
    0 < batchWait (batcherTwo (Hour / 6) (2 * Hour)) clockNow (24 * Hour) (3 * Hour) :=
  ⟨by decide,
   (batchWait_bounds (batcherTwo (Hour / 6) (2 * Hour)) clockNow (24 * Hour) (3 * Hour)
      (by decide)).1,
   (batchWait_bounds (batcherTwo (Hour / 6) (2 * Hour)) clockNow (24 * Hour) (3 * Hour)
      (by decide)).2 (by decide)⟩

/-- C4 (the code at the failing input): sector 0 has its cutoff 3 hours after now
and `slack` is 3 hours, so the deadline is exactly `now`; `batchWait` returns the
duration `0`, not one nanosecond.  With the cutoffs 10 minutes and 2 hours after
now the deadline is before `now` and the result is one nanosecond. -/
theorem batchWait_deadline_now_returns_zero :
    earliestCutoff (batcherTwo (3 * Hour) (5 * Hour)) - 3 * Hour = clockNow ∧
    batchWait (batcherTwo (3 * Hour) (5 * Hour)) clockNow (24 * Hour) (3 * Hour) = 0 ∧
    batchWait (batcherTwo (Hour / 6) (2 * Hour)) clockNow (24 * Hour) (3 * Hour) =
      Nanosecond := by
  decide

/-- When the deadline is strictly before `now`, `batchWait` returns one
nanosecond. -/
theorem batchWait_deadline_passed (b : PreCommitBatcher) (now : Time)
    (maxWait slack : Duration) (ht : b.todo ≠ []) (hc : earliestCutoff b ≠ 0)
    (hd : earliestCutoff b - slack < now) :
    batchWait b now maxWait slack = Nanosecond := by
  unfold batchWait
  have h0 : ¬ b.todo.length = 0 := fun h => ht (List.length_eq_zero.mp h)
  have h1 : earliestCutoff b + -slack < now := by
    simp only [Time, Duration] at *
    omega
  simp [h0, hc, h1]

/-- C5: `batchWait` equals its reference definition wherever that is defined:
`maxWait` for an empty `todo`; otherwise, with `cutoff` the least set cutoff over
the sectors in `todo` or `waiting`, `maxWait` when there is none and
`min(cutoff - slack - now, maxWait)` when `cutoff - slack` is after `now`. -/
theorem batchWait_eq_ref (b : PreCommitBatcher) (now : Time) (maxWait slack d : Duration)
    (h : batchWaitRef b now maxWait slack = some d) :
    batchWait b now maxWait slack = d := by
  unfold batchWaitRef at h
  unfold batchWait
  by_cases ht : b.todo = []
  · simp [ht] at h
    simp [ht, h]
  · have h0 : ¬ b.todo.length = 0 := fun h => ht (List.length_eq_zero.mp h)
    simp only [ht, if_false] at h
    simp only [h0, if_false]
    rw [earliestCutoff_eq]
    cases hm : minTime (setCutoffs b.cutoffs (b.todo.keys ++ b.waiting.keys)) with
    | none =>
      rw [hm] at h
      simp at h
      simp [h]
    | some c =>
      rw [hm] at h
      have hmem := minTime_mem _ _ hm
      have hc : c ≠ 0 := by
        simp only [setCutoffs, List.mem_filter, decide_eq_true_eq] at hmem
        exact hmem.2
      simp only [Option.getD_some, hc, if_false]
      by_cases hlt : now < c - slack
      · simp only [hlt, if_true, Option.some.injEq] at h
        have h1 : ¬ c + -slack < now := by
          simp only [Time, Duration] at *
          omega
        simp only [h1, if_false]
        rw [← h]
        by_cases hw : c + -slack - now > maxWait
        · simp only [hw, if_true]
          rw [min_eq_right]
          simp only [Time, Duration] at *
          omega
        · simp only [hw, if_false]
          have hle : c - slack - now ≤ maxWait := by
            simp only [Time, Duration] at *
            omega
          rw [min_eq_left hle]
          simp only [Time, Duration] at *
          omega
      · simp [hlt] at h

/-- C5 (witness): sector 0 has its cutoff 5 hours after now, sector 1 has it 7
hours after now, `slack` is 3 hours and `maxWait` 24 hours: the wait is 2 hours. -/
theorem batchWait_eq_ref_witness :
    batchWaitRef (batcherTwo (5 * Hour) (7 * Hour)) clockNow (24 * Hour) (3 * Hour) =
      some (2 * Hour) ∧
    batchWait (batcherTwo (5 * Hour) (7 * Hour)) clockNow (24 * Hour) (3 * Hour) = 2 * Hour :=
  ⟨by decide,
   batchWait_eq_ref (batcherTwo (5 * Hour) (7 * Hour)) clockNow (24 * Hour) (3 * Hour)
     (2 * Hour) (by decide)⟩

/-! ## The pre-commit policy -/

/-- The loop of `Expiration` from a running value `acc`: the end epochs of the
deals that have not ended are merged into it by `max`. -/
theorem foldl_expirationStep (E : ChainEpoch) (ps : List Piece) (acc : Option ChainEpoch) :
    ps.foldl (expirationStep E) acc =
      match maxEpoch (liveDealEnds E ps) with
      | none => acc
      | some m =>
        match acc with
        | none => some m
        | some a => some (max a m) := by
  induction ps generalizing acc with
  | nil => simp [liveDealEnds, maxEpoch]
  | cons pc rest ih =>
    rw [List.foldl_cons, ih]
    cases hd : pc.DealInfo with
    | none =>
      have e1 : liveDealEnds E (pc :: rest) = liveDealEnds E rest := by
        simp [liveDealEnds, List.filterMap_cons, hd]
      have e2 : expirationStep E acc pc = acc := by simp [expirationStep, hd]
      rw [e1, e2]
    | some d =>
      by_cases hlt : d.DealSchedule.EndEpoch < E
      · have hle : ¬ E ≤ d.DealSchedule.EndEpoch := not_le.mpr hlt
        have e1 : liveDealEnds E (pc :: rest) = liveDealEnds E rest := by
          simp [liveDealEnds, List.filterMap_cons, hd, hle]
        have e2 : expirationStep E acc pc = acc := by simp [expirationStep, hd, hlt]
        rw [e1, e2]
      · have hle : E ≤ d.DealSchedule.EndEpoch := not_lt.mp hlt
        have e1 : liveDealEnds E (pc :: rest) =
            d.DealSchedule.EndEpoch :: liveDealEnds E rest := by
          simp [liveDealEnds, List.filterMap_cons, hd, hle]
        have e2 : expirationStep E acc pc =
            match acc with
            | none => some d.DealSchedule.EndEpoch
            | some a => some (max a d.DealSchedule.EndEpoch) := by
          cases acc with
          | none => simp [expirationStep, hd, hlt]
          | some a =>
            by_cases h2 : a < d.DealSchedule.EndEpoch
            · simp [expirationStep, hd, hlt, h2, max_eq_right (le_of_lt h2)]
            · simp [expirationStep, hd, hlt, h2, max_eq_left (not_lt.mp h2)]
        rw [e1, e2]
        simp only [maxEpoch]
        cases hm : maxEpoch (liveDealEnds E rest) with
        | none => cases acc <;> simp
        | some m => cases acc <;> simp [max_assoc]

/-- The greatest-epoch search returns an element that bounds all the others. -/
theorem maxEpoch_spec (l : List ChainEpoch) (m : ChainEpoch) (h : maxEpoch l = some m) :
    m ∈ l ∧ ∀ x ∈ l, x ≤ m := by
  induction l generalizing m with
  | nil => simp [maxEpoch] at h
  | cons c cs ih =>
    simp only [maxEpoch] at h
    cases hm : maxEpoch cs with
    | none =>
      rw [hm] at h
      simp only [Option.some.injEq] at h
      have hnil : cs = [] := by
        cases cs with
        | nil => rfl
        | cons c2 cs2 =>
          simp only [maxEpoch] at hm
          cases h3 : maxEpoch cs2 <;> simp [h3] at hm
      subst hnil
      simp [h]
    | some m1 =>
      rw [hm] at h
      simp only [Option.some.injEq] at h
      obtain ⟨hmem, hub⟩ := ih m1 hm
      subst h
      refine ⟨?_, ?_⟩
      · rcases max_choice c m1 with h1 | h1
        · simp [h1]
        · rw [h1]; exact List.mem_cons_of_mem _ hmem
      · intro x hx
        rcases List.mem_cons.mp hx with h2 | h2
        · subst h2; exact le_max_left _ _
        · exact le_trans (hub x h2) (le_max_right _ _)

/-- The greatest-epoch search fails on the empty list only. -/
theorem maxEpoch_eq_none (l : List ChainEpoch) (h : maxEpoch l = none) : l = [] := by
  cases l with
  | nil => rfl
  | cons c cs =>
    simp only [maxEpoch] at h
    cases h3 : maxEpoch cs <;> simp [h3] at h

/-- Membership in the list of live deal ends. -/
theorem mem_liveDealEnds (E : ChainEpoch) (ps : List Piece) (e : ChainEpoch) :
    e ∈ liveDealEnds E ps ↔
      ∃ pc ∈ ps, ∃ d, pc.DealInfo = some d ∧ d.DealSchedule.EndEpoch = e ∧ E ≤ e := by
  simp only [liveDealEnds, List.mem_filter, List.mem_map, List.mem_filterMap,
    decide_eq_true_eq]
  constructor
  · rintro ⟨⟨d, ⟨pc, hpc, hd⟩, he⟩, hE⟩
    exact ⟨pc, hpc, d, hd, he, hE⟩
  · rintro ⟨pc, hpc, d, hd, he, hE⟩
    exact ⟨⟨d, ⟨pc, hpc, hd⟩, he⟩, hE⟩

/-- The value of `Expiration` when `ChainHead` succeeds, by the list of live
deal ends. -/
theorem Expiration_ok (wpp : ChainEpoch) (p : BasicPreCommitPolicy) (E : ChainEpoch)
    (ps : List Piece) :
    Expiration wpp p (.ok E) ps =
      (alignRef wpp p.provingBoundary
        (match maxEpoch (liveDealEnds E ps) with
         | some m => m
         | none => E + p.duration), none) := by
  simp only [Expiration, foldl_expirationStep, alignRef]
  cases maxEpoch (liveDealEnds E ps) with
  | none =>
    simp only [Prod.mk.injEq, and_true]
    simp only [ChainEpoch]
    omega
  | some m =>
    simp only [Prod.mk.injEq, and_true]
    simp only [ChainEpoch]
    omega

/-- C6: for a positive proving period, `Expiration` equals its reference
definition: when `ChainHead` yields epoch `E` it returns, without error,
`end + WPoStProvingPeriod - (end mod WPoStProvingPeriod) + provingBoundary - 1`
for `end` the greatest deal end epoch among the pieces with deal info and
`endEpoch >= E`, or `E + duration` when there is no such piece; it returns an
error, with epoch 0, exactly when `ChainHead` fails.  For a non-negative `end`
the remainder of the source language is the mathematical one. -/
theorem Expiration_eq_ref (wpp : ChainEpoch) (p : BasicPreCommitPolicy)
    (chainHead : Except String ChainEpoch) (ps : List Piece) (hw : 0 < wpp) :
    Expiration wpp p chainHead ps = ExpirationRef wpp p chainHead ps ∧
    ((Expiration wpp p chainHead ps).2 ≠ none ↔ ∃ e, chainHead = .error e) ∧
    (∀ e, chainHead = .error e → Expiration wpp p chainHead ps = (0, some e)) ∧
    (∀ E, chainHead = .ok E → 0 ≤ expirationEndRef E p.duration ps →
      Int.tmod (expirationEndRef E p.duration ps) wpp =
        expirationEndRef E p.duration ps % wpp) := by
  refine ⟨?_, ?_, ?_, ?_⟩
  · cases chainHead with
    | error e => rfl
    | ok E =>
      rw [Expiration_ok]
      simp only [ExpirationRef, expirationEndRef]
  · cases chainHead with
    | error e => simp [Expiration]
    | ok E => simp [Expiration]
  · intro e he
    subst he
    rfl
  · intro E _ h0
    exact Int.tmod_eq_emod h0 (le_of_lt hw)

/-- C6 (witness): proving period 2880, boundary 0, chain head at epoch 55 and
pieces whose deals end at 100 and at 200, next to a piece without deal info and
a deal that ended at 30: the expiration is 2879. -/
theorem Expiration_eq_ref_witness :
    (0 : ChainEpoch) < 2880 ∧
    ExpirationRef 2880 policyTen (.ok 55)
      [dealPiece 0 100, fillerPiece, dealPiece 0 200, dealPiece 0 30] = (2879, none) ∧
    Expiration 2880 policyTen (.ok 55)
      [dealPiece 0 100, fillerPiece, dealPiece 0 200, dealPiece 0 30] =
      ExpirationRef 2880 policyTen (.ok 55)
        [dealPiece 0 100, fillerPiece, dealPiece 0 200, dealPiece 0 30] :=
  ⟨by decide, by decide,
   (Expiration_eq_ref 2880 policyTen (.ok 55)
      [dealPiece 0 100, fillerPiece, dealPiece 0 200, dealPiece 0 30] (by decide)).1⟩

/-- C7 (counterexample): with proving period 2880, boundary 0, default duration
10 and the chain head at epoch 55, a sector whose only piece carries a deal that
ends at epoch 100 expires at 2879, not at 100; a sector without pieces expires
at 2879, not at 55 + 10; and a sector whose only deal ended at epoch 30 expires
at 2879, not at 30. -/
theorem Expiration_is_not_the_plain_end :
    (Expiration 2880 policyTen (.ok 55) [dealPiece 0 100]).1 ≠ 100 ∧
    (Expiration 2880 policyTen (.ok 55) []).1 ≠ 55 + policyTen.duration ∧
    (Expiration 2880 policyTen (.ok 55) [dealPiece 0 30]).1 ≠ 30 := by
  decide

/-- C7 (amended): for a positive proving period and chain head epoch `E`: when
some piece carries a deal with `endEpoch >= E`, `Expiration` returns the greatest
end epoch `m` of such a piece, aligned to the proving period
(`m + WPoStProvingPeriod - (m mod WPoStProvingPeriod) + provingBoundary - 1`);
when no piece carries such a deal, in particular when no piece has deal info, it
returns `E + duration` aligned in the same way. -/
theorem Expiration_modes (wpp : ChainEpoch) (p : BasicPreCommitPolicy) (E : ChainEpoch)
    (ps : List Piece) (hw : 0 < wpp) :
    ((∃ pc ∈ ps, ∃ d, pc.DealInfo = some d ∧ E ≤ d.DealSchedule.EndEpoch) →
      ∃ m, (∃ pc ∈ ps, ∃ d, pc.DealInfo = some d ∧ d.DealSchedule.EndEpoch = m ∧ E ≤ m) ∧
        (∀ pc ∈ ps, ∀ d, pc.DealInfo = some d → E ≤ d.DealSchedule.EndEpoch →
          d.DealSchedule.EndEpoch ≤ m) ∧
        Expiration wpp p (.ok E) ps =
          (m + wpp - Int.tmod m wpp + p.provingBoundary - 1, none)) ∧
    ((∀ pc ∈ ps, ∀ d, pc.DealInfo = some d → d.DealSchedule.EndEpoch < E) →
      Expiration wpp p (.ok E) ps =
        (E + p.duration + wpp - Int.tmod (E + p.duration) wpp + p.provingBoundary - 1,
         none)) := by
  have _ := hw
  constructor
  · rintro ⟨pc, hpc, d, hd, hE⟩
    have hmem : d.DealSchedule.EndEpoch ∈ liveDealEnds E ps :=
      (mem_liveDealEnds E ps _).mpr ⟨pc, hpc, d, hd, rfl, hE⟩
    cases hm : maxEpoch (liveDealEnds E ps) with
    | none =>
      rw [maxEpoch_eq_none _ hm] at hmem
      simp at hmem
    | some m =>
      obtain ⟨h1, h2⟩ := maxEpoch_spec _ m hm
      refine ⟨m, (mem_liveDealEnds E ps m).mp h1, ?_, ?_⟩
      · intro pc2 hpc2 d2 hd2 hE2
        exact h2 _ ((mem_liveDealEnds E ps _).mpr ⟨pc2, hpc2, d2, hd2, rfl, hE2⟩)
      · rw [Expiration_ok, hm]
        rfl
  · intro hall
    cases hm : maxEpoch (liveDealEnds E ps) with
    | none =>
      rw [Expiration_ok, hm]
      rfl
    | some m =>
      obtain ⟨h1, _⟩ := maxEpoch_spec _ m hm
      obtain ⟨pc, hpc, d, hd, he, hE⟩ := (mem_liveDealEnds E ps m).mp h1
      have := hall pc hpc d hd
      simp only [ChainEpoch] at *
      omega

/-- C7 (witness): the deals of the sector end at 100 and 200 and the chain head
is at epoch 55, so the expiration is 200 aligned, which is 2879; without pieces
it is 55 + 10 aligned, again 2879. -/
theorem Expiration_modes_witness :
    (0 : ChainEpoch) < 2880 ∧
    (∃ m, (∃ pc ∈ [dealPiece 0 100, fillerPiece, dealPiece 0 200], ∃ d,
          pc.DealInfo = some d ∧ d.DealSchedule.EndEpoch = m ∧ 55 ≤ m) ∧
        (∀ pc ∈ [dealPiece 0 100, fillerPiece, dealPiece 0 200], ∀ d,
          pc.DealInfo = some d → 55 ≤ d.DealSchedule.EndEpoch →
          d.DealSchedule.EndEpoch ≤ m) ∧
        Expiration 2880 policyTen (.ok 55) [dealPiece 0 100, fillerPiece, dealPiece 0 200] =
          (m + 2880 - Int.tmod m 2880 + policyTen.provingBoundary - 1, none)) ∧
    Expiration 2880 policyTen (.ok 55) [] =
      (55 + policyTen.duration + 2880 - Int.tmod (55 + policyTen.duration) 2880 +
        policyTen.provingBoundary - 1, none) :=
  ⟨by decide,
   (Expiration_modes 2880 policyTen 55 [dealPiece 0 100, fillerPiece, dealPiece 0 200]
      (by decide)).1
     ⟨dealPiece 0 100, by simp, { DealID := 1, DealSchedule := { StartEpoch := 0, EndEpoch := 100 } },
      rfl, by decide⟩,
   (Expiration_modes 2880 policyTen 55 [] (by decide)).2 (by simp)⟩

/-! ## The batcher: `getPreCommitCutoff` -/

/-- Merging a start epoch into the base of a `min` fold. -/
theorem foldr_min_base (l : List ChainEpoch) (s c : ChainEpoch) :
    l.foldr min (min s c) = min s (l.foldr min c) := by
  induction l with
  | nil => rfl
  | cons x rest ih =>
    simp only [List.foldr_cons, ih]
    rw [← min_assoc, min_comm x s, min_assoc]

/-- The loop of `getPreCommitCutoff` computes the least of the running epoch
and the deal start epochs. -/
theorem foldl_cutoffStep (ps : List Piece) (c : ChainEpoch) :
    ps.foldl cutoffStep c = (dealStarts ps).foldr min c := by
  induction ps generalizing c with
  | nil => rfl
  | cons pc rest ih =>
    rw [List.foldl_cons, ih]
    cases hd : pc.DealInfo with
    | none =>
      have e1 : dealStarts (pc :: rest) = dealStarts rest := by
        simp [dealStarts, List.filterMap_cons, hd]
      have e2 : cutoffStep c pc = c := by simp [cutoffStep, hd]
      rw [e1, e2]
    | some d =>
      have e1 : dealStarts (pc :: rest) = d.DealSchedule.StartEpoch :: dealStarts rest := by
        simp [dealStarts, List.filterMap_cons, hd]
      have e2 : cutoffStep c pc = min d.DealSchedule.StartEpoch c := by
        by_cases h2 : d.DealSchedule.StartEpoch < c
        · simp [cutoffStep, hd, h2, min_eq_left (le_of_lt h2)]
        · simp [cutoffStep, hd, h2, min_eq_right (not_lt.mp h2)]
      rw [e1, e2, List.foldr_cons, foldr_min_base]

/-- Pieces without deal info contribute no start epoch. -/
theorem dealStarts_filter (ps : List Piece) :
    dealStarts (ps.filter (fun pc => pc.DealInfo.isSome)) = dealStarts ps := by
  induction ps with
  | nil => rfl
  | cons pc rest ih =>
    cases hd : pc.DealInfo with
    | none =>
      have e1 : dealStarts (pc :: rest) = dealStarts rest := by
        simp [dealStarts, List.filterMap_cons, hd]
      rw [e1, ← ih]
      simp [List.filter_cons, hd]
    | some d =>
      have e1 : ∀ l, dealStarts (pc :: l) = d.DealSchedule.StartEpoch :: dealStarts l := by
        intro l
        simp [dealStarts, List.filterMap_cons, hd]
      rw [e1, ← ih]
      simp [List.filter_cons, hd, e1]

/-- C8: for every current epoch, sector info and block delay,
`getPreCommitCutoff` equals its reference definition: with
`cutoffEpoch = min(ticketEpoch + MaxPreCommitRandomnessLookback, least deal start
epoch over the pieces with deal info)` the cutoff is `now` when
`cutoffEpoch <= curEpoch` and `now + (cutoffEpoch - curEpoch) * blockDelaySecs`
seconds otherwise; dropping the pieces without deal info does not change it. -/
theorem getPreCommitCutoff_eq_ref (lookback : ChainEpoch) (now : Time) (curEpoch : ChainEpoch)
    (si : SectorInfo) (blockDelaySecs : Nat) :
    getPreCommitCutoff lookback now curEpoch si blockDelaySecs =
      getPreCommitCutoffRef lookback now curEpoch si blockDelaySecs ∧
    getPreCommitCutoff lookback now curEpoch
        { si with Pieces := si.Pieces.filter (fun pc => pc.DealInfo.isSome) } blockDelaySecs =
      getPreCommitCutoff lookback now curEpoch si blockDelaySecs := by
  have h1 : ∀ s : SectorInfo, getPreCommitCutoff lookback now curEpoch s blockDelaySecs =
      getPreCommitCutoffRef lookback now curEpoch s blockDelaySecs := by
    intro s
    simp only [getPreCommitCutoff, getPreCommitCutoffRef, cutoffEpochRef, foldl_cutoffStep]
  refine ⟨h1 si, ?_⟩
  rw [h1, h1]
  simp only [getPreCommitCutoffRef, cutoffEpochRef, dealStarts_filter]

/-! ## The batcher: `maybeStartBatch` -/

/-- The result list of `processBatch` has exactly one element. -/
theorem processBatch_res (env : BatcherEnv) (b : PreCommitBatcher) (cfg : Config) :
    ∃ r, (processBatch env b cfg).res = [r] := by
  unfold processBatch
  simp only
  cases env.marshalCBOR _ with
  | error e => exact ⟨_, rfl⟩
  | ok enc =>
    cases env.stateMinerInfo with
    | error e => exact ⟨_, rfl⟩
    | ok mi =>
      simp only
      cases env.addrSel mi _ _ with
      | error e => exact ⟨_, rfl⟩
      | ok sender =>
        simp only
        cases env.messagerSendMsg sender _ _ _ with
        | error e => exact ⟨_, rfl⟩
        | ok uid => exact ⟨_, rfl⟩

/-- The two ways `maybeStartBatch` ends: nothing is processed and nothing
changes, or the one result of `processBatch` is delivered sector by sector. -/
theorem maybeStartBatch_cases (env : BatcherEnv) (b : PreCommitBatcher) (notif : Bool) :
    ((maybeStartBatch env b notif).res = [] ∧ (maybeStartBatch env b notif).b = b ∧
      (maybeStartBatch env b notif).delivered = []) ∨
    ∃ cfg r, env.getConfig = .ok cfg ∧ (processBatch env b cfg).res = [r] ∧
      (maybeStartBatch env b notif).res = [r] ∧
      (maybeStartBatch env b notif).b =
        (r.Sectors.foldl (deliverSector (sentCopy (processBatch env b cfg).err r))
          { b := b }).b ∧
      (maybeStartBatch env b notif).delivered =
        (r.Sectors.foldl (deliverSector (sentCopy (processBatch env b cfg).err r))
          { b := b }).delivered := by
  unfold maybeStartBatch
  by_cases h0 : b.todo.length = 0
  · left
    simp [h0]
  · cases hc : env.getConfig with
    | error e =>
      left
      simp [h0]
    | ok cfg =>
      by_cases hn : notif = true ∧ (b.todo.length : Int) < cfg.MaxPreCommitBatch
      · left
        simp [h0, hn]
      · obtain ⟨r, hr⟩ := processBatch_res env b cfg
        right
        refine ⟨cfg, r, rfl, hr, ?_⟩
        simp only [h0, hn, if_false, hr, List.foldl_cons, List.foldl_nil, deliverResult]
        rw [if_neg (by simp)]
        exact ⟨rfl, rfl, rfl⟩

/-- The maps after the loop over the sectors of a result: each sector number is
deleted from all three. -/
theorem foldl_deliverSector_maps (r : PreCommitBatchRes) (sns : List Nat) (st : DeliverState) :
    (sns.foldl (deliverSector r) st).b.todo = sns.foldl GoMap.delete st.b.todo ∧
    (sns.foldl (deliverSector r) st).b.waiting = sns.foldl GoMap.delete st.b.waiting ∧
    (sns.foldl (deliverSector r) st).b.cutoffs = sns.foldl GoMap.delete st.b.cutoffs := by
  induction sns generalizing st with
  | nil => exact ⟨rfl, rfl, rfl⟩
  | cons s rest ih =>
    simp only [List.foldl_cons]
    exact ih (deliverSector r st s)

/-- Deleting a sector keeps the channels distinct. -/
theorem chansDistinct_delete {w : GoMap Nat (List ChanId)} (h : ChansDistinct w) (k : Nat) :
    ChansDistinct (w.delete k) := by
  intro s chs hs
  rw [GoMap.lookup_delete] at hs
  by_cases h1 : s = k
  · simp [h1] at hs
  · simp only [h1, if_false] at hs
    refine ⟨(h s chs hs).1, ?_⟩
    intro s2 chs2 hne hs2
    rw [GoMap.lookup_delete] at hs2
    by_cases h2 : s2 = k
    · simp [h2] at hs2
    · simp only [h2, if_false] at hs2
      exact (h s chs hs).2 s2 chs2 hne hs2

/-- A waiting map whose channel lists, taken together, have no repetition has
distinct channels. -/
theorem chansDistinct_of_nodup (w : GoMap Nat (List ChanId))
    (h : (w.map Prod.snd).flatten.Nodup) : ChansDistinct w := by
  induction w with
  | nil =>
    intro s chs hs
    simp [GoMap.lookup] at hs
  | cons e rest ih =>
    obtain ⟨k, v⟩ := e
    simp only [List.map_cons, List.flatten_cons, List.nodup_append] at h
    obtain ⟨hv, hrest, hdis⟩ := h
    have inRest : ∀ s chs, GoMap.lookup rest s = some chs → ∀ c ∈ chs,
        c ∈ (rest.map Prod.snd).flatten := by
      intro s chs hs c hc
      exact List.mem_flatten.mpr
        ⟨chs, List.mem_map.mpr ⟨(s, chs), GoMap.mem_of_lookup rest s chs hs, rfl⟩, hc⟩
    intro s chs hs
    by_cases hk : k = s
    · simp only [GoMap.lookup, hk, if_true, Option.some.injEq] at hs
      subst hs
      refine ⟨hv, ?_⟩
      intro s2 chs2 hne hs2
      have hk2 : ¬ k = s2 := fun h2 => hne (h2 ▸ hk)
      simp only [GoMap.lookup, hk2, if_false] at hs2
      intro c hc hc2
      exact hdis hc (inRest s2 chs2 hs2 c hc2)
    · simp only [GoMap.lookup, hk, if_false] at hs
      refine ⟨(ih hrest s chs hs).1, ?_⟩
      intro s2 chs2 hne hs2
      by_cases hk2 : k = s2
      · simp only [GoMap.lookup, hk2, if_true, Option.some.injEq] at hs2
        subst hs2
        intro c hc hc2
        exact hdis hc2 (inRest s chs hs c hc)
      · simp only [GoMap.lookup, hk2, if_false] at hs2
        exact (ih hrest s chs hs).2 s2 chs2 hne hs2

/-- Sending on the channels of one sector puts exactly one result on a channel
of that sector. -/
theorem filter_sent_mem (chs : List ChanId) (r : PreCommitBatchRes) (ch : ChanId)
    (hnd : chs.Nodup) (hmem : ch ∈ chs) :
    (chs.map (fun c => (c, r))).filter (fun d => decide (d.1 = ch)) = [(ch, r)] := by
  induction chs with
  | nil => simp at hmem
  | cons c rest ih =>
    rw [List.nodup_cons] at hnd
    by_cases hc : c = ch
    · subst hc
      have hnot : ∀ x ∈ rest.map (fun c2 => (c2, r)), ¬ (decide (x.1 = c) = true) := by
        intro x hx
        obtain ⟨c2, hc2, rfl⟩ := List.mem_map.mp hx
        simp only [decide_eq_true_eq]
        intro h2
        exact hnd.1 (h2 ▸ hc2)
      simp [List.filter_cons, List.filter_eq_nil_iff.mpr hnot]
    · have hm2 : ch ∈ rest := by
        rcases List.mem_cons.mp hmem with h2 | h2
        · exact absurd h2.symm hc
        · exact h2
      simp [List.filter_cons, hc, ih hnd.2 hm2]

/-- Sending on the channels of one sector puts nothing on any other channel. -/
theorem filter_sent_not_mem (chs : List ChanId) (r : PreCommitBatchRes) (ch : ChanId)
    (hmem : ch ∉ chs) :
    (chs.map (fun c => (c, r))).filter (fun d => decide (d.1 = ch)) = [] := by
  apply List.filter_eq_nil_iff.mpr
  intro x hx
  obtain ⟨c2, hc2, rfl⟩ := List.mem_map.mp hx
  simp only [decide_eq_true_eq]
  intro h2
  exact hmem (h2 ▸ hc2)

/-- A channel that waits on none of the visited sectors receives nothing. -/
theorem foldl_deliverSector_none (r : PreCommitBatchRes) (ch : ChanId) (sns : List Nat)
    (st : DeliverState)
    (h : ∀ s ∈ sns, ch ∉ (st.b.waiting.lookup s).getD []) :
    (sns.foldl (deliverSector r) st).delivered.filter (fun d => decide (d.1 = ch)) =
      st.delivered.filter (fun d => decide (d.1 = ch)) := by
  induction sns generalizing st with
  | nil => rfl
  | cons s rest ih =>
    rw [List.foldl_cons, ih]
    · simp only [deliverSector, List.filter_append]
      rw [filter_sent_not_mem _ _ _ (h s (List.mem_cons_self _ _))]
      simp
    · intro s2 hs2
      simp only [deliverSector, GoMap.lookup_delete]
      by_cases h2 : s2 = s
      · simp [h2]
      · simp only [h2, if_false]
        exact h s2 (List.mem_cons_of_mem _ hs2)

/-- A channel that waits on one of the visited sectors receives the result
exactly once. -/
theorem foldl_deliverSector_once (r : PreCommitBatchRes) (ch : ChanId) (sns : List Nat)
    (st : DeliverState) (hd : ChansDistinct st.b.waiting) (s : Nat) (hs : s ∈ sns)
    (chs : List ChanId) (hl : st.b.waiting.lookup s = some chs) (hch : ch ∈ chs) :
    (sns.foldl (deliverSector r) st).delivered.filter (fun d => decide (d.1 = ch)) =
      st.delivered.filter (fun d => decide (d.1 = ch)) ++ [(ch, r)] := by
  induction sns generalizing st with
  | nil => simp at hs
  | cons s0 rest ih =>
    rw [List.foldl_cons]
    by_cases h0 : s0 = s
    · subst h0
      rw [foldl_deliverSector_none]
      · simp only [deliverSector, List.filter_append, hl, Option.getD_some]
        rw [filter_sent_mem _ _ _ (hd s0 chs hl).1 hch]
      · intro s2 _
        simp only [deliverSector, GoMap.lookup_delete]
        by_cases h2 : s2 = s0
        · simp [h2]
        · simp only [h2, if_false]
          cases hl2 : st.b.waiting.lookup s2 with
          | none => simp
          | some chs2 =>
            simp only [Option.getD_some]
            exact (hd s0 chs hl).2 s2 chs2 h2 hl2 ch hch
    · have hs2 : s ∈ rest := by
        rcases List.mem_cons.mp hs with h2 | h2
        · exact absurd h2.symm h0
        · exact h2
      have hl2 : (deliverSector r st s0).b.waiting.lookup s = some chs := by
        simp only [deliverSector, GoMap.lookup_delete]
        have : ¬ s = s0 := fun h => h0 h.symm
        simp [this, hl]
      rw [ih (deliverSector r st s0) (chansDistinct_delete hd s0) hs2 hl2]
      congr 1
      simp only [deliverSector, List.filter_append]
      cases hl0 : st.b.waiting.lookup s0 with
      | none => simp
      | some chs0 =>
        simp only [Option.getD_some]
        rw [filter_sent_not_mem]
        · simp
        · intro hmem
          exact (hd s chs hl).2 s0 chs0 h0 hl0 ch hch hmem

/-- C9: when the channels registered in `waiting` are pairwise distinct, then
for every sector number `s` in the `Sectors` of a result returned by
`maybeStartBatch`, every channel of `waiting[s]` receives exactly one value, the
result with `Error` set to the error text of `processBatch` if it failed, and
afterwards `s` is absent from `todo`, `waiting` and `cutoffs`; the entries of
the three maps for the sector numbers that are in no result are unchanged. -/
theorem maybeStartBatch_delivers (env : BatcherEnv) (b : PreCommitBatcher) (notif : Bool)
    (hch : (b.waiting.map Prod.snd).flatten.Nodup) :
    (∀ r ∈ (maybeStartBatch env b notif).res, ∀ s ∈ r.Sectors,
      (∀ chs, b.waiting.lookup s = some chs → ∀ ch ∈ chs,
        ∃ cfg, env.getConfig = .ok cfg ∧
          (maybeStartBatch env b notif).delivered.filter (fun d => decide (d.1 = ch)) =
            [(ch, sentCopy (processBatch env b cfg).err r)]) ∧
      (maybeStartBatch env b notif).b.todo.lookup s = none ∧
      (maybeStartBatch env b notif).b.waiting.lookup s = none ∧
      (maybeStartBatch env b notif).b.cutoffs.lookup s = none) ∧
    (∀ s, (∀ r ∈ (maybeStartBatch env b notif).res, s ∉ r.Sectors) →
      (maybeStartBatch env b notif).b.todo.lookup s = b.todo.lookup s ∧
      (maybeStartBatch env b notif).b.waiting.lookup s = b.waiting.lookup s ∧
      (maybeStartBatch env b notif).b.cutoffs.lookup s = b.cutoffs.lookup s) := by
  rcases maybeStartBatch_cases env b notif with ⟨hres, hb, _⟩ | ⟨cfg, r0, hcfg, _, hres, hb, hdel⟩
  · rw [hres, hb]
    exact ⟨fun r hr => absurd hr (List.not_mem_nil r), fun s _ => ⟨rfl, rfl, rfl⟩⟩
  · obtain ⟨mt, mw, mc⟩ :=
      foldl_deliverSector_maps (sentCopy (processBatch env b cfg).err r0) r0.Sectors { b := b }
    rw [hres, hb, hdel, mt, mw, mc]
    simp only [GoMap.lookup_foldl_delete]
    constructor
    · intro r hr s hs
      have hr0 : r = r0 := by simpa using hr
      subst hr0
      refine ⟨?_, by simp [hs], by simp [hs], by simp [hs]⟩
      intro chs hl ch hc
      refine ⟨cfg, hcfg, ?_⟩
      have := foldl_deliverSector_once (sentCopy (processBatch env b cfg).err r) ch r.Sectors
        { b := b } (chansDistinct_of_nodup _ hch) s hs chs hl hc
      simpa using this
    · intro s hs
      have hs0 : s ∉ r0.Sectors := hs r0 (by simp)
      simp [hs0]

/-- C9 (witness): sectors 0 and 1 wait on the channels 0 and 1; a timer flush
sends both in one batch, and channel 1 receives the result exactly once. -/
theorem maybeStartBatch_delivers_witness :
    (((batcherTwo Hour Hour).waiting.map Prod.snd).flatten.Nodup) ∧
    (∃ cfg, (envBatch 256).getConfig = .ok cfg ∧
      (maybeStartBatch (envBatch 256) (batcherTwo Hour Hour) false).delivered.filter
          (fun d => decide (d.1 = 1)) =
        [(1, sentCopy (processBatch (envBatch 256) (batcherTwo Hour Hour) cfg).err
          { Sectors := [0, 1], Msg := "uid" })]) ∧
    (maybeStartBatch (envBatch 256) (batcherTwo Hour Hour) false).b.todo.lookup 1 = none :=
  ⟨by decide,
   ((maybeStartBatch_delivers (envBatch 256) (batcherTwo Hour Hour) false (by decide)).1
      { Sectors := [0, 1], Msg := "uid" } (by decide) 1 (by decide)).1 [1] (by decide) 1
      (by decide),
   ((maybeStartBatch_delivers (envBatch 256) (batcherTwo Hour Hour) false (by decide)).1
      { Sectors := [0, 1], Msg := "uid" } (by decide) 1 (by decide)).2.1⟩

/-! ## Channels of reachable states are distinct -/

/-- Deleting a sector leaves a sublist of the registered channels. -/
theorem chans_delete_sublist (w : GoMap Nat (List ChanId)) (k : Nat) :
    (((w.delete k).map Prod.snd).flatten).Sublist ((w.map Prod.snd).flatten) := by
  induction w with
  | nil => exact List.Sublist.refl _
  | cons e rest ih =>
    unfold GoMap.delete at ih ⊢
    by_cases h : e.1 = k
    · simp only [List.filter_cons, h, ne_eq, not_true_eq_false, decide_False, List.map_cons,
        List.flatten_cons]
      exact List.Sublist.trans ih (List.sublist_append_right _ _)
    · simp only [List.filter_cons, h, ne_eq, not_false_eq_true, decide_True, if_true,
        List.map_cons, List.flatten_cons]
      exact List.Sublist.append (List.Sublist.refl _) ih

/-- Registering channel `c` for a sector adds `c` to the registered channels. -/
theorem chans_set_perm (w : GoMap Nat (List ChanId)) (k : Nat) (c : ChanId) :
    List.Perm (((w.set k ((w.lookup k).getD [] ++ [c])).map Prod.snd).flatten)
      (c :: (w.map Prod.snd).flatten) := by
  induction w with
  | nil => simp [GoMap.set, GoMap.lookup]
  | cons e rest ih =>
    obtain ⟨k0, v0⟩ := e
    by_cases h : k0 = k
    · simp only [GoMap.set, GoMap.lookup, h, if_true, Option.getD_some, List.map_cons,
        List.flatten_cons, List.append_assoc]
      exact (List.perm_middle).trans (List.Perm.refl _)
    · simp only [GoMap.set, GoMap.lookup, h, if_false, List.map_cons, List.flatten_cons]
      exact (List.Perm.append_left v0 ih).trans List.perm_middle

/-- The loop over the sectors of a result leaves `nextChan` alone. -/
theorem foldl_deliverSector_nextChan (r : PreCommitBatchRes) (sns : List Nat)
    (st : DeliverState) : (sns.foldl (deliverSector r) st).b.nextChan = st.b.nextChan := by
  induction sns generalizing st with
  | nil => rfl
  | cons s rest ih =>
    rw [List.foldl_cons, ih]
    rfl

/-- Deleting several sectors leaves a sublist of the registered channels. -/
theorem chans_foldl_delete_sublist (sns : List Nat) (w : GoMap Nat (List ChanId)) :
    ((((sns.foldl GoMap.delete w).map Prod.snd).flatten)).Sublist
      ((w.map Prod.snd).flatten) := by
  induction sns generalizing w with
  | nil => exact List.Sublist.refl _
  | cons s rest ih =>
    rw [List.foldl_cons]
    exact List.Sublist.trans (ih _) (chans_delete_sublist w s)

/-- The registration of `AddPreCommit` allocates a channel that is not in use. -/
theorem chansFresh_addPreCommit {b : PreCommitBatcher} (h : ChansFresh b)
    (lookback : ChainEpoch) (blockDelaySecs : Nat) (now : Time)
    (chainHead : Except String ChainEpoch) (s : SectorInfo) (deposit : Int)
    (pci : SectorPreCommitInfo) :
    ChansFresh (AddPreCommit lookback blockDelaySecs now chainHead b s deposit pci).1 := by
  cases chainHead with
  | error e => exact h
  | ok curEpoch =>
    have hp := chans_set_perm b.waiting s.SectorNumber b.nextChan
    simp only [AddPreCommit, ChansFresh]
    constructor
    · rw [hp.nodup_iff, List.nodup_cons]
      exact ⟨fun hmem => Nat.lt_irrefl _ (h.2 _ hmem), h.1⟩
    · intro c hc
      rcases List.mem_cons.mp (hp.subset hc) with h1 | h1
      · rw [h1]
        exact Nat.lt_succ_self _
      · exact Nat.lt_succ_of_lt (h.2 c h1)

/-- A call of `maybeStartBatch` only removes channels. -/
theorem chansFresh_maybeStartBatch {b : PreCommitBatcher} (h : ChansFresh b)
    (env : BatcherEnv) (notif : Bool) :
    ChansFresh (VenusSealer.maybeStartBatch env b notif).b := by
  rcases maybeStartBatch_cases env b notif with ⟨_, hb, _⟩ | ⟨cfg, r0, _, _, _, hb, _⟩
  · rw [hb]
    exact h
  · rw [hb]
    have hsub := chans_foldl_delete_sublist r0.Sectors b.waiting
    unfold ChansFresh
    rw [(foldl_deliverSector_maps _ r0.Sectors { b := b }).2.1, foldl_deliverSector_nextChan]
    exact ⟨h.1.sublist hsub, fun c hc => h.2 c (hsub.subset hc)⟩

/-- In every reachable state of the batcher the channels registered in
`waiting` are pairwise distinct. -/
theorem reachable_chans_nodup (b : PreCommitBatcher) (hr : BatcherReachable b) :
    (b.waiting.map Prod.snd).flatten.Nodup := by
  have key : ChansFresh b := by
    induction hr with
    | init => exact ⟨by simp [NewPreCommitBatcher], by simp [NewPreCommitBatcher]⟩
    | step _ hstep ih =>
      cases hstep
      · exact chansFresh_addPreCommit ih _ _ _ _ _ _ _
      · exact chansFresh_maybeStartBatch ih _ _
  exact key.1

/-! ## The batcher invariant -/

/-- Deleting one sector number from the three maps keeps the invariant. -/
theorem batcherInv_deliverSector {st : DeliverState} (h : BatcherInv st.b)
    (r : PreCommitBatchRes) (sn : Nat) : BatcherInv (deliverSector r st sn).b := by
  intro k hk
  simp only [VenusSealer.deliverSector, GoMap.has, GoMap.lookup_delete] at hk ⊢
  by_cases h1 : k = sn
  · simp [h1] at hk
  · simp only [h1, if_false] at hk ⊢
    exact h k hk

/-- The loop over the sectors of a result keeps the invariant. -/
theorem batcherInv_foldl_deliverSector (r : PreCommitBatchRes) (sns : List Nat)
    (st : DeliverState) (h : BatcherInv st.b) :
    BatcherInv (sns.foldl (VenusSealer.deliverSector r) st).b := by
  induction sns generalizing st with
  | nil => exact h
  | cons s rest ih =>
    rw [List.foldl_cons]
    exact ih _ (batcherInv_deliverSector h r s)

/-- The registration of `AddPreCommit` keeps the invariant. -/
theorem batcherInv_addPreCommit {b : PreCommitBatcher} (h : BatcherInv b)
    (lookback : ChainEpoch) (blockDelaySecs : Nat) (now : Time)
    (chainHead : Except String ChainEpoch) (s : SectorInfo) (deposit : Int)
    (pci : SectorPreCommitInfo) :
    BatcherInv (AddPreCommit lookback blockDelaySecs now chainHead b s deposit pci).1 := by
  cases chainHead with
  | error e => exact h
  | ok curEpoch =>
    intro k hk
    simp only [AddPreCommit, GoMap.has, GoMap.lookup_set] at hk ⊢
    by_cases h1 : k = s.SectorNumber
    · simp [h1]
    · simp only [h1, if_false] at hk ⊢
      exact h k hk

/-- A call of `maybeStartBatch` keeps the invariant. -/
theorem batcherInv_maybeStartBatch {b : PreCommitBatcher} (h : BatcherInv b)
    (env : BatcherEnv) (notif : Bool) :
    BatcherInv (VenusSealer.maybeStartBatch env b notif).b := by
  rcases maybeStartBatch_cases env b notif with ⟨_, hb, _⟩ | ⟨cfg, r0, _, _, _, hb, _⟩
  · rw [hb]
    exact h
  · rw [hb]
    exact batcherInv_foldl_deliverSector _ _ { b := b } h

/-- C10: in every state reachable from the empty batcher by `AddPreCommit`
registrations and `maybeStartBatch` calls, every sector number present in `todo`
is present in `cutoffs` and in `waiting`, with at least one waiting channel. -/
theorem batcher_invariant (b : PreCommitBatcher) (hr : BatcherReachable b) :
    ∀ sn, b.todo.has sn = true →
      b.cutoffs.has sn = true ∧ ∃ chs, b.waiting.lookup sn = some chs ∧ chs ≠ [] := by
  show BatcherInv b
  induction hr with
  | init =>
    intro sn hsn
    simp [NewPreCommitBatcher, GoMap.has, GoMap.lookup] at hsn
  | step _ hstep ih =>
    cases hstep
    · exact batcherInv_addPreCommit ih _ _ _ _ _ _ _
    · exact batcherInv_maybeStartBatch ih _ _

/-- C10 (witness): after `AddPreCommit` for the sectors 0 and 1 and a flush that
sends sector 0 alone, sector 1 is in `todo`, has a cutoff and a waiting channel. -/
theorem batcher_invariant_witness :
    BatcherReachable batcherAfterFlush ∧
    batcherAfterFlush.todo.has 1 = true ∧
    batcherAfterFlush.cutoffs.has 1 = true ∧
    ∃ chs, batcherAfterFlush.waiting.lookup 1 = some chs ∧ chs ≠ [] :=
  have hr : BatcherReachable batcherAfterFlush :=
    BatcherReachable.step
      (BatcherReachable.step
        (BatcherReachable.step BatcherReachable.init
          (BatcherStep.addPreCommit 10 30 clockNow (.ok 1) NewPreCommitBatcher
            { SectorNumber := 0 } 0 { SectorNumber := 0 }))
        (BatcherStep.addPreCommit 10 30 clockNow (.ok 1) _
          { SectorNumber := 1 } 0 { SectorNumber := 1 }))
      (BatcherStep.maybeStartBatch (envBatch 1) _ false)
  ⟨hr, by decide, batcher_invariant batcherAfterFlush hr 1 (by decide)⟩

/-! ## `sort.Slice` -/

/-- The inner loop of the insertion sort places the element somewhere. -/
theorem sinkInto_perm {α : Type} (less : α → α → Bool) (x : α) (l : List α) :
    (sinkInto less x l).Perm (x :: l) := by
  induction l with
  | nil => exact List.Perm.refl _
  | cons y ys ih =>
    unfold sinkInto
    by_cases h : less x y = true
    · simp only [h, if_true]
      exact (List.Perm.cons y ih).trans (List.Perm.swap x y ys)
    · simp only [h]
      exact List.Perm.refl _

/-- The sorted slice is a rearrangement of the slice. -/
theorem sortSlice_perm {α : Type} (less : α → α → Bool) (data : List α) :
    (sortSlice less data).Perm data := by
  have key : ∀ (l acc : List α),
      (l.foldl (fun sortedRev x => sinkInto less x sortedRev) acc).Perm (l.reverse ++ acc) := by
    intro l
    induction l with
    | nil => intro acc; exact List.Perm.refl _
    | cons x rest ih =>
      intro acc
      rw [List.foldl_cons, List.reverse_cons, List.append_assoc]
      exact (ih _).trans (List.Perm.append_left _ (sinkInto_perm less x acc))
  unfold sortSlice
  have h1 := key data []
  rw [List.append_nil] at h1
  exact (List.reverse_perm _).trans (h1.trans (List.reverse_perm _))

/-- The inner loop of the insertion sort keeps the prefix ordered, for a
comparison that is asymmetric and whose negation is transitive. -/
theorem sinkInto_pairwise {α : Type} (less : α → α → Bool)
    (hasym : ∀ a b, less a b = true → less b a = false)
    (hnt : ∀ a b c, less a b = false → less b c = false → less a c = false)
    (x : α) (l : List α) (hl : l.Pairwise (fun a b => less a b = false)) :
    (sinkInto less x l).Pairwise (fun a b => less a b = false) := by
  induction l with
  | nil => simp [sinkInto]
  | cons y ys ih =>
    rw [List.pairwise_cons] at hl
    unfold sinkInto
    by_cases h : less x y = true
    · simp only [h, if_true]
      rw [List.pairwise_cons]
      refine ⟨?_, ih hl.2⟩
      intro z hz
      rcases List.mem_cons.mp ((sinkInto_perm less x ys).subset hz) with h1 | h1
      · rw [h1]
        exact hasym x y h
      · exact hl.1 z h1
    · have hxy : less x y = false := by simpa using h
      simp only [hxy, Bool.false_eq_true, if_false]
      rw [List.pairwise_cons]
      refine ⟨?_, List.pairwise_cons.mpr hl⟩
      intro z hz
      rcases List.mem_cons.mp hz with h1 | h1
      · rw [h1]
        exact hxy
      · exact hnt x y z hxy (hl.1 z h1)

/-- In the sorted slice no element is less than an element before it. -/
theorem sortSlice_pairwise {α : Type} (less : α → α → Bool)
    (hasym : ∀ a b, less a b = true → less b a = false)
    (hnt : ∀ a b c, less a b = false → less b c = false → less a c = false)
    (data : List α) :
    (sortSlice less data).Pairwise (fun a b => less b a = false) := by
  have key : ∀ (l acc : List α), acc.Pairwise (fun a b => less a b = false) →
      (l.foldl (fun sortedRev x => sinkInto less x sortedRev) acc).Pairwise
        (fun a b => less a b = false) := by
    intro l
    induction l with
    | nil => intro acc h; exact h
    | cons x rest ih =>
      intro acc h
      rw [List.foldl_cons]
      exact ih _ (sinkInto_pairwise less hasym hnt x acc h)
  unfold sortSlice
  rw [List.pairwise_reverse]
  exact key data [] List.Pairwise.nil

/-- The comparison of `Pending`: by miner, then by sector number. -/
theorem sectorIDLess_iff (a b : SectorID) :
    sectorIDLess a b = true ↔
      (a.Miner < b.Miner ∨ (a.Miner = b.Miner ∧ a.Number < b.Number)) := by
  unfold sectorIDLess
  by_cases hm : a.Miner = b.Miner
  · rw [if_neg (not_not.mpr hm), decide_eq_true_eq]
    omega
  · rw [if_pos hm, decide_eq_true_eq]
    omega

/-- The comparison of `Pending` is asymmetric. -/
theorem sectorIDLess_asymm (a b : SectorID) (h : sectorIDLess a b = true) :
    sectorIDLess b a = false := by
  have h1 := (sectorIDLess_iff a b).mp h
  cases h2 : sectorIDLess b a with
  | false => rfl
  | true =>
    have h3 := (sectorIDLess_iff b a).mp h2
    omega

/-- The negation of the comparison of `Pending` is transitive. -/
theorem sectorIDLess_negTrans (a b c : SectorID) (h1 : sectorIDLess a b = false)
    (h2 : sectorIDLess b c = false) : sectorIDLess a c = false := by
  have g1 : ¬ (a.Miner < b.Miner ∨ (a.Miner = b.Miner ∧ a.Number < b.Number)) :=
    fun h => by rw [(sectorIDLess_iff a b).mpr h] at h1; exact Bool.noConfusion h1
  have g2 : ¬ (b.Miner < c.Miner ∨ (b.Miner = c.Miner ∧ b.Number < c.Number)) :=
    fun h => by rw [(sectorIDLess_iff b c).mpr h] at h2; exact Bool.noConfusion h2
  cases h3 : sectorIDLess a c with
  | false => rfl
  | true =>
    have g3 := (sectorIDLess_iff a c).mp h3
    omega

/-- C16: for every batcher state, `Pending` (with `mid` the miner actor id of the
batcher) returns a list that has exactly one `SectorID` per entry of `todo`,
each with `Miner = mid`, in ascending order of sector number; it only reads the
state, which therefore stays as it is.  It returns the error of
`IDFromAddress` when that fails. -/
theorem Pending_sorted (mid : Nat) (e : String) (b : PreCommitBatcher) :
    (∃ l, Pending (.ok mid) b = .ok l ∧
      l.Perm (b.todo.map
        (fun t => ({ Miner := mid, Number := t.2.pci.SectorNumber } : SectorID))) ∧
      l.length = b.todo.length ∧
      (∀ x ∈ l, x.Miner = mid) ∧
      l.Pairwise (fun x y => x.Number ≤ y.Number)) ∧
    Pending (.error e) b = .error e := by
  refine ⟨⟨_, rfl, ?_, ?_, ?_, ?_⟩, rfl⟩
  · exact sortSlice_perm _ _
  · rw [(sortSlice_perm _ _).length_eq, List.length_map]
  · intro x hx
    have := (sortSlice_perm _ _).subset hx
    simp only [List.mem_map] at this
    obtain ⟨t, _, ht⟩ := this
    rw [← ht]
  · have hm : ∀ x ∈ sortSlice sectorIDLess (b.todo.map
        (fun t => ({ Miner := mid, Number := t.2.pci.SectorNumber } : SectorID))),
        x.Miner = mid := by
      intro x hx
      have := (sortSlice_perm _ _).subset hx
      simp only [List.mem_map] at this
      obtain ⟨t, _, ht⟩ := this
      rw [← ht]
    have hs := sortSlice_pairwise sectorIDLess sectorIDLess_asymm sectorIDLess_negTrans
      (b.todo.map (fun t => ({ Miner := mid, Number := t.2.pci.SectorNumber } : SectorID)))
    have hs2 := List.Pairwise.and_mem.mp hs
    refine List.Pairwise.imp ?_ hs2
    intro x y hxy
    obtain ⟨hx, hy, hl⟩ := hxy
    have h1 := hm x hx
    have h2 := hm y hy
    have g : ¬ (y.Miner < x.Miner ∨ (y.Miner = x.Miner ∧ y.Number < x.Number)) :=
      fun h => by rw [(sectorIDLess_iff y x).mpr h] at hl; exact Bool.noConfusion hl
    omega

/-! ## The batcher: `processBatch` -/

/-- The loop of `processBatch` appends the first entries of `todo`, as many as
the batch still has room for. -/
theorem collectBatch_eq (maxBatch : Int) (todo : GoMap Nat preCommitEntry)
    (acc : List preCommitEntry) :
    collectBatch maxBatch todo acc =
      acc ++ (todo.take (maxBatch.toNat - acc.length)).map Prod.snd := by
  induction todo generalizing acc with
  | nil => simp [collectBatch]
  | cons e rest ih =>
    obtain ⟨k, p⟩ := e
    unfold collectBatch
    by_cases h : (acc.length : Int) ≥ maxBatch
    · have h0 : maxBatch.toNat - acc.length = 0 := by omega
      simp [h, h0]
    · have h1 : maxBatch.toNat - acc.length = (maxBatch.toNat - (acc.length + 1)) + 1 := by
        omega
      rw [if_neg h, ih, h1]
      simp [List.take_succ_cons]

/-- The batch of `processBatch`: the first `MaxPreCommitBatch` entries of `todo`
in iteration order. -/
theorem collectBatch_nil (maxBatch : Int) (todo : GoMap Nat preCommitEntry) :
    collectBatch maxBatch todo [] = (todo.take maxBatch.toNat).map Prod.snd := by
  rw [collectBatch_eq]
  simp

/-- What `processBatch` returns in every case: one result that lists the sector
numbers of the batch and has no `Error`, after a first call that serializes the
pre-commit infos of the batch. -/
theorem processBatch_shape (env : BatcherEnv) (b : PreCommitBatcher) (cfg : Config) :
    ∃ r, (processBatch env b cfg).res = [r] ∧
      r.Sectors =
        (collectBatch cfg.MaxPreCommitBatch b.todo []).map (fun p => p.pci.SectorNumber) ∧
      r.Error = "" ∧
      (processBatch env b cfg).calls.head? =
        some (ApiCall.marshalCBOR
          ((collectBatch cfg.MaxPreCommitBatch b.todo []).map (fun p => p.pci))) := by
  unfold processBatch
  simp only
  cases env.marshalCBOR _ with
  | error e => exact ⟨_, rfl, rfl, rfl, rfl⟩
  | ok enc =>
    cases env.stateMinerInfo with
    | error e => exact ⟨_, rfl, rfl, rfl, rfl⟩
    | ok mi =>
      simp only
      cases env.addrSel mi _ _ with
      | error e => exact ⟨_, rfl, rfl, rfl, rfl⟩
      | ok sender =>
        simp only
        cases env.messagerSendMsg sender _ _ _ with
        | error e => exact ⟨_, rfl, rfl, rfl, rfl⟩
        | ok uid => exact ⟨_, rfl, rfl, rfl, rfl⟩

/-- A text with a non-empty first part is not empty. -/
theorem append_ne_empty (a e : String) (ha : 0 < a.length) : a ++ e ≠ "" := by
  intro h
  have h1 : (a ++ e).length = 0 := by rw [h]; rfl
  rw [String.length_append] at h1
  omega

/-- The error of `processBatch` is never the empty text. -/
theorem processBatch_err_ne_empty (env : BatcherEnv) (b : PreCommitBatcher) (cfg : Config)
    (e : String) (h : (processBatch env b cfg).err = some e) : e ≠ "" := by
  unfold processBatch at h
  simp only at h
  cases h1 : env.marshalCBOR
      ((collectBatch cfg.MaxPreCommitBatch b.todo []).map (fun p => p.pci)) with
  | error e1 =>
    rw [h1] at h
    simp only [Option.some.injEq] at h
    rw [← h]
    exact append_ne_empty _ _ (by decide)
  | ok enc =>
    rw [h1] at h
    cases h2 : env.stateMinerInfo with
    | error e1 =>
      rw [h2] at h
      simp only [Option.some.injEq] at h
      rw [← h]
      exact append_ne_empty _ _ (by decide)
    | ok mi =>
      rw [h2] at h
      simp only at h
      cases h3 : env.addrSel mi
          ((List.map (fun p => p.deposit)
              (collectBatch cfg.MaxPreCommitBatch b.todo [])).foldl (fun x y => x + y) 0 +
            env.maxPreCommitBatchGasFee.FeeForSectors
              (List.map (fun p => p.pci)
                (collectBatch cfg.MaxPreCommitBatch b.todo [])).length)
          ((List.map (fun p => p.deposit)
              (collectBatch cfg.MaxPreCommitBatch b.todo [])).foldl (fun x y => x + y) 0) with
      | error e1 =>
        rw [h3] at h
        simp only [Option.some.injEq] at h
        rw [← h]
        exact append_ne_empty _ _ (by decide)
      | ok sender =>
        rw [h3] at h
        simp only at h
        cases h4 : env.messagerSendMsg sender
            ((List.map (fun p => p.deposit)
                (collectBatch cfg.MaxPreCommitBatch b.todo [])).foldl (fun x y => x + y) 0)
            (env.maxPreCommitBatchGasFee.FeeForSectors
              (List.map (fun p => p.pci)
                (collectBatch cfg.MaxPreCommitBatch b.todo [])).length)
            enc with
        | error e1 =>
          rw [h4] at h
          simp only [Option.some.injEq] at h
          rw [← h]
          exact append_ne_empty _ _ (by decide)
        | ok uid =>
          rw [h4] at h
          simp at h

/-- In a map without repeated keys every entry is the one found under its key. -/
theorem lookup_of_mem {V : Type} (m : GoMap Nat V) (hnd : m.keys.Nodup) (k : Nat) (v : V)
    (h : (k, v) ∈ m) : m.lookup k = some v := by
  induction m with
  | nil => simp at h
  | cons e rest ih =>
    obtain ⟨k0, v0⟩ := e
    simp only [GoMap.keys, List.map_cons, List.nodup_cons] at hnd
    rcases List.mem_cons.mp h with h1 | h1
    · simp only [Prod.mk.injEq] at h1
      simp [GoMap.lookup, h1.1, h1.2]
    · have hne : ¬ k0 = k := by
        intro h2
        apply hnd.1
        rw [h2]
        exact List.mem_map.mpr ⟨(k, v), h1, rfl⟩
      simp only [GoMap.lookup, hne, if_false]
      exact ih hnd.2 h1

/-- C20: for every `todo` whose entries are filed under their own sector number
and every `MaxPreCommitBatch >= 0`, `processBatch` puts exactly
`min(len(todo), MaxPreCommitBatch)` entries into the batch; the sector numbers of
its result are pairwise distinct and each is the number of an entry of `todo`;
the `Sectors` of the result and the sectors of the serialized params have the
same sector numbers in the same order. -/
theorem processBatch_batch (env : BatcherEnv) (b : PreCommitBatcher) (cfg : Config)
    (hmax : 0 ≤ cfg.MaxPreCommitBatch) (hk : TodoKeyed b.todo) :
    ∃ r params, (processBatch env b cfg).res = [r] ∧
      (processBatch env b cfg).calls.head? = some (ApiCall.marshalCBOR params) ∧
      (r.Sectors.length : Int) = min (b.todo.length : Int) cfg.MaxPreCommitBatch ∧
      params.length = r.Sectors.length ∧
      r.Sectors.Nodup ∧
      (∀ s ∈ r.Sectors, ∃ e, b.todo.lookup s = some e ∧ e.pci.SectorNumber = s) ∧
      r.Sectors = params.map (fun i => i.SectorNumber) := by
  obtain ⟨r, hr, hsec, _, hcall⟩ := processBatch_shape env b cfg
  refine ⟨r, _, hr, hcall, ?_, ?_, ?_, ?_, ?_⟩
  · rw [hsec, collectBatch_nil]
    simp only [List.length_map, List.length_take]
    omega
  · rw [hsec]
    simp
  · rw [hsec, collectBatch_nil, List.map_map]
    have hkeys : (b.todo.take cfg.MaxPreCommitBatch.toNat).map
        ((fun p => p.pci.SectorNumber) ∘ Prod.snd) =
        (b.todo.take cfg.MaxPreCommitBatch.toNat).map Prod.fst := by
      apply List.map_congr_left
      intro e he
      exact hk.2 e (List.mem_of_mem_take he)
    rw [hkeys]
    exact hk.1.sublist ((List.take_sublist _ _).map Prod.fst)
  · intro s hs
    rw [hsec, collectBatch_nil, List.map_map] at hs
    obtain ⟨e, he, hes⟩ := List.mem_map.mp hs
    have hmem : e ∈ b.todo := List.mem_of_mem_take he
    have hkey : e.2.pci.SectorNumber = e.1 := hk.2 e hmem
    simp only [Function.comp] at hes
    refine ⟨e.2, ?_, hes⟩
    rw [← hes, hkey]
    exact lookup_of_mem b.todo hk.1 e.1 e.2 hmem
  · rw [hsec]
    simp [List.map_map, Function.comp]

/-- C20 (witness): two registered sectors and `MaxPreCommitBatch = 1`: the batch
holds one entry. -/
theorem processBatch_batch_witness :
    (0 : Int) ≤ ({ MaxPreCommitBatch := 1 } : Config).MaxPreCommitBatch ∧
    TodoKeyed (batcherTwo Hour Hour).todo ∧
    ∃ r params, (processBatch (envBatch 1) (batcherTwo Hour Hour)
        { MaxPreCommitBatch := 1 }).res = [r] ∧
      (processBatch (envBatch 1) (batcherTwo Hour Hour)
        { MaxPreCommitBatch := 1 }).calls.head? = some (ApiCall.marshalCBOR params) ∧
      (r.Sectors.length : Int) =
        min ((batcherTwo Hour Hour).todo.length : Int)
          ({ MaxPreCommitBatch := 1 } : Config).MaxPreCommitBatch ∧
      params.length = r.Sectors.length ∧
      r.Sectors.Nodup ∧
      (∀ s ∈ r.Sectors, ∃ e, (batcherTwo Hour Hour).todo.lookup s = some e ∧
        e.pci.SectorNumber = s) ∧
      r.Sectors = params.map (fun i => i.SectorNumber) :=
  have hk : TodoKeyed (batcherTwo Hour Hour).todo :=
    ⟨by decide, by decide⟩
  ⟨by decide, hk,
   processBatch_batch (envBatch 1) (batcherTwo Hour Hour) { MaxPreCommitBatch := 1 }
     (by decide) hk⟩

/-- C15 (the code at the failing input): `todo` holds the sectors 0 and 1 and
its iteration visits sector 1 first; the params that `processBatch` serializes,
and then sends, list sector 1 before sector 0. -/
theorem processBatch_params_in_iteration_order :
    (processBatch (envBatch 256) batcherTwoRev { MaxPreCommitBatch := 256 }).calls.head? =
      some (ApiCall.marshalCBOR [{ SectorNumber := 1 }, { SectorNumber := 0 }]) ∧
    (processBatch (envBatch 256) batcherTwoRev { MaxPreCommitBatch := 256 }).err = none ∧
    (processBatch (envBatch 256) batcherTwoRev { MaxPreCommitBatch := 256 }).res =
      [{ Sectors := [1, 0], Msg := "uid" }] := by
  decide

/-! ## The batcher: the paths through `maybeStartBatch` -/

/-- When `todo` is not empty, the configuration loads and the threshold does not
hold the batch back, `maybeStartBatch` runs `processBatch` and delivers its one
result sector by sector. -/
theorem maybeStartBatch_run (env : BatcherEnv) (b : PreCommitBatcher) (notif : Bool)
    (cfg : Config) (hcfg : env.getConfig = .ok cfg) (hne : b.todo ≠ [])
    (hrun : ¬ (notif = true ∧ (b.todo.length : Int) < cfg.MaxPreCommitBatch)) :
    ∃ r, (processBatch env b cfg).res = [r] ∧
      maybeStartBatch env b notif =
        { b := (r.Sectors.foldl (deliverSector (sentCopy (processBatch env b cfg).err r))
            { b := b }).b,
          res := [r],
          err := none,
          delivered := (r.Sectors.foldl
            (deliverSector (sentCopy (processBatch env b cfg).err r)) { b := b }).delivered,
          calls := (processBatch env b cfg).calls } := by
  obtain ⟨r, hr⟩ := processBatch_res env b cfg
  refine ⟨r, hr, ?_⟩
  have h0 : ¬ b.todo.length = 0 := fun h => hne (List.length_eq_zero.mp h)
  unfold maybeStartBatch
  simp only [h0, if_false, hcfg, hrun, hr, List.foldl_cons, List.foldl_nil, deliverResult]
  rw [if_neg (by simp)]

/-- The results put on channels only accumulate during the delivery loop. -/
theorem foldl_deliverSector_keeps (r : PreCommitBatchRes) (sns : List Nat) (st : DeliverState)
    (x : ChanId × PreCommitBatchRes) (hx : x ∈ st.delivered) :
    x ∈ (sns.foldl (deliverSector r) st).delivered := by
  induction sns generalizing st with
  | nil => exact hx
  | cons s rest ih =>
    rw [List.foldl_cons]
    apply ih
    simp only [deliverSector]
    exact List.mem_append_left _ hx

/-- Every channel that waits on a visited sector receives the result. -/
theorem foldl_deliverSector_mem (r : PreCommitBatchRes) (ch : ChanId) (sns : List Nat)
    (st : DeliverState) (s : Nat) (hs : s ∈ sns) (chs : List ChanId)
    (hl : st.b.waiting.lookup s = some chs) (hch : ch ∈ chs) :
    (ch, r) ∈ (sns.foldl (deliverSector r) st).delivered := by
  induction sns generalizing st with
  | nil => simp at hs
  | cons s0 rest ih =>
    rw [List.foldl_cons]
    by_cases h0 : s0 = s
    · apply foldl_deliverSector_keeps
      simp only [deliverSector, h0, hl, Option.getD_some]
      exact List.mem_append_right _ (List.mem_map.mpr ⟨ch, hch, rfl⟩)
    · have hs2 : s ∈ rest := by
        rcases List.mem_cons.mp hs with h2 | h2
        · exact absurd h2.symm h0
        · exact h2
      apply ih _ hs2
      simp only [deliverSector, GoMap.lookup_delete]
      have : ¬ s = s0 := fun h => h0 h.symm
      simp [this, hl]

/-- C11: if `processBatch` fails at any step, with the non-empty error text `e`,
then `maybeStartBatch` still sends, on every channel that waits on a sector
number of the batch, the result that lists the sector numbers of the batch and
has `Error = e`, and those sector numbers are removed from `todo`, `waiting` and
`cutoffs`. -/
theorem maybeStartBatch_failure_notifies (env : BatcherEnv) (b : PreCommitBatcher)
    (notif : Bool) (cfg : Config) (e : String)
    (hcfg : env.getConfig = .ok cfg) (hne : b.todo ≠ [])
    (hrun : ¬ (notif = true ∧ (b.todo.length : Int) < cfg.MaxPreCommitBatch))
    (herr : (processBatch env b cfg).err = some e) :
    e ≠ "" ∧
    ∀ s ∈ (collectBatch cfg.MaxPreCommitBatch b.todo []).map (fun p => p.pci.SectorNumber),
      (∀ chs, b.waiting.lookup s = some chs → ∀ ch ∈ chs,
        (ch, { Sectors := (collectBatch cfg.MaxPreCommitBatch b.todo []).map
                 (fun p => p.pci.SectorNumber),
               Msg := "", Error := e }) ∈ (maybeStartBatch env b notif).delivered) ∧
      (maybeStartBatch env b notif).b.todo.lookup s = none ∧
      (maybeStartBatch env b notif).b.waiting.lookup s = none ∧
      (maybeStartBatch env b notif).b.cutoffs.lookup s = none := by
  refine ⟨processBatch_err_ne_empty env b cfg e herr, ?_⟩
  obtain ⟨r, hr, hm⟩ := maybeStartBatch_run env b notif cfg hcfg hne hrun
  obtain ⟨r2, hr2, hsec, herror, _⟩ := processBatch_shape env b cfg
  have hrr : r2 = r := by
    rw [hr] at hr2
    simpa using hr2.symm
  subst hrr
  have hmsg : r2.Msg = "" := by
    unfold processBatch at hr herr
    simp only at hr herr
    cases h1 : env.marshalCBOR
        ((collectBatch cfg.MaxPreCommitBatch b.todo []).map (fun p => p.pci)) with
    | error e1 =>
      rw [h1] at hr
      simp only [List.cons.injEq, and_true] at hr
      rw [← hr]
    | ok enc =>
      rw [h1] at hr herr
      cases h2 : env.stateMinerInfo with
      | error e1 =>
        rw [h2] at hr
        simp only [List.cons.injEq, and_true] at hr
        rw [← hr]
      | ok mi =>
        rw [h2] at hr herr
        simp only at hr herr
        cases h3 : env.addrSel mi
            ((List.map (fun p => p.deposit)
                (collectBatch cfg.MaxPreCommitBatch b.todo [])).foldl (fun x y => x + y) 0 +
              env.maxPreCommitBatchGasFee.FeeForSectors
                (List.map (fun p => p.pci)
                  (collectBatch cfg.MaxPreCommitBatch b.todo [])).length)
            ((List.map (fun p => p.deposit)
                (collectBatch cfg.MaxPreCommitBatch b.todo [])).foldl (fun x y => x + y) 0) with
        | error e1 =>
          rw [h3] at hr
          simp only [List.cons.injEq, and_true] at hr
          rw [← hr]
        | ok sender =>
          rw [h3] at hr herr
          simp only at hr herr
          cases h4 : env.messagerSendMsg sender
              ((List.map (fun p => p.deposit)
                  (collectBatch cfg.MaxPreCommitBatch b.todo [])).foldl (fun x y => x + y) 0)
              (env.maxPreCommitBatchGasFee.FeeForSectors
                (List.map (fun p => p.pci)
                  (collectBatch cfg.MaxPreCommitBatch b.todo [])).length)
              enc with
          | error e1 =>
            rw [h4] at hr
            simp only [List.cons.injEq, and_true] at hr
            rw [← hr]
          | ok uid =>
            rw [h4] at herr
            simp at herr
  have hcopy : sentCopy (processBatch env b cfg).err r2 =
      { Sectors := (collectBatch cfg.MaxPreCommitBatch b.todo []).map
          (fun p => p.pci.SectorNumber), Msg := "", Error := e } := by
    rw [herr]
    simp only [sentCopy, hsec, hmsg]
  obtain ⟨mt, mw, mc⟩ :=
    foldl_deliverSector_maps (sentCopy (processBatch env b cfg).err r2) r2.Sectors { b := b }
  intro s hs
  rw [← hsec] at hs
  rw [hm]
  simp only [mt, mw, mc, GoMap.lookup_foldl_delete, hs, if_true, and_self, and_true]
  intro chs hl ch hc
  rw [← hcopy]
  exact foldl_deliverSector_mem _ ch r2.Sectors { b := b } s hs chs hl hc

/-- C11 (witness): a timer flush of two registered sectors whose miner info query
fails: channel 1, which waits on sector 1, receives the result with the error
text, and sector 1 is gone from `todo`. -/
theorem maybeStartBatch_failure_notifies_witness :
    envNoMinerInfo.getConfig = .ok { MaxPreCommitBatch := 256 } ∧
    (batcherTwo Hour Hour).todo ≠ [] ∧
    (processBatch envNoMinerInfo (batcherTwo Hour Hour) { MaxPreCommitBatch := 256 }).err =
      some "couldn't get miner info: unreachable" ∧
    ((1, { Sectors := [0, 1], Msg := "", Error := "couldn't get miner info: unreachable" }) ∈
      (maybeStartBatch envNoMinerInfo (batcherTwo Hour Hour) false).delivered) ∧
    (maybeStartBatch envNoMinerInfo (batcherTwo Hour Hour) false).b.todo.lookup 1 = none :=
  ⟨rfl, by decide, by decide,
   ((maybeStartBatch_failure_notifies envNoMinerInfo (batcherTwo Hour Hour) false
      { MaxPreCommitBatch := 256 } "couldn't get miner info: unreachable" rfl (by decide)
      (by decide) (by decide)).2 1 (by decide)).1 [1] (by decide) 1 (by decide),
   ((maybeStartBatch_failure_notifies envNoMinerInfo (batcherTwo Hour Hour) false
      { MaxPreCommitBatch := 256 } "couldn't get miner info: unreachable" rfl (by decide)
      (by decide) (by decide)).2 1 (by decide)).2.1⟩

/-- C12: `maybeStartBatch` with an empty `todo`, and `maybeStartBatch(true)` with
`0 < len(todo) < MaxPreCommitBatch`, return an empty result and no error, make
no call to the outside, put nothing on any channel and leave the batcher state
as it is. -/
theorem maybeStartBatch_nothing_to_do (env : BatcherEnv) (b : PreCommitBatcher) (cfg : Config) :
    (b.todo = [] → ∀ notif, maybeStartBatch env b notif =
      { b := b, res := [], err := none, delivered := [], calls := [] }) ∧
    (env.getConfig = .ok cfg → 0 < b.todo.length →
      (b.todo.length : Int) < cfg.MaxPreCommitBatch →
      maybeStartBatch env b true =
        { b := b, res := [], err := none, delivered := [], calls := [] }) := by
  constructor
  · intro h notif
    unfold maybeStartBatch
    simp [h]
  · intro hcfg hpos hlt
    have h0 : ¬ b.todo.length = 0 := by omega
    unfold maybeStartBatch
    simp [h0, hcfg, hlt]

/-- C12 (witness): the empty batcher, and two registered sectors below a
threshold of 256 on the notify path. -/
theorem maybeStartBatch_nothing_to_do_witness :
    maybeStartBatch (envBatch 256) NewPreCommitBatcher false =
      { b := NewPreCommitBatcher, res := [], err := none, delivered := [], calls := [] } ∧
    maybeStartBatch (envBatch 256) (batcherTwo Hour Hour) true =
      { b := batcherTwo Hour Hour, res := [], err := none, delivered := [], calls := [] } :=
  ⟨(maybeStartBatch_nothing_to_do (envBatch 256) NewPreCommitBatcher
      { MaxPreCommitBatch := 256 }).1 rfl false,
   (maybeStartBatch_nothing_to_do (envBatch 256) (batcherTwo Hour Hour)
      { MaxPreCommitBatch := 256 }).2 rfl (by decide) (by decide)⟩

/-! ## The batcher: a batch that is sent -/

/-- When `processBatch` returns no error, every step succeeded: the params were
serialized, the miner info was read, an address was selected with
`goodFunds = deposit + maxFee` and `minFunds = deposit`, and the messager took
the message and answered with a UID, which is the `Msg` of the result. -/
theorem processBatch_ok (env : BatcherEnv) (b : PreCommitBatcher) (cfg : Config)
    (h : (processBatch env b cfg).err = none) :
    ∃ enc mi sender uid,
      env.marshalCBOR (batchParams b cfg) = .ok enc ∧
      env.stateMinerInfo = .ok mi ∧
      env.addrSel mi (batchDeposit b cfg + batchMaxFee env b cfg) (batchDeposit b cfg) =
        .ok sender ∧
      env.messagerSendMsg sender (batchDeposit b cfg) (batchMaxFee env b cfg) enc = .ok uid ∧
      processBatch env b cfg =
        { res := [{ Sectors := batchSectors b cfg, Msg := uid }],
          err := none,
          calls :=
            [ApiCall.marshalCBOR (batchParams b cfg),
             ApiCall.stateMinerInfo env.maddr,
             ApiCall.addrSel mi (batchDeposit b cfg + batchMaxFee env b cfg)
               (batchDeposit b cfg),
             ApiCall.messagerSendMsg sender env.maddr (batchDeposit b cfg)
               (batchMaxFee env b cfg) enc] } := by
  unfold processBatch at h ⊢
  simp only [batchParams, batchSectors, batchDeposit, batchMaxFee] at h ⊢
  cases h1 : env.marshalCBOR
      ((collectBatch cfg.MaxPreCommitBatch b.todo []).map (fun p => p.pci)) with
  | error e1 =>
    rw [h1] at h
    simp at h
  | ok enc =>
    rw [h1] at h
    cases h2 : env.stateMinerInfo with
    | error e1 =>
      rw [h2] at h
      simp at h
    | ok mi =>
      rw [h2] at h
      simp only at h
      cases h3 : env.addrSel mi
          ((List.map (fun p => p.deposit)
              (collectBatch cfg.MaxPreCommitBatch b.todo [])).foldl (fun x y => x + y) 0 +
            env.maxPreCommitBatchGasFee.FeeForSectors
              (List.map (fun p => p.pci)
                (collectBatch cfg.MaxPreCommitBatch b.todo [])).length)
          ((List.map (fun p => p.deposit)
              (collectBatch cfg.MaxPreCommitBatch b.todo [])).foldl (fun x y => x + y) 0) with
      | error e1 =>
        rw [h3] at h
        simp at h
      | ok sender =>
        rw [h3] at h
        simp only at h
        cases h4 : env.messagerSendMsg sender
            ((List.map (fun p => p.deposit)
                (collectBatch cfg.MaxPreCommitBatch b.todo [])).foldl (fun x y => x + y) 0)
            (env.maxPreCommitBatchGasFee.FeeForSectors
              (List.map (fun p => p.pci)
                (collectBatch cfg.MaxPreCommitBatch b.todo [])).length)
            enc with
        | error e1 =>
          rw [h4] at h
          simp at h
        | ok uid =>
          refine ⟨enc, mi, sender, uid, rfl, rfl, h3, h4, ?_⟩
          simp only [h3, h4]
          rfl

/-- A batch that has room for all of `todo` takes every entry, in iteration
order. -/
theorem collectBatch_all (maxBatch : Int) (todo : GoMap Nat preCommitEntry)
    (h : (todo.length : Int) ≤ maxBatch) :
    collectBatch maxBatch todo [] = todo.map Prod.snd := by
  rw [collectBatch_nil, List.take_of_length_le]
  omega

/-- For entries filed under their own sector number, a batch with room for all
of `todo` lists the keys of `todo`. -/
theorem batchSectors_all (b : PreCommitBatcher) (cfg : Config) (hk : TodoKeyed b.todo)
    (h : (b.todo.length : Int) ≤ cfg.MaxPreCommitBatch) :
    batchSectors b cfg = b.todo.keys := by
  unfold batchSectors GoMap.keys
  rw [collectBatch_all _ _ h, List.map_map]
  apply List.map_congr_left
  intro e he
  exact hk.2 e he

/-- C14: for every batcher state whose `todo` holds exactly
`MaxPreCommitBatch >= 1` entries, filed under their own sector numbers, the
notify path `maybeStartBatch(true)` starts the batch at once: it serializes
params with `MaxPreCommitBatch` entries, and when the send succeeds it has sent
exactly one message, with these params, and every channel that waits on a sector
of `todo` has received a result with empty `Error`, with `Msg` the UID returned
by the messager, and with that sector number among its `Sectors`. -/
theorem maybeStartBatch_notify_at_max (env : BatcherEnv) (b : PreCommitBatcher) (cfg : Config)
    (hcfg : env.getConfig = .ok cfg) (hk : TodoKeyed b.todo)
    (hlen : (b.todo.length : Int) = cfg.MaxPreCommitBatch)
    (hmax : 1 ≤ cfg.MaxPreCommitBatch) :
    ((batchParams b cfg).length : Int) = cfg.MaxPreCommitBatch ∧
    (maybeStartBatch env b true).calls.head? = some (ApiCall.marshalCBOR (batchParams b cfg)) ∧
    ((processBatch env b cfg).err = none →
      ∃ enc mi sender uid,
        env.marshalCBOR (batchParams b cfg) = .ok enc ∧
        env.messagerSendMsg sender (batchDeposit b cfg) (batchMaxFee env b cfg) enc =
          .ok uid ∧
        (maybeStartBatch env b true).calls =
          [ApiCall.marshalCBOR (batchParams b cfg),
           ApiCall.stateMinerInfo env.maddr,
           ApiCall.addrSel mi (batchDeposit b cfg + batchMaxFee env b cfg)
             (batchDeposit b cfg),
           ApiCall.messagerSendMsg sender env.maddr (batchDeposit b cfg)
             (batchMaxFee env b cfg) enc] ∧
        ∀ sn chs, b.todo.has sn = true → b.waiting.lookup sn = some chs → ∀ ch ∈ chs,
          ∃ r, (ch, r) ∈ (maybeStartBatch env b true).delivered ∧
            r.Error = "" ∧ r.Msg = uid ∧ sn ∈ r.Sectors) := by
  have hne : b.todo ≠ [] := by
    intro h
    rw [h] at hlen
    simp at hlen
    omega
  have hrun : ¬ ((true : Bool) = true ∧ (b.todo.length : Int) < cfg.MaxPreCommitBatch) := by
    omega
  obtain ⟨r, hr, hm⟩ := maybeStartBatch_run env b true cfg hcfg hne hrun
  obtain ⟨r2, hr2, _, _, hcall⟩ := processBatch_shape env b cfg
  refine ⟨?_, ?_, ?_⟩
  · unfold batchParams
    rw [collectBatch_all _ _ (le_of_eq hlen)]
    simp [hlen]
  · rw [hm]
    exact hcall
  · intro hsend
    obtain ⟨enc, mi, sender, uid, h1, _, _, h4, hp⟩ := processBatch_ok env b cfg hsend
    refine ⟨enc, mi, sender, uid, h1, h4, ?_, ?_⟩
    · rw [hm, hp]
    · intro sn chs hsn hl ch hc
      have hres : r = { Sectors := batchSectors b cfg, Msg := uid } := by
        rw [hp] at hr
        simpa using hr.symm
      have hin : sn ∈ r.Sectors := by
        rw [hres, batchSectors_all b cfg hk (le_of_eq hlen)]
        simp only [GoMap.has] at hsn
        cases hlk : b.todo.lookup sn with
        | none => rw [hlk] at hsn; simp at hsn
        | some v =>
          exact List.mem_map.mpr ⟨(sn, v), GoMap.mem_of_lookup _ _ _ hlk, rfl⟩
      refine ⟨r, ?_, ?_, ?_, hin⟩
      · have hcopy : sentCopy (processBatch env b cfg).err r = r := by
          rw [hsend]
          rfl
        rw [hm]
        show (ch, r) ∈ (r.Sectors.foldl
          (deliverSector (sentCopy (processBatch env b cfg).err r)) { b := b }).delivered
        rw [hcopy]
        exact foldl_deliverSector_mem r ch r.Sectors { b := b } sn hin chs hl hc
      · rw [hres]
      · rw [hres]

/-- C14 (witness): two registered sectors and `MaxPreCommitBatch = 2`: the
notify path sends both, and channel 1 receives the result with the UID. -/
theorem maybeStartBatch_notify_at_max_witness :
    (envBatch 2).getConfig = .ok { MaxPreCommitBatch := 2 } ∧
    TodoKeyed (batcherTwo Hour Hour).todo ∧
    (processBatch (envBatch 2) (batcherTwo Hour Hour) { MaxPreCommitBatch := 2 }).err = none ∧
    ((1, { Sectors := [0, 1], Msg := "uid" }) ∈
      (maybeStartBatch (envBatch 2) (batcherTwo Hour Hour) true).delivered) ∧
    ∃ enc mi sender uid,
      (envBatch 2).marshalCBOR
        (batchParams (batcherTwo Hour Hour) { MaxPreCommitBatch := 2 }) = .ok enc ∧
      (envBatch 2).messagerSendMsg sender
        (batchDeposit (batcherTwo Hour Hour) { MaxPreCommitBatch := 2 })
        (batchMaxFee (envBatch 2) (batcherTwo Hour Hour) { MaxPreCommitBatch := 2 }) enc =
          .ok uid ∧
      (maybeStartBatch (envBatch 2) (batcherTwo Hour Hour) true).calls =
        [ApiCall.marshalCBOR (batchParams (batcherTwo Hour Hour) { MaxPreCommitBatch := 2 }),
         ApiCall.stateMinerInfo (envBatch 2).maddr,
         ApiCall.addrSel mi
           (batchDeposit (batcherTwo Hour Hour) { MaxPreCommitBatch := 2 } +
             batchMaxFee (envBatch 2) (batcherTwo Hour Hour) { MaxPreCommitBatch := 2 })
           (batchDeposit (batcherTwo Hour Hour) { MaxPreCommitBatch := 2 }),
         ApiCall.messagerSendMsg sender (envBatch 2).maddr
           (batchDeposit (batcherTwo Hour Hour) { MaxPreCommitBatch := 2 })
           (batchMaxFee (envBatch 2) (batcherTwo Hour Hour) { MaxPreCommitBatch := 2 }) enc] ∧
      ∀ sn chs, (batcherTwo Hour Hour).todo.has sn = true →
        (batcherTwo Hour Hour).waiting.lookup sn = some chs → ∀ ch ∈ chs,
        ∃ r, (ch, r) ∈ (maybeStartBatch (envBatch 2) (batcherTwo Hour Hour) true).delivered ∧
          r.Error = "" ∧ r.Msg = uid ∧ sn ∈ r.Sectors :=
  ⟨rfl, ⟨by decide, by decide⟩, by decide, by decide,
   (maybeStartBatch_notify_at_max (envBatch 2) (batcherTwo Hour Hour) { MaxPreCommitBatch := 2 }
      rfl ⟨by decide, by decide⟩ (by decide) (by decide)).2.2 (by decide)⟩

/-! ## The batcher: registrations followed by a flush -/

/-- The keys after an assignment `m[k] = v`. -/
theorem keys_set {V : Type} (m : GoMap Nat V) (k : Nat) (v : V) :
    (m.set k v).keys = if (m.lookup k).isSome then m.keys else m.keys ++ [k] := by
  induction m with
  | nil => simp [GoMap.set, GoMap.lookup, GoMap.keys]
  | cons e rest ih =>
    obtain ⟨k0, v0⟩ := e
    by_cases h : k0 = k
    · simp [GoMap.set, GoMap.lookup, GoMap.keys, h]
    · simp only [GoMap.set, GoMap.lookup, h, if_false]
      simp only [GoMap.keys, List.map_cons] at ih ⊢
      rw [ih]
      split_ifs <;> simp

/-- A key is absent from a map exactly when its lookup fails. -/
theorem lookup_isSome_iff {V : Type} (m : GoMap Nat V) (k : Nat) :
    (m.lookup k).isSome = true ↔ k ∈ m.keys := by
  induction m with
  | nil => simp [GoMap.lookup, GoMap.keys]
  | cons e rest ih =>
    obtain ⟨k0, v0⟩ := e
    by_cases h : k0 = k
    · simp [GoMap.lookup, GoMap.keys, h]
    · have h2 : ¬ k = k0 := fun h3 => h h3.symm
      simp only [GoMap.lookup, h, if_false, GoMap.keys, List.map_cons, List.mem_cons, h2,
        false_or]
      exact ih

/-- The keys after an assignment `m[k] = v`: `k` and the keys before. -/
theorem mem_keys_set {V : Type} (m : GoMap Nat V) (k : Nat) (v : V) (x : Nat) :
    x ∈ (m.set k v).keys ↔ x = k ∨ x ∈ m.keys := by
  rw [keys_set]
  by_cases h : (m.lookup k).isSome = true
  · simp only [h, if_true]
    constructor
    · exact Or.inr
    · rintro (h1 | h1)
      · rw [h1]
        exact (lookup_isSome_iff m k).mp h
      · exact h1
  · simp only [h]
    simp only [Bool.false_eq_true, if_false, List.mem_append, List.mem_singleton]
    exact or_comm

/-- The entries after an assignment `m[k] = v`: the new one or one from before. -/
theorem mem_of_mem_set {V : Type} (m : GoMap Nat V) (k : Nat) (v : V) (e : Nat × V)
    (h : e ∈ m.set k v) : e = (k, v) ∨ e ∈ m := by
  induction m with
  | nil =>
    simp only [GoMap.set, List.mem_singleton] at h
    exact Or.inl h
  | cons e0 rest ih =>
    obtain ⟨k0, v0⟩ := e0
    by_cases h0 : k0 = k
    · simp only [GoMap.set, h0, if_true, List.mem_cons] at h
      rcases h with h1 | h1
      · exact Or.inl h1
      · exact Or.inr (List.mem_cons_of_mem _ h1)
    · simp only [GoMap.set, h0, if_false, List.mem_cons] at h
      rcases h with h1 | h1
      · exact Or.inr (by rw [h1]; exact List.mem_cons_self _ _)
      · rcases ih h1 with h2 | h2
        · exact Or.inl h2
        · exact Or.inr (List.mem_cons_of_mem _ h2)

/-- Filing an entry under its own sector number keeps `todo` well keyed. -/
theorem todoKeyed_set (todo : GoMap Nat preCommitEntry) (hk : TodoKeyed todo) (k : Nat)
    (v : preCommitEntry) (hv : v.pci.SectorNumber = k) : TodoKeyed (todo.set k v) := by
  constructor
  · rw [keys_set]
    by_cases h : (todo.lookup k).isSome = true
    · simp only [h, if_true]
      exact hk.1
    · simp only [h]
      simp only [Bool.false_eq_true, if_false]
      have hnot : k ∉ todo.keys := fun hm => h ((lookup_isSome_iff todo k).mpr hm)
      exact List.Nodup.append hk.1 (List.nodup_singleton k)
        (fun x hx hx2 => hnot (by rw [List.mem_singleton] at hx2; rw [← hx2]; exact hx))
  · intro e he
    rcases mem_of_mem_set todo k v e he with h1 | h1
    · rw [h1]
      exact hv
    · exact hk.2 e h1

/-- Registrations that carry the pre-commit info of the sector they name keep
`todo` well keyed. -/
theorem todoKeyed_registerAll (lookback : ChainEpoch) (blockDelaySecs : Nat)
    (regs : List Registration) (b : PreCommitBatcher) (hk : TodoKeyed b.todo)
    (hreg : ∀ g ∈ regs, g.pci.SectorNumber = g.s.SectorNumber) :
    TodoKeyed (registerAll lookback blockDelaySecs regs b).todo := by
  induction regs generalizing b with
  | nil => exact hk
  | cons g rest ih =>
    unfold registerAll
    rw [List.foldl_cons]
    apply ih
    · exact todoKeyed_set b.todo hk g.s.SectorNumber _ (hreg g (List.mem_cons_self _ _))
    · intro g2 hg2
      exact hreg g2 (List.mem_cons_of_mem _ hg2)

/-- The keys of `todo` after registrations: the keys before and the registered
sector numbers. -/
theorem mem_keys_registerAll (lookback : ChainEpoch) (blockDelaySecs : Nat)
    (regs : List Registration) (b : PreCommitBatcher) (x : Nat) :
    x ∈ (registerAll lookback blockDelaySecs regs b).todo.keys ↔
      x ∈ b.todo.keys ∨ x ∈ regs.map (fun g => g.s.SectorNumber) := by
  induction regs generalizing b with
  | nil => simp [registerAll]
  | cons g rest ih =>
    unfold registerAll
    rw [List.foldl_cons]
    have h := ih (AddPreCommit lookback blockDelaySecs g.now (.ok g.curEpoch) b g.s g.deposit
      g.pci).1
    unfold registerAll at h
    rw [h]
    have h2 : (AddPreCommit lookback blockDelaySecs g.now (.ok g.curEpoch) b g.s g.deposit
        g.pci).1.todo = b.todo.set g.s.SectorNumber { deposit := g.deposit, pci := g.pci } := rfl
    rw [h2, mem_keys_set]
    simp only [List.map_cons, List.mem_cons]
    constructor
    · rintro ((h3 | h3) | h3)
      · exact Or.inr (Or.inl h3)
      · exact Or.inl h3
      · exact Or.inr (Or.inr h3)
    · rintro (h3 | h3 | h3)
      · exact Or.inl (Or.inr h3)
      · exact Or.inl (Or.inl h3)
      · exact Or.inr h3

/-- The entries left after deleting several keys. -/
theorem mem_foldl_delete {V : Type} (sns : List Nat) (m : GoMap Nat V) (e : Nat × V)
    (h : e ∈ sns.foldl GoMap.delete m) : e ∈ m ∧ e.1 ∉ sns := by
  induction sns generalizing m with
  | nil => exact ⟨h, List.not_mem_nil _⟩
  | cons s rest ih =>
    rw [List.foldl_cons] at h
    obtain ⟨h1, h2⟩ := ih _ h
    simp only [GoMap.delete, List.mem_filter, decide_eq_true_eq] at h1
    refine ⟨h1.1, ?_⟩
    intro h3
    rcases List.mem_cons.mp h3 with h4 | h4
    · exact h1.2 h4
    · exact h2 h4

/-- The comparison of sector numbers in the test is asymmetric. -/
theorem sectorNumberLess_asymm (a b : Nat) (h : sectorNumberLess a b = true) :
    sectorNumberLess b a = false := by
  simp only [sectorNumberLess, decide_eq_true_eq, decide_eq_false_iff_not] at h ⊢
  omega

/-- The negation of the comparison of sector numbers in the test is transitive. -/
theorem sectorNumberLess_negTrans (a b c : Nat) (h1 : sectorNumberLess a b = false)
    (h2 : sectorNumberLess b c = false) : sectorNumberLess a c = false := by
  simp only [sectorNumberLess, decide_eq_false_iff_not] at h1 h2 ⊢
  omega

/-- Two rearrangements of the same sector numbers are sorted to the same list. -/
theorem sortSlice_sectorNumbers (l1 l2 : List Nat) (h : l1.Perm l2) :
    sortSlice sectorNumberLess l1 = sortSlice sectorNumberLess l2 := by
  apply @List.Perm.eq_of_sorted Nat (fun a b => sectorNumberLess b a = false)
  · intro a b _ _ h1 h2
    simp only [sectorNumberLess, decide_eq_false_iff_not] at h1 h2
    omega
  · exact sortSlice_pairwise _ sectorNumberLess_asymm sectorNumberLess_negTrans l1
  · exact sortSlice_pairwise _ sectorNumberLess_asymm sectorNumberLess_negTrans l2
  · exact ((sortSlice_perm _ l1).trans h).trans (sortSlice_perm _ l2).symm

/-- C13: let `todo` hold, in any iteration order, what `AddPreCommit`
registrations of `n` distinct sectors with `1 <= n <= MaxPreCommitBatch` have
put there, each registration carrying the pre-commit info of the sector it
names.  When the send succeeds, the forced flush `maybeStartBatch(false)` returns
exactly one result, with empty `Error` and the message UID, whose `Sectors` are
a rearrangement of the `n` registered sector numbers and hence equal to them
once sorted ascending; a subsequent `Pending` returns the empty list. -/
theorem flush_after_registrations (env : BatcherEnv) (lookback : ChainEpoch)
    (blockDelaySecs : Nat) (regs : List Registration) (b : PreCommitBatcher) (cfg : Config)
    (mid : Nat)
    (hreg : ∀ g ∈ regs, g.pci.SectorNumber = g.s.SectorNumber)
    (hb : b.todo.Perm (registerAll lookback blockDelaySecs regs NewPreCommitBatcher).todo)
    (hcfg : env.getConfig = .ok cfg) (h1 : regs ≠ [])
    (hn : (((regs.map (fun g => g.s.SectorNumber)).dedup.length : Nat) : Int) ≤
      cfg.MaxPreCommitBatch)
    (hsend : (processBatch env b cfg).err = none) :
    ∃ r uid, (maybeStartBatch env b false).res = [r] ∧
      (maybeStartBatch env b false).err = none ∧
      r.Error = "" ∧ r.Msg = uid ∧
      (∃ sender enc, env.messagerSendMsg sender (batchDeposit b cfg) (batchMaxFee env b cfg)
        enc = .ok uid) ∧
      r.Sectors.Perm ((regs.map (fun g => g.s.SectorNumber)).dedup) ∧
      sortSlice sectorNumberLess r.Sectors =
        sortSlice sectorNumberLess ((regs.map (fun g => g.s.SectorNumber)).dedup) ∧
      Pending (.ok mid) (maybeStartBatch env b false).b = .ok [] := by
  have hbuilt : TodoKeyed (registerAll lookback blockDelaySecs regs NewPreCommitBatcher).todo :=
    todoKeyed_registerAll lookback blockDelaySecs regs NewPreCommitBatcher
      ⟨by simp [NewPreCommitBatcher, GoMap.keys], by simp [NewPreCommitBatcher]⟩ hreg
  have hkeysPerm : b.todo.keys.Perm
      (registerAll lookback blockDelaySecs regs NewPreCommitBatcher).todo.keys :=
    hb.map Prod.fst
  have hk : TodoKeyed b.todo :=
    ⟨hkeysPerm.nodup_iff.mpr hbuilt.1, fun e he => hbuilt.2 e (hb.subset he)⟩
  have hdedup : b.todo.keys.Perm ((regs.map (fun g => g.s.SectorNumber)).dedup) := by
    rw [List.perm_ext_iff_of_nodup hk.1 (List.nodup_dedup _)]
    intro x
    rw [List.mem_dedup, hkeysPerm.mem_iff, mem_keys_registerAll]
    simp [NewPreCommitBatcher, GoMap.keys]
  have hlen : (b.todo.length : Int) ≤ cfg.MaxPreCommitBatch := by
    have h2 : b.todo.length = ((regs.map (fun g => g.s.SectorNumber)).dedup).length := by
      rw [← hdedup.length_eq]
      simp [GoMap.keys]
    rw [h2]
    exact hn
  have hne : b.todo ≠ [] := by
    intro h
    obtain ⟨g, rest, hg⟩ := List.exists_cons_of_ne_nil h1
    have hmem : g.s.SectorNumber ∈ b.todo.keys := by
      rw [hdedup.mem_iff, List.mem_dedup, hg]
      simp
    rw [h] at hmem
    simp [GoMap.keys] at hmem
  obtain ⟨r, hr, hm⟩ := maybeStartBatch_run env b false cfg hcfg hne (by simp)
  obtain ⟨enc, mi, sender, uid, _, _, _, h4, hp⟩ := processBatch_ok env b cfg hsend
  have hres : r = { Sectors := b.todo.keys, Msg := uid } := by
    rw [hp] at hr
    rw [← batchSectors_all b cfg hk hlen]
    simpa using hr.symm
  refine ⟨r, uid, ?_, ?_, ?_, ?_, ⟨sender, enc, h4⟩, ?_, ?_, ?_⟩
  · rw [hm]
  · rw [hm]
  · rw [hres]
  · rw [hres]
  · rw [hres]
    exact hdedup
  · apply sortSlice_sectorNumbers
    rw [hres]
    exact hdedup
  · have htodo : (maybeStartBatch env b false).b.todo = [] := by
      rw [hm]
      show (r.Sectors.foldl (deliverSector (sentCopy (processBatch env b cfg).err r))
        { b := b }).b.todo = []
      rw [(foldl_deliverSector_maps _ r.Sectors { b := b }).1]
      apply List.eq_nil_iff_forall_not_mem.mpr
      intro e he
      obtain ⟨h5, h6⟩ := mem_foldl_delete _ _ e he
      apply h6
      rw [hres]
      exact List.mem_map.mpr ⟨e, h5, rfl⟩
    simp only [Pending, htodo]
    rfl

/-- C13 (witness): sector 0 is registered twice and sector 1 once, so `n = 2`;
`todo` is visited in the order 1, 0 and `MaxPreCommitBatch` is 256. -/
theorem flush_after_registrations_witness :
    batcherTwoRev.todo.Perm
      (registerAll 10 30 [regOf 0, regOf 1, regOf 0] NewPreCommitBatcher).todo ∧
    (processBatch (envBatch 256) batcherTwoRev { MaxPreCommitBatch := 256 }).err = none ∧
    ∃ r uid, (maybeStartBatch (envBatch 256) batcherTwoRev false).res = [r] ∧
      (maybeStartBatch (envBatch 256) batcherTwoRev false).err = none ∧
      r.Error = "" ∧ r.Msg = uid ∧
      (∃ sender enc, (envBatch 256).messagerSendMsg sender
        (batchDeposit batcherTwoRev { MaxPreCommitBatch := 256 })
        (batchMaxFee (envBatch 256) batcherTwoRev { MaxPreCommitBatch := 256 }) enc =
          .ok uid) ∧
      r.Sectors.Perm (([regOf 0, regOf 1, regOf 0].map (fun g => g.s.SectorNumber)).dedup) ∧
      sortSlice sectorNumberLess r.Sectors =
        sortSlice sectorNumberLess
          (([regOf 0, regOf 1, regOf 0].map (fun g => g.s.SectorNumber)).dedup) ∧
      Pending (.ok 1000) (maybeStartBatch (envBatch 256) batcherTwoRev false).b = .ok [] :=
  have hperm : batcherTwoRev.todo.Perm
      (registerAll 10 30 [regOf 0, regOf 1, regOf 0] NewPreCommitBatcher).todo :=
    List.Perm.swap _ _ []
  ⟨hperm, by decide,
   flush_after_registrations (envBatch 256) 10 30 [regOf 0, regOf 1, regOf 0] batcherTwoRev
     { MaxPreCommitBatch := 256 } 1000 (by decide) hperm rfl (by decide) (by decide)
     (by decide)⟩

/-! ## The matcher: `AddPieceToAnySector` -/

/-- One iteration of the assignment loop keeps the keys of `pendingPieces`. -/
theorem assignStep_pending_keys (env : InputEnv) (cap : Nat) (st : AssignState) (mt : Match) :
    (assignStep env cap st mt).m.pendingPieces.keys = st.m.pendingPieces.keys := by
  unfold assignStep
  cases h1 : st.m.pendingPieces.lookup mt.deal with
  | none => rfl
  | some piece =>
    simp only
    by_cases h2 : piece.assigned = true
    · simp [h2]
    · simp only [h2]
      cases h3 : st.m.openSectors.lookup mt.sector with
      | none => rfl
      | some sector =>
        simp only
        by_cases h4 : mt.size > subU64 cap sector.used
        · simp [h4]
        · simp only [h4, maybeAccept]
          have h5 := keys_set st.m.pendingPieces mt.deal { piece with assigned := true }
          rw [h1] at h5
          simpa using h5

/-- The assignment loop keeps the keys of `pendingPieces`. -/
theorem foldl_assignStep_pending_keys (env : InputEnv) (cap : Nat) (l : List Match)
    (st : AssignState) :
    (l.foldl (assignStep env cap) st).m.pendingPieces.keys = st.m.pendingPieces.keys := by
  induction l generalizing st with
  | nil => rfl
  | cons mt rest ih => rw [List.foldl_cons, ih, assignStep_pending_keys]

/-- The helper `createSector` does not touch the maps of the matcher. -/
theorem createSector_maps (env : InputEnv) (m : Sealing) (cfg : Config) :
    (createSector env m cfg).1.pendingPieces = m.pendingPieces ∧
    (createSector env m cfg).1.openSectors = m.openSectors ∧
    (createSector env m cfg).1.assignedPieces = m.assignedPieces := by
  unfold createSector
  cases env.scNext with
  | error e => exact ⟨rfl, rfl, rfl⟩
  | ok sid =>
    simp only
    cases env.newSector sid <;> exact ⟨rfl, rfl, rfl⟩

/-- The method `tryCreateDealSector` does not touch the maps of the matcher. -/
theorem tryCreateDealSector_maps (env : InputEnv) (m : Sealing) (sp : Int) :
    (tryCreateDealSector env m sp).1.pendingPieces = m.pendingPieces ∧
    (tryCreateDealSector env m sp).1.openSectors = m.openSectors ∧
    (tryCreateDealSector env m sp).1.assignedPieces = m.assignedPieces := by
  unfold tryCreateDealSector
  by_cases h1 : m.creating.isSome = true
  · rw [if_pos h1]
    exact ⟨rfl, rfl, rfl⟩
  · rw [if_neg h1]
    cases env.getConfig with
    | error e => exact ⟨rfl, rfl, rfl⟩
    | ok cfg =>
      simp only
      by_cases h2 : cfg.MaxSealingSectorsForDeals > 0 ∧
          m.stats.curSealing ≥ cfg.MaxSealingSectorsForDeals
      · rw [if_pos h2]
        exact ⟨rfl, rfl, rfl⟩
      · rw [if_neg h2]
        by_cases h3 : cfg.MaxWaitDealsSectors > 0 ∧
            m.stats.curStaging ≥ cfg.MaxWaitDealsSectors
        · rw [if_pos h3]
          exact ⟨rfl, rfl, rfl⟩
        · rw [if_neg h3]
          have hc := createSector_maps env m cfg
          rcases hcs : createSector env m cfg with ⟨m1, res, tr⟩
          rw [hcs] at hc
          cases res with
          | error e => exact hc
          | ok sid => exact hc

/-- The method `tryCreateDealSector` does not touch `pendingPieces`. -/
theorem tryCreateDealSector_pending (env : InputEnv) (m : Sealing) (sp : Int) :
    (tryCreateDealSector env m sp).1.pendingPieces = m.pendingPieces :=
  (tryCreateDealSector_maps env m sp).1

/-- The method `updateInput` keeps the keys of `pendingPieces`. -/
theorem updateInput_pending_keys (env : InputEnv) (m : Sealing) (sp : Int) :
    (updateInput env m sp).1.pendingPieces.keys = m.pendingPieces.keys := by
  unfold updateInput
  cases SectorSize sp with
  | error e => rfl
  | ok ssize =>
    simp only
    split_ifs
    · simp only [tryCreateDealSector_pending]
      rw [foldl_assignStep_pending_keys]
    · rw [foldl_assignStep_pending_keys]

/-- The two ways `AddPieceToAnySector` goes: it returns an error at once and
changes nothing, or every validation passes, the deal hash is not pending, the
piece is inserted and the matching pass runs. -/
theorem AddPieceToAnySector_cases (env : InputEnv) (m : Sealing) (size : Nat)
    (dealCid : Except String Cid) :
    (∃ e, AddPieceToAnySector env m size dealCid = (m, some e, [])) ∨
    ∃ c sp ssize, dealCid = .ok c ∧ m.pendingPieces.lookup c = none ∧
      env.paddedSize size = size ∧ env.currentSealProof = .ok sp ∧
      SectorSize sp = .ok ssize ∧ size ≤ Unpadded ssize ∧
      AddPieceToAnySector env m size dealCid =
        ((updateInput env (insertPending m c size) sp).1, none,
         (updateInput env (insertPending m c size) sp).2.2) := by
  unfold AddPieceToAnySector
  by_cases h1 : env.paddedSize size ≠ size
  · rw [if_pos h1]
    exact Or.inl ⟨_, rfl⟩
  · rw [if_neg h1]
    cases h2 : env.currentSealProof with
    | error e => exact Or.inl ⟨_, rfl⟩
    | ok sp =>
      simp only
      cases h3 : SectorSize sp with
      | error e => exact Or.inl ⟨_, rfl⟩
      | ok ssize =>
        simp only
        by_cases h4 : size > Unpadded ssize
        · rw [if_pos h4]
          exact Or.inl ⟨_, rfl⟩
        · rw [if_neg h4]
          cases h5 : dealCid with
          | error e => exact Or.inl ⟨_, rfl⟩
          | ok c =>
            simp only
            by_cases h6 : (m.pendingPieces.lookup c).isSome = true
            · rw [if_pos h6]
              exact Or.inl ⟨_, rfl⟩
            · rw [if_neg h6]
              right
              refine ⟨c, sp, ssize, rfl, ?_, not_not.mp h1, rfl, h3, not_lt.mp h4, rfl⟩
              cases h7 : m.pendingPieces.lookup c with
              | none => rfl
              | some v => rw [h7] at h6; simp at h6

/-- C17: `AddPieceToAnySector` returns an error at once and leaves the matcher
state (`pendingPieces`, `openSectors`, `assignedPieces` and the rest) unchanged
when `paddedSize(size) != size`, when `size` exceeds the unpadded sector
capacity, and when the deal hash is already pending; every other error it
returns leaves the state unchanged as well.  It never holds two pending pieces
for one hash: distinct keys stay distinct, and when no error is returned the
hash was not pending before and is appended exactly once. -/
theorem AddPieceToAnySector_validation (env : InputEnv) (m : Sealing) (size : Nat)
    (dealCid : Except String Cid) :
    (env.paddedSize size ≠ size →
      ∃ e, AddPieceToAnySector env m size dealCid = (m, some e, [])) ∧
    (∀ sp ssize, env.currentSealProof = .ok sp → SectorSize sp = .ok ssize →
      size > Unpadded ssize →
      ∃ e, AddPieceToAnySector env m size dealCid = (m, some e, [])) ∧
    (∀ c, dealCid = .ok c → (m.pendingPieces.lookup c).isSome = true →
      ∃ e, AddPieceToAnySector env m size dealCid = (m, some e, [])) ∧
    (∀ e, (AddPieceToAnySector env m size dealCid).2.1 = some e →
      AddPieceToAnySector env m size dealCid = (m, some e, [])) ∧
    (m.pendingPieces.keys.Nodup →
      (AddPieceToAnySector env m size dealCid).1.pendingPieces.keys.Nodup) ∧
    ((AddPieceToAnySector env m size dealCid).2.1 = none →
      ∃ c, dealCid = .ok c ∧ m.pendingPieces.lookup c = none ∧
        (AddPieceToAnySector env m size dealCid).1.pendingPieces.keys =
          m.pendingPieces.keys ++ [c]) := by
  have hins : ∀ c, m.pendingPieces.lookup c = none → ∀ sp,
      (updateInput env (insertPending m c size) sp).1.pendingPieces.keys =
      m.pendingPieces.keys ++ [c] := by
    intro c hc sp
    rw [updateInput_pending_keys]
    have := keys_set m.pendingPieces c { size := size, assigned := false }
    rw [hc] at this
    simpa [insertPending] using this
  rcases AddPieceToAnySector_cases env m size dealCid with
    ⟨e0, he0⟩ | ⟨c, sp, ssize, hc, hl, hpad, hsp, hss, hfit, hres⟩
  · refine ⟨fun _ => ⟨e0, he0⟩, fun _ _ _ _ _ => ⟨e0, he0⟩, fun _ _ _ => ⟨e0, he0⟩, ?_, ?_, ?_⟩
    · intro e he
      rw [he0] at he ⊢
      simp only [Option.some.injEq] at he
      rw [he]
    · intro hnd
      rw [he0]
      exact hnd
    · intro hnone
      rw [he0] at hnone
      simp at hnone
  · refine ⟨?_, ?_, ?_, ?_, ?_, ?_⟩
    · intro h
      exact absurd hpad h
    · intro sp2 ssize2 hsp2 hss2 hgt
      rw [hsp] at hsp2
      have e1 : sp = sp2 := by injection hsp2
      subst e1
      rw [hss] at hss2
      have e2 : ssize = ssize2 := by injection hss2
      subst e2
      omega
    · intro c2 hc2 hsome
      rw [hc] at hc2
      have e1 : c = c2 := by injection hc2
      subst e1
      rw [hl] at hsome
      simp at hsome
    · intro e he
      rw [hres] at he
      simp at he
    · intro hnd
      rw [hres]
      simp only
      rw [hins c hl sp]
      have hnot : c ∉ m.pendingPieces.keys := by
        intro hm
        have := (lookup_isSome_iff m.pendingPieces c).mpr hm
        rw [hl] at this
        simp at this
      exact List.Nodup.append hnd (List.nodup_singleton c)
        (fun x hx hx2 => hnot (by rw [List.mem_singleton] at hx2; rw [← hx2]; exact hx))
    · intro _
      refine ⟨c, hc, hl, ?_⟩
      rw [hres]
      exact hins c hl sp

/-- C17 (witness): deal 8 is pending with 508 bytes.  A size of 500 bytes is not
a padded size, 4064 bytes do not fit a 2KiB sector, and deal 8 is pending
already: each call is refused and changes nothing; deal 9 with 1016 bytes is
inserted once. -/
theorem AddPieceToAnySector_validation_witness :
    (∃ e, AddPieceToAnySector {} statePending 500 (.ok 9) = (statePending, some e, [])) ∧
    (∃ e, AddPieceToAnySector {} statePending 4064 (.ok 9) = (statePending, some e, [])) ∧
    (∃ e, AddPieceToAnySector {} statePending 508 (.ok 8) = (statePending, some e, [])) ∧
    (∃ c, (.ok 9 : Except String Cid) = .ok c ∧ statePending.pendingPieces.lookup c = none ∧
      (AddPieceToAnySector {} statePending 1016 (.ok 9)).1.pendingPieces.keys =
        statePending.pendingPieces.keys ++ [c]) :=
  ⟨(AddPieceToAnySector_validation {} statePending 500 (.ok 9)).1 (by decide),
   (AddPieceToAnySector_validation {} statePending 4064 (.ok 9)).2.1 0 2048 rfl rfl
     (by decide),
   (AddPieceToAnySector_validation {} statePending 508 (.ok 8)).2.2.1 8 rfl (by decide),
   (AddPieceToAnySector_validation {} statePending 1016 (.ok 9)).2.2.2.2.2 (by decide)⟩

/-! ## The matcher: the order of the candidates -/

/-- The comparison of `updateInput`: by padding, then by size, then by sector
number, each ascending. -/
theorem matchLess_iff (a b : Match) :
    matchLess a b = true ↔
      (a.padding < b.padding ∨ (a.padding = b.padding ∧
        (a.size < b.size ∨ (a.size = b.size ∧ a.sector.Number < b.sector.Number)))) := by
  unfold matchLess
  by_cases hp : a.padding = b.padding
  · rw [if_neg (not_not.mpr hp)]
    by_cases hs : a.size = b.size
    · rw [if_neg (not_not.mpr hs), decide_eq_true_eq]
      omega
    · rw [if_pos hs, decide_eq_true_eq]
      omega
  · rw [if_pos hp, decide_eq_true_eq]
    omega

/-- The comparison of `updateInput` is asymmetric. -/
theorem matchLess_asymm (a b : Match) (h : matchLess a b = true) : matchLess b a = false := by
  have h1 := (matchLess_iff a b).mp h
  cases h2 : matchLess b a with
  | false => rfl
  | true =>
    have h3 := (matchLess_iff b a).mp h2
    omega

/-- The negation of the comparison of `updateInput` is transitive. -/
theorem matchLess_negTrans (a b c : Match) (h1 : matchLess a b = false)
    (h2 : matchLess b c = false) : matchLess a c = false := by
  have g1 : ¬ (a.padding < b.padding ∨ (a.padding = b.padding ∧
      (a.size < b.size ∨ (a.size = b.size ∧ a.sector.Number < b.sector.Number)))) :=
    fun h => by rw [(matchLess_iff a b).mpr h] at h1; exact Bool.noConfusion h1
  have g2 : ¬ (b.padding < c.padding ∨ (b.padding = c.padding ∧
      (b.size < c.size ∨ (b.size = c.size ∧ b.sector.Number < c.sector.Number)))) :=
    fun h => by rw [(matchLess_iff b c).mpr h] at h2; exact Bool.noConfusion h2
  cases h3 : matchLess a c with
  | false => rfl
  | true =>
    have g3 := (matchLess_iff a c).mp h3
    omega

/-- The lookup in a map that is given in two parts. -/
theorem lookup_append {K V : Type} [DecidableEq K] (m1 m2 : GoMap K V) (k : K) :
    GoMap.lookup (m1 ++ m2) k =
      match GoMap.lookup m1 k with
      | some v => some v
      | none => GoMap.lookup m2 k := by
  induction m1 with
  | nil => rfl
  | cons e rest ih =>
    obtain ⟨k0, v0⟩ := e
    by_cases h : k0 = k
    · simp [GoMap.lookup, h]
    · simp only [List.cons_append, GoMap.lookup, h, if_false]
      exact ih

/-- The outer loop of the match construction skips an assigned piece. -/
theorem buildMatches_cons_assigned (cap : Nat) (openSectors : GoMap SectorID openSector)
    (c : Cid) (p : pendingPiece) (rest : GoMap Cid pendingPiece) (hp : p.assigned = true) :
    buildMatches cap openSectors ((c, p) :: rest) = buildMatches cap openSectors rest := by
  simp [buildMatches, hp]

/-- The outer loop of the match construction on an unassigned piece. -/
theorem buildMatches_cons_unassigned (cap : Nat) (openSectors : GoMap SectorID openSector)
    (c : Cid) (p : pendingPiece) (rest : GoMap Cid pendingPiece) (hp : p.assigned = false) :
    buildMatches cap openSectors ((c, p) :: rest) =
      (matchesOfPiece cap c p openSectors ++ (buildMatches cap openSectors rest).1,
       c :: (buildMatches cap openSectors rest).2) := by
  simp [buildMatches, hp]

/-- Pending pieces that are assigned yield no candidates. -/
theorem buildMatches_assigned (cap : Nat) (openSectors : GoMap SectorID openSector)
    (l : GoMap Cid pendingPiece) (h : ∀ e ∈ l, e.2.assigned = true) :
    buildMatches cap openSectors l = ([], []) := by
  induction l with
  | nil => rfl
  | cons e rest ih =>
    obtain ⟨c, p⟩ := e
    rw [buildMatches_cons_assigned _ _ _ _ _ (h (c, p) (List.mem_cons_self _ _))]
    exact ih (fun e he => h e (List.mem_cons_of_mem _ he))

/-- The candidates of a list of pending pieces that is given in two parts. -/
theorem buildMatches_append (cap : Nat) (openSectors : GoMap SectorID openSector)
    (l1 l2 : GoMap Cid pendingPiece) :
    buildMatches cap openSectors (l1 ++ l2) =
      ((buildMatches cap openSectors l1).1 ++ (buildMatches cap openSectors l2).1,
       (buildMatches cap openSectors l1).2 ++ (buildMatches cap openSectors l2).2) := by
  induction l1 with
  | nil => simp [buildMatches]
  | cons e rest ih =>
    obtain ⟨c, p⟩ := e
    cases hp : p.assigned with
    | true =>
      rw [List.cons_append, buildMatches_cons_assigned _ _ _ _ _ hp,
        buildMatches_cons_assigned _ _ _ _ _ hp]
      exact ih
    | false =>
      rw [List.cons_append, buildMatches_cons_unassigned _ _ _ _ _ hp,
        buildMatches_cons_unassigned _ _ _ _ _ hp, ih]
      simp

/-- The candidates when exactly one pending piece is unassigned: its matches
against the open sectors. -/
theorem buildMatches_single (cap : Nat) (openSectors : GoMap SectorID openSector)
    (pre post : GoMap Cid pendingPiece) (c : Cid) (p : pendingPiece)
    (hpre : ∀ e ∈ pre, e.2.assigned = true) (hpost : ∀ e ∈ post, e.2.assigned = true)
    (hp : p.assigned = false) :
    buildMatches cap openSectors (pre ++ (c, p) :: post) =
      (matchesOfPiece cap c p openSectors, [c]) := by
  rw [buildMatches_append, buildMatches_assigned cap openSectors pre hpre,
    buildMatches_cons_unassigned _ _ _ _ _ hp, buildMatches_assigned cap openSectors post hpost]
  simp

/-- An iteration of the assignment loop that passes the three guards. -/
theorem assignStep_accept (env : InputEnv) (cap : Nat) (st : AssignState) (mt : Match)
    (piece : pendingPiece) (sector : openSector)
    (h1 : st.m.pendingPieces.lookup mt.deal = some piece) (h2 : piece.assigned = false)
    (h3 : st.m.openSectors.lookup mt.sector = some sector)
    (h4 : mt.size ≤ subU64 cap sector.used) :
    assignStepAccepts cap st mt = true ∧
    (assignStep env cap st mt).m =
      { st.m with
        assignedPieces := st.m.assignedPieces.set mt.sector
          ((st.m.assignedPieces.lookup mt.sector).getD [] ++ [mt.deal]),
        openSectors := st.m.openSectors.set mt.sector
          { sector with used := addU64 sector.used (addU64 mt.padding mt.size) },
        pendingPieces := st.m.pendingPieces.set mt.deal { piece with assigned := true } } ∧
    (assignStep env cap st mt).toAssign = st.toAssign.filter (fun x => decide (x ≠ mt.deal)) ∧
    (assignStep env cap st mt).trace =
      st.trace ++ [InputEvent.sendSectorAddPiece mt.sector] ++
        (match env.sendAddPiece mt.sector mt.deal with
         | none => []
         | some e => [InputEvent.accepted mt.deal mt.sector.Number 0 (some e)]) := by
  have h5 : ¬ mt.size > subU64 cap sector.used := by omega
  refine ⟨?_, ?_, ?_, ?_⟩
  · simp [assignStepAccepts, h1, h2, h3, h5]
  · simp [assignStep, h1, h2, h3, h5, maybeAccept]
  · simp [assignStep, h1, h2, h3, h5, maybeAccept]
  · simp only [assignStep, h1, h2, h3, h5, maybeAccept]
    cases env.sendAddPiece mt.sector mt.deal <;> simp

/-- An iteration of the assignment loop for a piece that is assigned already. -/
theorem assignStep_assigned (env : InputEnv) (cap : Nat) (st : AssignState) (mt : Match)
    (piece : pendingPiece)
    (h1 : st.m.pendingPieces.lookup mt.deal = some piece) (h2 : piece.assigned = true) :
    assignStepAccepts cap st mt = false ∧
    assignStep env cap st mt = { st with assigned := st.assigned + 1 } := by
  constructor
  · simp [assignStepAccepts, h1, h2]
  · simp [assignStep, h1, h2]

/-! ## The matcher: one piece, two sectors with the same padding -/

/-- The insertion sort on a slice of two elements. -/
theorem sortSlice_pair {α : Type} (less : α → α → Bool) (x y : α) :
    sortSlice less [x, y] = if less y x then [y, x] else [x, y] := by
  by_cases h : less y x = true
  · simp [sortSlice, sinkInto, h]
  · simp [sortSlice, sinkInto, h]

/-- The state of the assignment loop after an iteration that passes the three
guards. -/
theorem assignStep_accept_state (env : InputEnv) (cap : Nat) (st : AssignState) (mt : Match)
    (piece : pendingPiece) (sector : openSector)
    (h1 : st.m.pendingPieces.lookup mt.deal = some piece) (h2 : piece.assigned = false)
    (h3 : st.m.openSectors.lookup mt.sector = some sector)
    (h4 : mt.size ≤ subU64 cap sector.used) :
    assignStep env cap st mt =
      { m := { st.m with
          assignedPieces := st.m.assignedPieces.set mt.sector
            ((st.m.assignedPieces.lookup mt.sector).getD [] ++ [mt.deal]),
          openSectors := st.m.openSectors.set mt.sector
            { sector with used := addU64 sector.used (addU64 mt.padding mt.size) },
          pendingPieces := st.m.pendingPieces.set mt.deal { piece with assigned := true } },
        toAssign := st.toAssign.filter (fun x => decide (x ≠ mt.deal)),
        assigned := st.assigned,
        trace :=
          match env.sendAddPiece mt.sector mt.deal with
          | none => st.trace ++ [InputEvent.sendSectorAddPiece mt.sector]
          | some e => st.trace ++ [InputEvent.sendSectorAddPiece mt.sector] ++
              [InputEvent.accepted mt.deal mt.sector.Number 0 (some e)] } := by
  have h5 : ¬ mt.size > subU64 cap sector.used := by omega
  simp only [assignStep, h1, h2, h3, h5, maybeAccept]
  rfl

/-- C19: let the matcher hold exactly one unassigned pending piece (deal `c`)
and exactly two open sectors `idA` and `idB`, visited in either order, both with
room for the piece and both leaving the same padding, `idA` with the smaller
sector number.  Then `updateInput` assigns the piece once, to `idA`: the
sequence of assignments is `[(c, idA)]`, the deal is appended to
`assignedPieces[idA]`, `used` of `idA` grows by padding plus size, the piece is
marked assigned, and nothing else in the maps changes. -/
theorem updateInput_prefers_older_sector (env : InputEnv) (m : Sealing) (sp : Int)
    (ssize : Nat) (c : Cid) (p : pendingPiece) (pre post : GoMap Cid pendingPiece)
    (idA idB : SectorID) (sA sB : openSector)
    (hss : SectorSize sp = .ok ssize)
    (hpend : m.pendingPieces = pre ++ (c, p) :: post)
    (hkeys : m.pendingPieces.keys.Nodup)
    (hpre : ∀ e ∈ pre, e.2.assigned = true) (hpost : ∀ e ∈ post, e.2.assigned = true)
    (hp : p.assigned = false)
    (hopen : m.openSectors = [(idA, sA), (idB, sB)] ∨ m.openSectors = [(idB, sB), (idA, sA)])
    (hnum : idA.Number < idB.Number)
    (hroomA : p.size ≤ subU64 (Unpadded ssize) sA.used)
    (hroomB : p.size ≤ subU64 (Unpadded ssize) sB.used)
    (hpad : subU64 (Unpadded ssize) sA.used % p.size =
      subU64 (Unpadded ssize) sB.used % p.size) :
    assignments env m sp = [(c, idA)] ∧
    (updateInput env m sp).1 =
      { m with
        assignedPieces := m.assignedPieces.set idA
          ((m.assignedPieces.lookup idA).getD [] ++ [c]),
        openSectors := m.openSectors.set idA
          { sA with used :=
              addU64 sA.used (addU64 (subU64 (Unpadded ssize) sA.used % p.size) p.size) },
        pendingPieces := m.pendingPieces.set c { p with assigned := true } } := by
  have hne : idA ≠ idB := fun h => by rw [h] at hnum; exact Nat.lt_irrefl _ hnum
  have hne2 : idB ≠ idA := fun h => hne h.symm
  -- the two candidates and their order
  have hsorted : sortedMatches (Unpadded ssize) m =
      [{ sector := idA, deal := c, size := p.size,
         padding := subU64 (Unpadded ssize) sA.used % p.size },
       { sector := idB, deal := c, size := p.size,
         padding := subU64 (Unpadded ssize) sB.used % p.size }] := by
    have hAB : matchLess
        { sector := idA, deal := c, size := p.size,
          padding := subU64 (Unpadded ssize) sA.used % p.size }
        { sector := idB, deal := c, size := p.size,
          padding := subU64 (Unpadded ssize) sB.used % p.size } = true :=
      (matchLess_iff _ _).mpr (Or.inr ⟨hpad, Or.inr ⟨rfl, hnum⟩⟩)
    have hBA := matchLess_asymm _ _ hAB
    unfold sortedMatches
    rw [hpend, buildMatches_single _ _ _ _ _ _ hpre hpost hp]
    rcases hopen with ho | ho
    · rw [ho]
      simp only [matchesOfPiece, hroomA, hroomB, if_true]
      rw [sortSlice_pair, hBA]
      simp
    · rw [ho]
      simp only [matchesOfPiece, hroomA, hroomB, if_true]
      rw [sortSlice_pair, hAB]
      simp
  have htoAssign : (buildMatches (Unpadded ssize) m.openSectors m.pendingPieces).2 = [c] := by
    rw [hpend, buildMatches_single _ _ _ _ _ _ hpre hpost hp]
  -- the lookups of the first iteration
  have hlc : m.pendingPieces.lookup c = some p := by
    have hnot : c ∉ GoMap.keys pre := by
      intro hmem
      rw [hpend] at hkeys
      simp only [GoMap.keys, List.map_append, List.map_cons] at hkeys
      have := (List.nodup_append.mp hkeys).2.2
      exact this hmem (List.mem_cons_self _ _)
    have hpre0 : GoMap.lookup pre c = none := by
      cases h : GoMap.lookup pre c with
      | none => rfl
      | some v =>
        exfalso
        exact hnot ((lookup_isSome_iff pre c).mp (by rw [h]; rfl))
    rw [hpend, lookup_append, hpre0]
    simp [GoMap.lookup]
  have hlA : m.openSectors.lookup idA = some sA := by
    rcases hopen with ho | ho <;> simp [ho, GoMap.lookup, hne2]
  -- first iteration: the piece goes to `idA`
  have hstep1 := assignStep_accept_state env (Unpadded ssize)
    { m := m, toAssign := [c] }
    { sector := idA, deal := c, size := p.size,
      padding := subU64 (Unpadded ssize) sA.used % p.size } p sA hlc hp hlA hroomA
  have hacc1 := (assignStep_accept env (Unpadded ssize)
    { m := m, toAssign := [c] }
    { sector := idA, deal := c, size := p.size,
      padding := subU64 (Unpadded ssize) sA.used % p.size } p sA hlc hp hlA hroomA).1
  -- second iteration: the piece is assigned already
  have hlc2 : (assignStep env (Unpadded ssize) { m := m, toAssign := [c] }
      { sector := idA, deal := c, size := p.size,
        padding := subU64 (Unpadded ssize) sA.used % p.size }).m.pendingPieces.lookup c =
      some { p with assigned := true } := by
    rw [hstep1]
    simp [GoMap.lookup_set]
  have hstep2 := assignStep_assigned env (Unpadded ssize)
    (assignStep env (Unpadded ssize) { m := m, toAssign := [c] }
      { sector := idA, deal := c, size := p.size,
        padding := subU64 (Unpadded ssize) sA.used % p.size })
    { sector := idB, deal := c, size := p.size,
      padding := subU64 (Unpadded ssize) sB.used % p.size }
    { p with assigned := true } hlc2 rfl
  constructor
  · unfold assignments
    rw [hss]
    simp only [hsorted, htoAssign, assignmentsFrom, hacc1, hstep2.1]
    simp
  · unfold updateInput
    rw [hss]
    simp only
    have hs2 : sortSlice matchLess
        (buildMatches (Unpadded ssize) m.openSectors m.pendingPieces).1 =
        sortedMatches (Unpadded ssize) m := rfl
    rw [hs2, hsorted, htoAssign]
    simp only [List.foldl_cons, List.foldl_nil]
    rw [hstep2.2, hstep1]
    simp

/-- C19 (witness): scenario D on a 2KiB sector.  Sector 1 has 1016 bytes used and
sector 2 has 1524 bytes used; the pending piece of 508 bytes fits both with
padding 0 and goes to sector 1, although sector 2 is visited first. -/
theorem updateInput_prefers_older_sector_witness :
    assignments {} stateScenarioD 0 = [(8, { Miner := 1000, Number := 1 })] ∧
    (updateInput {} stateScenarioD 0).1 =
      { stateScenarioD with
        assignedPieces := stateScenarioD.assignedPieces.set { Miner := 1000, Number := 1 }
          ((stateScenarioD.assignedPieces.lookup { Miner := 1000, Number := 1 }).getD [] ++ [8]),
        openSectors := stateScenarioD.openSectors.set { Miner := 1000, Number := 1 }
          { used := addU64 1016 (addU64 (subU64 (Unpadded 2048) 1016 % 508) 508) },
        pendingPieces := stateScenarioD.pendingPieces.set 8 { size := 508, assigned := true } } :=
  updateInput_prefers_older_sector {} stateScenarioD 0 2048 8 { size := 508 }
    [(7, { size := 254, assigned := true })] []
    { Miner := 1000, Number := 1 } { Miner := 1000, Number := 2 } { used := 1016 }
    { used := 1524 } rfl rfl (by decide) (by decide) (by decide) rfl (Or.inr rfl) (by decide)
    (by decide) (by decide) (by decide)

/-! ## The matcher: iteration order and the sequence of assignments -/

/-- A lookup fails on a key that the map does not have. -/
theorem lookup_eq_none_of_not_mem {K V : Type} [DecidableEq K] (m : GoMap K V) (k : K)
    (h : k ∉ m.keys) : GoMap.lookup m k = none := by
  induction m with
  | nil => rfl
  | cons e rest ih =>
    obtain ⟨k0, v0⟩ := e
    simp only [GoMap.keys, List.map_cons, List.mem_cons, not_or] at h
    have h0 : ¬ k0 = k := fun h2 => h.1 h2.symm
    simp only [GoMap.lookup, h0, if_false]
    exact ih h.2

/-- Two iteration orders of a map without repeated keys give the same lookups. -/
theorem lookup_perm {K V : Type} [DecidableEq K] (m1 m2 : GoMap K V) (hp : m1.Perm m2)
    (hnd : m1.keys.Nodup) (k : K) : GoMap.lookup m1 k = GoMap.lookup m2 k := by
  induction hp with
  | nil => rfl
  | cons x _ ih =>
    obtain ⟨k0, v0⟩ := x
    simp only [GoMap.keys, List.map_cons, List.nodup_cons] at hnd
    simp only [GoMap.lookup]
    rw [ih hnd.2]
  | swap x y l =>
    obtain ⟨kx, vx⟩ := x
    obtain ⟨ky, vy⟩ := y
    simp only [GoMap.keys, List.map_cons, List.nodup_cons, List.mem_cons, not_or] at hnd
    simp only [GoMap.lookup]
    by_cases h1 : ky = k
    · by_cases h2 : kx = k
      · exfalso
        exact hnd.1.1 (h1.trans h2.symm)
      · simp [h1, h2]
    · by_cases h2 : kx = k
      · simp [h1, h2]
      · simp [h1, h2]
  | trans h12 _ ih1 ih2 =>
    rw [ih1 hnd]
    apply ih2
    exact ((h12.map Prod.fst).nodup_iff).mp hnd

/-- The candidates of one piece do not depend on the order of the open sectors,
up to their own order. -/
theorem matchesOfPiece_perm (cap : Nat) (c : Cid) (p : pendingPiece)
    (o1 o2 : GoMap SectorID openSector) (ho : o1.Perm o2) :
    (matchesOfPiece cap c p o1).Perm (matchesOfPiece cap c p o2) := by
  induction ho with
  | nil => exact List.Perm.refl _
  | cons x _ ih =>
    obtain ⟨id, sec⟩ := x
    simp only [matchesOfPiece]
    split_ifs
    · exact List.Perm.cons _ ih
    · exact ih
  | swap x y l =>
    obtain ⟨idx, sx⟩ := x
    obtain ⟨idy, sy⟩ := y
    simp only [matchesOfPiece]
    split_ifs
    · exact List.Perm.swap _ _ _
    · exact List.Perm.refl _
    · exact List.Perm.refl _
    · exact List.Perm.refl _
  | trans _ _ ih1 ih2 => exact ih1.trans ih2

/-- The candidates do not depend on the order of the open sectors, up to their
own order. -/
theorem buildMatches_perm_open (cap : Nat) (o1 o2 : GoMap SectorID openSector)
    (ho : o1.Perm o2) (l : GoMap Cid pendingPiece) :
    (buildMatches cap o1 l).1.Perm (buildMatches cap o2 l).1 := by
  induction l with
  | nil => exact List.Perm.refl _
  | cons e rest ih =>
    obtain ⟨c, p⟩ := e
    cases hp : p.assigned with
    | true =>
      rw [buildMatches_cons_assigned _ _ _ _ _ hp, buildMatches_cons_assigned _ _ _ _ _ hp]
      exact ih
    | false =>
      rw [buildMatches_cons_unassigned _ _ _ _ _ hp, buildMatches_cons_unassigned _ _ _ _ _ hp]
      exact List.Perm.append (matchesOfPiece_perm cap c p o1 o2 ho) ih

/-- The candidates do not depend on the order of the pending pieces, up to their
own order. -/
theorem buildMatches_perm_pending (cap : Nat) (o : GoMap SectorID openSector)
    (l1 l2 : GoMap Cid pendingPiece) (hl : l1.Perm l2) :
    (buildMatches cap o l1).1.Perm (buildMatches cap o l2).1 := by
  induction hl with
  | nil => exact List.Perm.refl _
  | cons x _ ih =>
    obtain ⟨c, p⟩ := x
    cases hp : p.assigned with
    | true =>
      rw [buildMatches_cons_assigned _ _ _ _ _ hp, buildMatches_cons_assigned _ _ _ _ _ hp]
      exact ih
    | false =>
      rw [buildMatches_cons_unassigned _ _ _ _ _ hp, buildMatches_cons_unassigned _ _ _ _ _ hp]
      exact List.Perm.append_left _ ih
  | swap x y l =>
    obtain ⟨cx, px⟩ := x
    obtain ⟨cy, py⟩ := y
    cases hx : px.assigned <;> cases hy : py.assigned
    · rw [buildMatches_cons_unassigned _ _ _ _ _ hy, buildMatches_cons_unassigned _ _ _ _ _ hx,
        buildMatches_cons_unassigned _ _ _ _ _ hx, buildMatches_cons_unassigned _ _ _ _ _ hy]
      exact List.perm_append_comm_assoc _ _ _
    · rw [buildMatches_cons_assigned _ _ _ _ _ hy, buildMatches_cons_unassigned _ _ _ _ _ hx,
        buildMatches_cons_unassigned _ _ _ _ _ hx, buildMatches_cons_assigned _ _ _ _ _ hy]
    · rw [buildMatches_cons_unassigned _ _ _ _ _ hy, buildMatches_cons_assigned _ _ _ _ _ hx,
        buildMatches_cons_assigned _ _ _ _ _ hx, buildMatches_cons_unassigned _ _ _ _ _ hy]
    · rw [buildMatches_cons_assigned _ _ _ _ _ hy, buildMatches_cons_assigned _ _ _ _ _ hx,
        buildMatches_cons_assigned _ _ _ _ _ hx, buildMatches_cons_assigned _ _ _ _ _ hy]
  | trans _ _ ih1 ih2 => exact ih1.trans ih2

/-- The pending pieces after one iteration of the assignment loop, by lookup. -/
theorem assignStep_lookup_pending (env : InputEnv) (cap : Nat) (st : AssignState) (mt : Match)
    (k : Cid) :
    (assignStep env cap st mt).m.pendingPieces.lookup k =
      if assignStepAccepts cap st mt = true ∧ k = mt.deal then
        (st.m.pendingPieces.lookup mt.deal).map (fun piece => { piece with assigned := true })
      else st.m.pendingPieces.lookup k := by
  cases h1 : st.m.pendingPieces.lookup mt.deal with
  | none => simp [assignStep, assignStepAccepts, h1]
  | some piece =>
    cases h2 : piece.assigned with
    | true =>
      obtain ⟨ha, hs⟩ := assignStep_assigned env cap st mt piece h1 h2
      rw [hs, ha]
      simp
    | false =>
      cases h3 : st.m.openSectors.lookup mt.sector with
      | none => simp [assignStep, assignStepAccepts, h1, h2, h3]
      | some sector =>
        by_cases h4 : mt.size > subU64 cap sector.used
        · simp [assignStep, assignStepAccepts, h1, h2, h3, h4]
        · obtain ⟨ha, hm, _, _⟩ :=
            assignStep_accept env cap st mt piece sector h1 h2 h3 (by omega)
          rw [hm, ha]
          simp only [GoMap.lookup_set, true_and, Option.map_some']

/-- The open sectors after one iteration of the assignment loop, by lookup. -/
theorem assignStep_lookup_open (env : InputEnv) (cap : Nat) (st : AssignState) (mt : Match)
    (k : SectorID) :
    (assignStep env cap st mt).m.openSectors.lookup k =
      if assignStepAccepts cap st mt = true ∧ k = mt.sector then
        (st.m.openSectors.lookup mt.sector).map
          (fun sector => { sector with used := addU64 sector.used (addU64 mt.padding mt.size) })
      else st.m.openSectors.lookup k := by
  cases h1 : st.m.pendingPieces.lookup mt.deal with
  | none => simp [assignStep, assignStepAccepts, h1]
  | some piece =>
    cases h2 : piece.assigned with
    | true =>
      obtain ⟨ha, hs⟩ := assignStep_assigned env cap st mt piece h1 h2
      rw [hs, ha]
      simp
    | false =>
      cases h3 : st.m.openSectors.lookup mt.sector with
      | none => simp [assignStep, assignStepAccepts, h1, h2, h3]
      | some sector =>
        by_cases h4 : mt.size > subU64 cap sector.used
        · simp [assignStep, assignStepAccepts, h1, h2, h3, h4]
        · obtain ⟨ha, hm, _, _⟩ :=
            assignStep_accept env cap st mt piece sector h1 h2 h3 (by omega)
          rw [hm, ha]
          simp only [GoMap.lookup_set, true_and, Option.map_some']

/-- Whether an iteration assigns depends on the maps by their lookups only. -/
theorem assignStepAccepts_congr (cap : Nat) (st1 st2 : AssignState) (mt : Match)
    (hP : ∀ k, st1.m.pendingPieces.lookup k = st2.m.pendingPieces.lookup k)
    (hO : ∀ k, st1.m.openSectors.lookup k = st2.m.openSectors.lookup k) :
    assignStepAccepts cap st1 mt = assignStepAccepts cap st2 mt := by
  unfold assignStepAccepts
  rw [hP, hO]

/-- The assignments made over a list of matches depend on the maps by their
lookups only. -/
theorem assignmentsFrom_congr (env : InputEnv) (cap : Nat) (l : List Match)
    (st1 st2 : AssignState)
    (hP : ∀ k, st1.m.pendingPieces.lookup k = st2.m.pendingPieces.lookup k)
    (hO : ∀ k, st1.m.openSectors.lookup k = st2.m.openSectors.lookup k) :
    assignmentsFrom env cap st1 l = assignmentsFrom env cap st2 l := by
  induction l generalizing st1 st2 with
  | nil => rfl
  | cons mt rest ih =>
    have ha := assignStepAccepts_congr cap st1 st2 mt hP hO
    simp only [assignmentsFrom, ha]
    congr 1
    apply ih
    · intro k
      rw [assignStep_lookup_pending, assignStep_lookup_pending, ha, hP, hP]
    · intro k
      rw [assignStep_lookup_open, assignStep_lookup_open, ha, hO, hO]

/-- C18 (counterexample): two whole-sector pieces of 2032 bytes wait for one
empty 2KiB sector.  The two states have the same contents and differ in the
iteration order of `pendingPieces` only, yet `updateInput` assigns deal 1 to the
sector in one and deal 2 in the other. -/
theorem updateInput_depends_on_iteration_order :
    stateTie.pendingPieces.Perm stateTieRev.pendingPieces ∧
    stateTie.openSectors = stateTieRev.openSectors ∧
    assignments {} stateTie 0 = [(1, { Miner := 1000, Number := 1 })] ∧
    assignments {} stateTieRev 0 = [(2, { Miner := 1000, Number := 1 })] ∧
    assignments {} stateTie 0 ≠ assignments {} stateTieRev 0 :=
  ⟨List.Perm.swap _ _ [], rfl, by decide, by decide, by decide⟩

/-- C18 (amended): for two matcher states with the same contents of
`pendingPieces` and `openSectors`, visited in any two iteration orders, and the
same seal-proof type, `updateInput` makes the same sequence of (deal, sector)
assignments, provided no two distinct candidate matches agree on padding, size
and sector number. -/
theorem assignments_order_independent (env : InputEnv) (m1 m2 : Sealing) (sp : Int)
    (hp : m1.pendingPieces.Perm m2.pendingPieces) (ho : m1.openSectors.Perm m2.openSectors)
    (hkp : m1.pendingPieces.keys.Nodup) (hko : m1.openSectors.keys.Nodup)
    (hties : ∀ ssize, SectorSize sp = .ok ssize →
      ∀ a ∈ (buildMatches (Unpadded ssize) m1.openSectors m1.pendingPieces).1,
      ∀ b ∈ (buildMatches (Unpadded ssize) m1.openSectors m1.pendingPieces).1,
        a ≠ b → matchLess a b = true ∨ matchLess b a = true) :
    assignments env m1 sp = assignments env m2 sp := by
  unfold assignments
  cases hss : SectorSize sp with
  | error e => rfl
  | ok ssize =>
    simp only
    have hperm : (buildMatches (Unpadded ssize) m1.openSectors m1.pendingPieces).1.Perm
        (buildMatches (Unpadded ssize) m2.openSectors m2.pendingPieces).1 :=
      (buildMatches_perm_open _ _ _ ho _).trans (buildMatches_perm_pending _ _ _ _ hp)
    have hsorted : sortedMatches (Unpadded ssize) m1 = sortedMatches (Unpadded ssize) m2 := by
      unfold sortedMatches
      apply @List.Perm.eq_of_sorted Match (fun a b => matchLess b a = false)
      · intro a b ha hb h1 h2
        by_contra hab
        have ha1 := (sortSlice_perm matchLess _).subset ha
        have hb1 := hperm.symm.subset ((sortSlice_perm matchLess _).subset hb)
        rcases hties ssize hss a ha1 b hb1 hab with h3 | h3
        · rw [h3] at h2
          exact Bool.noConfusion h2
        · rw [h3] at h1
          exact Bool.noConfusion h1
      · exact sortSlice_pairwise _ matchLess_asymm matchLess_negTrans _
      · exact sortSlice_pairwise _ matchLess_asymm matchLess_negTrans _
      · exact ((sortSlice_perm _ _).trans hperm).trans (sortSlice_perm _ _).symm
    rw [hsorted]
    apply assignmentsFrom_congr
    · intro k
      exact lookup_perm _ _ hp hkp k
    · intro k
      exact lookup_perm _ _ ho hko k

/-- C18 (witness): the pieces of 127 and 1016 bytes and the sector with 127 bytes
used, with the pending pieces visited in either order: the candidates leave the
paddings 0 and 889, and both orders assign deal 1 and then deal 2 to the sector. -/
theorem assignments_order_independent_witness :
    stateOverfill.pendingPieces.Perm stateOverfillRev.pendingPieces ∧
    assignments {} stateOverfill 0 =
      [(1, { Miner := 1000, Number := 1 }), (2, { Miner := 1000, Number := 1 })] ∧
    assignments {} stateOverfill 0 = assignments {} stateOverfillRev 0 :=
  ⟨List.Perm.swap _ _ [], by decide,
   assignments_order_independent {} stateOverfill stateOverfillRev 0 (List.Perm.swap _ _ [])
     (List.Perm.refl _) (by decide) (by decide)
     (fun ssize hss => by
       have h : ssize = 2048 := by
         have h2 : (Except.ok 2048 : Except String Nat) = Except.ok ssize := hss
         injection h2 with h3
         exact h3.symm
       subst h
       decide)⟩

/-! ## The sequence of assignments and the events of `updateInput` -/

/-- An iteration of the assignment loop that fails a guard sends nothing. -/
theorem assignStep_reject_trace (env : InputEnv) (cap : Nat) (st : AssignState) (mt : Match)
    (h : assignStepAccepts cap st mt = false) :
    (assignStep env cap st mt).trace = st.trace := by
  unfold assignStepAccepts at h
  unfold assignStep
  cases h1 : st.m.pendingPieces.lookup mt.deal with
  | none => rfl
  | some piece =>
    rw [h1] at h
    simp only at h ⊢
    cases h2 : piece.assigned with
    | true => simp
    | false =>
      rw [h2] at h
      simp only [Bool.false_eq_true, if_false] at h ⊢
      cases h3 : st.m.openSectors.lookup mt.sector with
      | none => rfl
      | some sector =>
        rw [h3] at h
        simp only at h ⊢
        by_cases h4 : mt.size > subU64 cap sector.used
        · simp [h4]
        · simp [h4] at h

/-- The `SectorAddPiece` events of the assignment loop go, in order, to the
sectors of its assignments. -/
theorem foldl_assignStep_events (env : InputEnv) (cap : Nat) (l : List Match)
    (st : AssignState) :
    (l.foldl (assignStep env cap) st).trace.filterMap addPieceSector =
      st.trace.filterMap addPieceSector ++ (assignmentsFrom env cap st l).map Prod.snd := by
  induction l generalizing st with
  | nil => simp [assignmentsFrom]
  | cons mt rest ih =>
    rw [List.foldl_cons, ih]
    simp only [assignmentsFrom]
    cases ha : assignStepAccepts cap st mt with
    | false =>
      rw [assignStep_reject_trace env cap st mt ha]
      simp
    | true =>
      have htr : (assignStep env cap st mt).trace.filterMap addPieceSector =
          st.trace.filterMap addPieceSector ++ [mt.sector] := by
        unfold assignStepAccepts at ha
        cases h1 : st.m.pendingPieces.lookup mt.deal with
        | none => rw [h1] at ha; simp at ha
        | some piece =>
          rw [h1] at ha
          simp only at ha
          cases h2 : piece.assigned with
          | true => rw [h2] at ha; simp at ha
          | false =>
            rw [h2] at ha
            simp only [Bool.false_eq_true, if_false] at ha
            cases h3 : st.m.openSectors.lookup mt.sector with
            | none => rw [h3] at ha; simp at ha
            | some sector =>
              rw [h3] at ha
              simp only at ha
              by_cases h4 : mt.size > subU64 cap sector.used
              · simp [h4] at ha
              · rw [(assignStep_accept env cap st mt piece sector h1 h2 h3 (by omega)).2.2.2]
                cases env.sendAddPiece mt.sector mt.deal <;>
                  simp [List.filterMap_append, addPieceSector]
      rw [htr]
      simp

/-- The method `tryCreateDealSector` sends no `SectorAddPiece`. -/
theorem tryCreateDealSector_events (env : InputEnv) (m : Sealing) (sp : Int) :
    (tryCreateDealSector env m sp).2.2.filterMap addPieceSector = [] := by
  unfold tryCreateDealSector
  by_cases h1 : m.creating.isSome = true
  · rw [if_pos h1]
    rfl
  · rw [if_neg h1]
    cases env.getConfig with
    | error e => rfl
    | ok cfg =>
      simp only
      by_cases h2 : cfg.MaxSealingSectorsForDeals > 0 ∧
          m.stats.curSealing ≥ cfg.MaxSealingSectorsForDeals
      · rw [if_pos h2]
        rfl
      · rw [if_neg h2]
        by_cases h3 : cfg.MaxWaitDealsSectors > 0 ∧
            m.stats.curStaging ≥ cfg.MaxWaitDealsSectors
        · rw [if_pos h3]
          rfl
        · rw [if_neg h3]
          unfold createSector
          cases env.scNext with
          | error e => rfl
          | ok sid =>
            simp only
            cases env.newSector sid <;> rfl

/-- The `SectorAddPiece` events of `updateInput` go, in order, to the sectors of
its sequence of assignments. -/
theorem updateInput_events (env : InputEnv) (m : Sealing) (sp : Int) :
    (updateInput env m sp).2.2.filterMap addPieceSector =
      (assignments env m sp).map Prod.snd := by
  unfold updateInput assignments
  cases SectorSize sp with
  | error e => rfl
  | ok ssize =>
    simp only
    have hs : sortSlice matchLess
        (buildMatches (Unpadded ssize) m.openSectors m.pendingPieces).1 =
        sortedMatches (Unpadded ssize) m := rfl
    rw [hs]
    have hf := foldl_assignStep_events env (Unpadded ssize) (sortedMatches (Unpadded ssize) m)
      { m := m, toAssign := (buildMatches (Unpadded ssize) m.openSectors m.pendingPieces).2 }
    simp only [List.filterMap_nil, List.nil_append] at hf
    split_ifs
    · simp only [List.filterMap_append, hf, tryCreateDealSector_events, List.append_nil]
    · exact hf

/-! ## The batcher: funds of a batch -/

/-- The running sum of `processBatch` over a list of deposits is the sum of the
list. -/
theorem foldl_add_eq_sum (l : List Int) : l.foldl (fun x y => x + y) 0 = l.sum :=
  List.sum_eq_foldl.symm

/-- The deposit of `processBatch` is the sum of the deposits of the entries in
the batch, the first `MaxPreCommitBatch` entries of `todo`. -/
theorem batchDeposit_eq_sum (b : PreCommitBatcher) (cfg : Config) :
    batchDeposit b cfg =
      (((b.todo.take cfg.MaxPreCommitBatch.toNat).map Prod.snd).map
        (fun p => p.deposit)).sum := by
  unfold batchDeposit
  rw [foldl_add_eq_sum, collectBatch_nil]

/-- The fee cap of `processBatch` by the size of the batch. -/
theorem batchMaxFee_eq (env : BatcherEnv) (b : PreCommitBatcher) (cfg : Config) :
    batchMaxFee env b cfg =
      env.maxPreCommitBatchGasFee.Base + env.maxPreCommitBatchGasFee.PerSector *
        ((((b.todo.take cfg.MaxPreCommitBatch.toNat).map Prod.snd).length : Nat) : Int) := by
  unfold batchMaxFee batchParams BatchFeeConfig.FeeForSectors
  rw [collectBatch_nil, List.length_map]

/-- Every call of `processBatch` is one of the four calls of the successful
run, with the deposit and the fee cap of the batch. -/
theorem processBatch_calls (env : BatcherEnv) (b : PreCommitBatcher) (cfg : Config)
    (c : ApiCall) (hc : c ∈ (processBatch env b cfg).calls) :
    c = ApiCall.marshalCBOR (batchParams b cfg) ∨
    c = ApiCall.stateMinerInfo env.maddr ∨
    (∃ mi, c = ApiCall.addrSel mi (batchDeposit b cfg + batchMaxFee env b cfg)
      (batchDeposit b cfg)) ∨
    (∃ sender enc, env.marshalCBOR (batchParams b cfg) = .ok enc ∧
      c = ApiCall.messagerSendMsg sender env.maddr (batchDeposit b cfg)
        (batchMaxFee env b cfg) enc) := by
  unfold processBatch at hc
  simp only at hc
  rcases hm : env.marshalCBOR
      ((collectBatch cfg.MaxPreCommitBatch b.todo []).map (fun p => p.pci)) with e | enc
  · rw [hm] at hc
    simp only [List.mem_singleton] at hc
    exact Or.inl hc
  · rw [hm] at hc
    simp only at hc
    rcases hs : env.stateMinerInfo with e | mi
    · rw [hs] at hc
      simp only [List.mem_append, List.mem_singleton, List.mem_cons, List.not_mem_nil,
        or_false] at hc
      rcases hc with hc | hc
      · exact Or.inl hc
      · exact Or.inr (Or.inl hc)
    · rw [hs] at hc
      simp only at hc
      have hcases : c = ApiCall.marshalCBOR (batchParams b cfg) ∨
          c = ApiCall.stateMinerInfo env.maddr ∨
          c = ApiCall.addrSel mi (batchDeposit b cfg + batchMaxFee env b cfg)
            (batchDeposit b cfg) ∨
          ∃ sender, c = ApiCall.messagerSendMsg sender env.maddr (batchDeposit b cfg)
            (batchMaxFee env b cfg) enc := by
        rcases ha : env.addrSel mi
          ((List.map (fun p => p.deposit) (collectBatch cfg.MaxPreCommitBatch b.todo [])).foldl
              (fun x y => x + y) 0 +
            env.maxPreCommitBatchGasFee.FeeForSectors
              (List.map (fun p => p.pci) (collectBatch cfg.MaxPreCommitBatch b.todo [])).length)
          ((List.map (fun p => p.deposit) (collectBatch cfg.MaxPreCommitBatch b.todo [])).foldl
              (fun x y => x + y) 0) with e | sender
        · rw [ha] at hc
          simp only [List.mem_append, List.mem_singleton, List.mem_cons, List.not_mem_nil,
            or_false] at hc
          rcases hc with (hc | hc) | hc
          · exact Or.inl hc
          · exact Or.inr (Or.inl hc)
          · exact Or.inr (Or.inr (Or.inl hc))
        · rw [ha] at hc
          simp only at hc
          have hc2 : c ∈ [ApiCall.marshalCBOR (batchParams b cfg),
              ApiCall.stateMinerInfo env.maddr,
              ApiCall.addrSel mi (batchDeposit b cfg + batchMaxFee env b cfg)
                (batchDeposit b cfg),
              ApiCall.messagerSendMsg sender env.maddr (batchDeposit b cfg)
                (batchMaxFee env b cfg) enc] := by
            cases hsend : env.messagerSendMsg sender
              ((List.map (fun p => p.deposit)
                (collectBatch cfg.MaxPreCommitBatch b.todo [])).foldl (fun x y => x + y) 0)
              (env.maxPreCommitBatchGasFee.FeeForSectors
                (List.map (fun p => p.pci)
                  (collectBatch cfg.MaxPreCommitBatch b.todo [])).length) enc with
            | error e => rw [hsend] at hc; exact hc
            | ok uid => rw [hsend] at hc; exact hc
          simp only [List.mem_cons, List.mem_singleton, List.not_mem_nil, or_false] at hc2
          rcases hc2 with hc2 | hc2 | hc2 | hc2
          · exact Or.inl hc2
          · exact Or.inr (Or.inl hc2)
          · exact Or.inr (Or.inr (Or.inl hc2))
          · exact Or.inr (Or.inr (Or.inr ⟨sender, hc2⟩))
      rcases hcases with h | h | h | ⟨sender, h⟩
      · exact Or.inl h
      · exact Or.inr (Or.inl h)
      · exact Or.inr (Or.inr (Or.inl ⟨mi, h⟩))
      · exact Or.inr (Or.inr (Or.inr ⟨sender, enc, hm, h⟩))

/-- C21: in every run of `processBatch`, with `batch` the entries it includes
(the first `MaxPreCommitBatch` entries of `todo` in iteration order, not all of
`todo`), `deposit` the exact sum of their deposits and
`maxFee = Base + PerSector * len(batch)`: every request to the address selector
has `goodFunds = deposit + maxFee` and `minFunds = deposit`, every
`PreCommitSectorBatch` message is sent to the miner actor with value `deposit`
and fee cap `maxFee`, and a run without error makes both calls. -/
theorem processBatch_funds (env : BatcherEnv) (b : PreCommitBatcher) (cfg : Config) :
    let batch := (b.todo.take cfg.MaxPreCommitBatch.toNat).map Prod.snd
    let deposit := (batch.map (fun p => p.deposit)).sum
    let maxFee := env.maxPreCommitBatchGasFee.Base +
      env.maxPreCommitBatchGasFee.PerSector * ((batch.length : Nat) : Int)
    (processBatch env b cfg).res.map (fun r => r.Sectors) =
      [batch.map (fun p => p.pci.SectorNumber)] ∧
    (∀ mi goodFunds minFunds,
      ApiCall.addrSel mi goodFunds minFunds ∈ (processBatch env b cfg).calls →
        goodFunds = deposit + maxFee ∧ minFunds = deposit) ∧
    (∀ sender dest value fee enc,
      ApiCall.messagerSendMsg sender dest value fee enc ∈ (processBatch env b cfg).calls →
        dest = env.maddr ∧ value = deposit ∧ fee = maxFee) ∧
    ((processBatch env b cfg).err = none →
      ∃ mi sender enc,
        ApiCall.addrSel mi (deposit + maxFee) deposit ∈ (processBatch env b cfg).calls ∧
        ApiCall.messagerSendMsg sender env.maddr deposit maxFee enc ∈
          (processBatch env b cfg).calls) := by
  intro batch deposit maxFee
  have hd : batchDeposit b cfg = deposit := batchDeposit_eq_sum b cfg
  have hf : batchMaxFee env b cfg = maxFee := batchMaxFee_eq env b cfg
  refine ⟨?_, ?_, ?_, ?_⟩
  · obtain ⟨r, hr, hs, -, -⟩ := processBatch_shape env b cfg
    rw [hr, List.map_cons, List.map_nil, hs, collectBatch_nil]
  · intro mi goodFunds minFunds hc
    rcases processBatch_calls env b cfg _ hc with h | h | ⟨mi2, h⟩ | ⟨s, enc, -, h⟩
    · exact ApiCall.noConfusion h
    · exact ApiCall.noConfusion h
    · injection h with h1 h2 h3
      rw [h2, h3, hd, hf]
      exact ⟨rfl, rfl⟩
    · exact ApiCall.noConfusion h
  · intro sender dest value fee enc hc
    rcases processBatch_calls env b cfg _ hc with h | h | ⟨mi2, h⟩ | ⟨s, enc2, -, h⟩
    · exact ApiCall.noConfusion h
    · exact ApiCall.noConfusion h
    · exact ApiCall.noConfusion h
    · injection h with h1 h2 h3 h4 h5
      rw [h2, h3, h4, hd, hf]
      exact ⟨rfl, rfl, rfl⟩
  · intro herr
    obtain ⟨enc, mi, sender, uid, -, -, -, -, hp⟩ := processBatch_ok env b cfg herr
    refine ⟨mi, sender, enc, ?_, ?_⟩
    · rw [hp, hd, hf]
      simp
    · rw [hp, hd, hf]
      simp

/-! ## The batcher: what the flush caller is told -/

/-- C28 (the code at the failing input): `todo` holds the sectors 0 and 1 and the
miner info query fails.  The results put on the channels of the two waiters
carry the error text, while the list that `maybeStartBatch` returns, which
`Flush` hands to its caller, has an empty `Error` and comes with no error. -/
theorem maybeStartBatch_returned_list_lacks_error :
    (maybeStartBatch envNoMinerInfo (batcherTwo Hour Hour) false).delivered =
      [(0, { Sectors := [0, 1], Error := "couldn't get miner info: unreachable" }),
       (1, { Sectors := [0, 1], Error := "couldn't get miner info: unreachable" })] ∧
    (maybeStartBatch envNoMinerInfo (batcherTwo Hour Hour) false).res =
      [{ Sectors := [0, 1], Error := "" }] ∧
    (maybeStartBatch envNoMinerInfo (batcherTwo Hour Hour) false).err = none := by
  decide

/-! ## The batcher: progress of a batch -/

/-- C29 (counterexample): with `MaxPreCommitBatch = 0` and two sectors in
`todo`, a timer or forced run calls `processBatch`, whose batch is empty: a
`PreCommitSectorBatch` message for an empty sector list is sent, the result names
no sector and `todo` is as long as before. -/
theorem maybeStartBatch_empty_batch_at_zero_max :
    (batcherTwo Hour Hour).todo ≠ [] ∧
    batchSectors (batcherTwo Hour Hour) { MaxPreCommitBatch := 0 } = [] ∧
    (maybeStartBatch (envBatch 0) (batcherTwo Hour Hour) false).calls =
      [ApiCall.marshalCBOR [], ApiCall.stateMinerInfo 0, ApiCall.addrSel 0 0 0,
       ApiCall.messagerSendMsg 0 0 0 0 []] ∧
    (maybeStartBatch (envBatch 0) (batcherTwo Hour Hour) false).res =
      [{ Sectors := [], Msg := "uid" }] ∧
    (maybeStartBatch (envBatch 0) (batcherTwo Hour Hour) false).b.todo.length =
      (batcherTwo Hour Hour).todo.length := by
  decide

/-- Deleting a list of keys keeps the entries under the other keys. -/
theorem foldl_delete_eq_filter {V : Type} (sns : List Nat) (m : GoMap Nat V) :
    sns.foldl GoMap.delete m = m.filter (fun e => decide (e.1 ∉ sns)) := by
  induction sns generalizing m with
  | nil => simp
  | cons s rest ih =>
    rw [List.foldl_cons, ih, GoMap.delete, List.filter_filter]
    apply List.filter_congr
    intro e _
    simp only [List.mem_cons, not_or, Bool.decide_and, Bool.and_comm]

/-- Deleting a list of keys that holds a key of the map makes the map shorter. -/
theorem length_foldl_delete_lt {V : Type} (sns : List Nat) (m : GoMap Nat V) (e : Nat × V)
    (he : e ∈ m) (hs : e.1 ∈ sns) : (sns.foldl GoMap.delete m).length < m.length := by
  rw [foldl_delete_eq_filter, List.length_filter_lt_length_iff_exists]
  exact ⟨e, he, by simpa using hs⟩

/-- C29 (amended): for every `MaxPreCommitBatch >= 1` and every non-empty
`todo` whose entries are filed under their own sector number, whenever
`maybeStartBatch` invokes `processBatch` the batch holds at least one sector,
the params serialized first are those of the batch, every message sent carries
the encoding of these non-empty params, and `todo` is strictly shorter
afterwards. -/
theorem maybeStartBatch_progress (env : BatcherEnv) (b : PreCommitBatcher) (notif : Bool)
    (cfg : Config) (hcfg : env.getConfig = .ok cfg) (hne : b.todo ≠ [])
    (hmax : 1 ≤ cfg.MaxPreCommitBatch) (hk : TodoKeyed b.todo)
    (hrun : ¬ (notif = true ∧ (b.todo.length : Int) < cfg.MaxPreCommitBatch)) :
    batchSectors b cfg ≠ [] ∧ batchParams b cfg ≠ [] ∧
    (maybeStartBatch env b notif).res.map (fun r => r.Sectors) = [batchSectors b cfg] ∧
    (maybeStartBatch env b notif).calls.head? = some (ApiCall.marshalCBOR (batchParams b cfg)) ∧
    (∀ sender dest value fee enc,
      ApiCall.messagerSendMsg sender dest value fee enc ∈ (maybeStartBatch env b notif).calls →
        env.marshalCBOR (batchParams b cfg) = .ok enc) ∧
    (maybeStartBatch env b notif).b.todo.length < b.todo.length := by
  obtain ⟨e, rest, htodo⟩ := List.exists_cons_of_ne_nil hne
  have h1 : cfg.MaxPreCommitBatch.toNat = (cfg.MaxPreCommitBatch.toNat - 1) + 1 := by omega
  have hsec : batchSectors b cfg =
      e.2.pci.SectorNumber ::
        ((rest.take (cfg.MaxPreCommitBatch.toNat - 1)).map Prod.snd).map
          (fun p => p.pci.SectorNumber) := by
    unfold batchSectors
    rw [collectBatch_nil, htodo, h1, List.take_succ_cons]
    rfl
  have hpar : batchParams b cfg =
      e.2.pci :: ((rest.take (cfg.MaxPreCommitBatch.toNat - 1)).map Prod.snd).map
          (fun p => p.pci) := by
    unfold batchParams
    rw [collectBatch_nil, htodo, h1, List.take_succ_cons]
    rfl
  obtain ⟨r, hr, hrunEq⟩ := maybeStartBatch_run env b notif cfg hcfg hne hrun
  obtain ⟨r2, hr2, hs2, -, hhead⟩ := processBatch_shape env b cfg
  have hrr : r = r2 := by
    rw [hr] at hr2
    exact (List.cons.inj hr2).1
  have hrs : r.Sectors = batchSectors b cfg := by rw [hrr, hs2]; rfl
  refine ⟨by rw [hsec]; exact List.cons_ne_nil _ _, by rw [hpar]; exact List.cons_ne_nil _ _,
    ?_, ?_, ?_, ?_⟩
  · rw [hrunEq]
    simp only [List.map_cons, List.map_nil, hrs]
  · rw [hrunEq]
    exact hhead
  · intro sender dest value fee enc hc
    rw [hrunEq] at hc
    rcases processBatch_calls env b cfg _ hc with h | h | ⟨mi2, h⟩ | ⟨s, enc2, hm, h⟩
    · exact ApiCall.noConfusion h
    · exact ApiCall.noConfusion h
    · exact ApiCall.noConfusion h
    · injection h with h1 h2 h3 h4 h5
      rw [h5]
      exact hm
  · rw [hrunEq]
    simp only
    rw [(foldl_deliverSector_maps _ r.Sectors { b := b }).1, hrs]
    apply length_foldl_delete_lt _ _ e
    · rw [htodo]
      exact List.mem_cons_self _ _
    · rw [hsec, ← hk.2 e (by rw [htodo]; exact List.mem_cons_self _ _)]
      exact List.mem_cons_self _ _

/-- C29 (amended), at a concrete input: two sectors in `todo` and
`MaxPreCommitBatch = 1`. -/
theorem maybeStartBatch_progress_witness :
    (batcherTwo Hour Hour).todo ≠ [] ∧
    batchSectors (batcherTwo Hour Hour) { MaxPreCommitBatch := 1 } ≠ [] ∧
    (maybeStartBatch (envBatch 1) (batcherTwo Hour Hour) false).b.todo.length <
      (batcherTwo Hour Hour).todo.length :=
  have h := maybeStartBatch_progress (envBatch 1) (batcherTwo Hour Hour) false
    { MaxPreCommitBatch := 1 } rfl (by decide) (by decide) ⟨by decide, by decide⟩ (by decide)
  ⟨by decide, h.1, h.2.2.2.2.2⟩

/-! ## Expiration: bounds of the alignment -/

/-- The alignment formula on integers: for `0 <= e` and `0 <= pb < w` the value
`e + w - e mod w + pb - 1` lies in `[e + pb, e + pb + w - 1]` and its successor
leaves the remainder `pb`. -/
theorem align_bounds (w pb e : Int) (he : 0 ≤ e) (hpb0 : 0 ≤ pb) (hpb : pb < w) :
    e + pb ≤ e + w - Int.tmod e w + pb - 1 ∧
    e + w - Int.tmod e w + pb - 1 ≤ e + pb + w - 1 ∧
    (e + w - Int.tmod e w + pb - 1 + 1) % w = pb := by
  have hw : 0 < w := by omega
  rw [Int.tmod_eq_emod he (by omega)]
  have hr0 : 0 ≤ e % w := Int.emod_nonneg e (by omega)
  have hr1 : e % w < w := Int.emod_lt_of_pos e hw
  have hdiv := Int.emod_add_ediv e w
  refine ⟨by omega, by omega, ?_⟩
  have e1 : e + w - e % w + pb - 1 + 1 = pb + w * (e / w + 1) := by linarith
  rw [e1, Int.add_mul_emod_self_left]
  exact Int.emod_eq_of_lt hpb0 hpb

/-- C30: for a non-negative pre-alignment epoch `end` (the latest deal end epoch
not before the chain head `E`, or `E + duration`) and
`0 <= provingBoundary < WPoStProvingPeriod`, the epoch that `Expiration` returns
is not earlier than `end`, lies in
`[end + provingBoundary, end + provingBoundary + WPoStProvingPeriod - 1]`, and
`(result + 1) mod WPoStProvingPeriod = provingBoundary`, for the remainder of
the source language as for the mathematical one. -/
theorem Expiration_alignment_bounds (wpp : ChainEpoch) (p : BasicPreCommitPolicy)
    (E : ChainEpoch) (ps : List Piece)
    (hend : 0 ≤ expirationEndRef E p.duration ps)
    (hpb0 : 0 ≤ p.provingBoundary) (hpb : p.provingBoundary < wpp) :
    (Expiration wpp p (.ok E) ps).2 = none ∧
    expirationEndRef E p.duration ps ≤ (Expiration wpp p (.ok E) ps).1 ∧
    expirationEndRef E p.duration ps + p.provingBoundary ≤ (Expiration wpp p (.ok E) ps).1 ∧
    (Expiration wpp p (.ok E) ps).1 ≤
      expirationEndRef E p.duration ps + p.provingBoundary + wpp - 1 ∧
    Int.tmod ((Expiration wpp p (.ok E) ps).1 + 1) wpp = p.provingBoundary ∧
    ((Expiration wpp p (.ok E) ps).1 + 1) % wpp = p.provingBoundary := by
  have hE : Expiration wpp p (.ok E) ps =
      (alignRef wpp p.provingBoundary (expirationEndRef E p.duration ps), none) :=
    Expiration_ok wpp p E ps
  rw [hE]
  simp only [alignRef]
  obtain ⟨h1, h2, h3⟩ :=
    align_bounds wpp p.provingBoundary (expirationEndRef E p.duration ps) hend hpb0 hpb
  have h4 : expirationEndRef E p.duration ps ≤
      expirationEndRef E p.duration ps + p.provingBoundary :=
    le_add_of_nonneg_right hpb0
  have h5 : (0 : Int) ≤ expirationEndRef E p.duration ps + wpp -
      Int.tmod (expirationEndRef E p.duration ps) wpp + p.provingBoundary - 1 + 1 :=
    le_trans (le_trans hend (le_trans h4 h1)) (Int.le_add_one (le_refl _))
  refine ⟨trivial, le_trans h4 h1, h1, h2, ?_, h3⟩
  rw [Int.tmod_eq_emod h5 (le_trans hpb0 (le_of_lt hpb))]
  exact h3

/-- C30, at a concrete input: period 10, boundary 3, duration 100, chain head 7
and one deal that ends at epoch 25; the result is 32. -/
theorem Expiration_alignment_bounds_witness :
    (25 : Int) ≤ (Expiration 10 { provingBoundary := 3, duration := 100 } (.ok 7)
      [dealPiece 1 25]).1 ∧
    (Expiration 10 { provingBoundary := 3, duration := 100 } (.ok 7) [dealPiece 1 25]).1 = 32 ∧
    ((Expiration 10 { provingBoundary := 3, duration := 100 } (.ok 7)
      [dealPiece 1 25]).1 + 1) % 10 = 3 :=
  have h := Expiration_alignment_bounds 10 { provingBoundary := 3, duration := 100 } 7
    [dealPiece 1 25] (by decide) (by decide) (by decide)
  ⟨h.2.1, by decide, h.2.2.2.2.2⟩

/-! ## The matcher: the sector being created -/

/-- An iteration of the assignment loop leaves `creating` alone. -/
theorem assignStep_creating (env : InputEnv) (cap : Nat) (st : AssignState) (mt : Match) :
    (assignStep env cap st mt).m.creating = st.m.creating := by
  unfold assignStep
  cases h1 : st.m.pendingPieces.lookup mt.deal with
  | none => rfl
  | some piece =>
    simp only
    by_cases h2 : piece.assigned = true
    · simp [h2]
    · simp only [h2]
      cases h3 : st.m.openSectors.lookup mt.sector with
      | none => rfl
      | some sector =>
        simp only
        by_cases h4 : mt.size > subU64 cap sector.used
        · simp [h4]
        · simp [h4, maybeAccept]

/-- The assignment loop leaves `creating` alone. -/
theorem foldl_assignStep_creating (env : InputEnv) (cap : Nat) (l : List Match)
    (st : AssignState) :
    (l.foldl (assignStep env cap) st).m.creating = st.m.creating := by
  induction l generalizing st with
  | nil => rfl
  | cons mt rest ih => rw [List.foldl_cons, ih, assignStep_creating]

/-- The helper `createSector` leaves `creating` alone. -/
theorem createSector_creating (env : InputEnv) (m : Sealing) (cfg : Config) :
    (createSector env m cfg).1.creating = m.creating := by
  unfold createSector
  cases env.scNext with
  | error e => rfl
  | ok sid =>
    simp only
    cases env.newSector sid <;> rfl

/-- The method `tryCreateDealSector` either leaves `creating` as it is, or
`creating` was unset and is now the number of a sector for which `SectorStart`
was fired. -/
theorem tryCreateDealSector_creating (env : InputEnv) (m : Sealing) (sp : Int) :
    (tryCreateDealSector env m sp).1.creating = m.creating ∨
    (m.creating = none ∧ ∃ sid, (tryCreateDealSector env m sp).1.creating = some sid ∧
      InputEvent.sendSectorStart sid sp ∈ (tryCreateDealSector env m sp).2.2) := by
  unfold tryCreateDealSector
  by_cases h1 : m.creating.isSome = true
  · rw [if_pos h1]
    exact Or.inl rfl
  · rw [if_neg h1]
    have hnone : m.creating = none := by
      cases hc : m.creating with
      | none => rfl
      | some c => rw [hc] at h1; exact absurd rfl h1
    cases env.getConfig with
    | error e => exact Or.inl rfl
    | ok cfg =>
      simp only
      by_cases h2 : cfg.MaxSealingSectorsForDeals > 0 ∧
          m.stats.curSealing ≥ cfg.MaxSealingSectorsForDeals
      · rw [if_pos h2]
        exact Or.inl rfl
      · rw [if_neg h2]
        by_cases h3 : cfg.MaxWaitDealsSectors > 0 ∧
            m.stats.curStaging ≥ cfg.MaxWaitDealsSectors
        · rw [if_pos h3]
          exact Or.inl rfl
        · rw [if_neg h3]
          have hc := createSector_creating env m cfg
          rcases hcs : createSector env m cfg with ⟨m1, res, tr⟩
          rw [hcs] at hc
          cases res with
          | error e => exact Or.inl hc
          | ok sid =>
            refine Or.inr ⟨hnone, sid, rfl, ?_⟩
            simp

/-- The method `updateInput` either leaves `creating` as it is, or `creating`
was unset and is now the number of a sector for which `SectorStart` was fired. -/
theorem updateInput_creating (env : InputEnv) (m : Sealing) (sp : Int) :
    (updateInput env m sp).1.creating = m.creating ∨
    (m.creating = none ∧ ∃ sid, (updateInput env m sp).1.creating = some sid ∧
      InputEvent.sendSectorStart sid sp ∈ (updateInput env m sp).2.2) := by
  unfold updateInput
  cases SectorSize sp with
  | error e => exact Or.inl rfl
  | ok ssize =>
    simp only
    split_ifs
    · have hfold := foldl_assignStep_creating env (Unpadded ssize)
        (sortSlice matchLess (buildMatches (Unpadded ssize) m.openSectors m.pendingPieces).1)
        { m := m, toAssign := (buildMatches (Unpadded ssize) m.openSectors m.pendingPieces).2 }
      rcases tryCreateDealSector_creating env
        ((sortSlice matchLess (buildMatches (Unpadded ssize) m.openSectors m.pendingPieces).1).foldl
          (assignStep env (Unpadded ssize))
          { m := m, toAssign := (buildMatches (Unpadded ssize) m.openSectors m.pendingPieces).2 }).m
        sp with h | ⟨h0, sid, h1, h2⟩
      · left
        rw [h, hfold]
      · right
        rw [hfold] at h0
        exact ⟨h0, sid, h1, List.mem_append_right _ h2⟩
    · exact Or.inl (foldl_assignStep_creating _ _ _ _)

/-- The part of `maybeStartSealing` after the timer check changes nothing but
the timers. -/
theorem maybeStartSealingChecks_fields (env : InputEnv) (m : Sealing) (now : Time)
    (sector : SectorInfo) (used : Nat) :
    (maybeStartSealingChecks env m now sector used).m.creating = m.creating ∧
    (maybeStartSealingChecks env m now sector used).m.pendingPieces = m.pendingPieces ∧
    (maybeStartSealingChecks env m now sector used).m.openSectors = m.openSectors ∧
    (maybeStartSealingChecks env m now sector used).m.assignedPieces = m.assignedPieces := by
  unfold maybeStartSealingChecks
  simp only
  cases SectorSize sector.SectorType with
  | error e => exact ⟨rfl, rfl, rfl, rfl⟩
  | ok ssize =>
    simp only
    cases env.dealLimit ssize with
    | error e => exact ⟨rfl, rfl, rfl, rfl⟩
    | ok maxDeals =>
      simp only
      split_ifs
      · exact ⟨rfl, rfl, rfl, rfl⟩
      · exact ⟨rfl, rfl, rfl, rfl⟩
      · cases env.getConfig with
        | error e => exact ⟨rfl, rfl, rfl, rfl⟩
        | ok cfg =>
          simp only
          split_ifs
          · exact ⟨rfl, rfl, rfl, rfl⟩
          · exact ⟨rfl, rfl, rfl, rfl⟩
      · exact ⟨rfl, rfl, rfl, rfl⟩

/-- The method `maybeStartSealing` changes nothing but the timers. -/
theorem maybeStartSealing_fields (env : InputEnv) (m : Sealing) (now : Time)
    (sector : SectorInfo) (used : Nat) :
    (maybeStartSealing env m now sector used).m.creating = m.creating ∧
    (maybeStartSealing env m now sector used).m.pendingPieces = m.pendingPieces ∧
    (maybeStartSealing env m now sector used).m.openSectors = m.openSectors ∧
    (maybeStartSealing env m now sector used).m.assignedPieces = m.assignedPieces := by
  unfold maybeStartSealing
  simp only
  cases m.sectorTimers.lookup { Miner := env.minerID, Number := sector.SectorNumber } with
  | none => exact maybeStartSealingChecks_fields env m now sector used
  | some st =>
    simp only
    split_ifs
    · exact maybeStartSealingChecks_fields env _ now sector used
    · exact ⟨rfl, rfl, rfl, rfl⟩

/-- What `handleWaitDeals` leaves in `creating`, by the value after its first
statement: that value, or, when that value is unset, the number of a sector for
which the matching pass of this call fired `SectorStart`. -/
theorem handleWaitDeals_creating (env : InputEnv) (m : Sealing) (now : Time)
    (sector : SectorInfo) :
    (handleWaitDeals env m now sector).1.creating =
      (clearCreating m sector.SectorNumber).creating ∨
    ((clearCreating m sector.SectorNumber).creating = none ∧
      ∃ sid, (handleWaitDeals env m now sector).1.creating = some sid ∧
        InputEvent.sendSectorStart sid sector.SectorType ∈
          (handleWaitDeals env m now sector).2.2) := by
  unfold handleWaitDeals
  simp only
  split_ifs with h1 h2
  · exact Or.inl rfl
  · left
    exact (maybeStartSealing_fields env _ now sector _).1
  · have hf := (maybeStartSealing_fields env (clearCreating m sector.SectorNumber) now sector
      (sector.Pieces.map (fun p => Unpadded p.Size)).sum).1
    have ho : ∀ (m2 : Sealing) (sid : SectorID) (used : Nat),
        (openIfAbsent m2 sid used).creating = m2.creating := by
      intro m2 sid used
      unfold openIfAbsent
      split_ifs <;> rfl
    rcases updateInput_creating env
      (openIfAbsent
        (maybeStartSealing env (clearCreating m sector.SectorNumber) now sector
          (sector.Pieces.map (fun p => Unpadded p.Size)).sum).m
        { Miner := env.minerID, Number := sector.SectorNumber }
        (sector.Pieces.map (fun p => Unpadded p.Size)).sum)
      sector.SectorType with h | ⟨h0, sid, h3, h4⟩
    · left
      rw [h, ho, hf]
    · right
      rw [ho, hf] at h0
      exact ⟨h0, sid, h3, List.mem_append_right _ h4⟩

/-- C22: with the configuration loaded, `tryCreateDealSector` returns at once,
with the state unchanged and no call or event (no sector number allocated, no
`SectorStart`), when `creating` is set, or when `MaxSealingSectorsForDeals > 0`
and the sealing count has reached it, or when `MaxWaitDealsSectors > 0` and the
wait-deals count has reached it.  Otherwise (a cap of 0 never blocks) a
successful creation of sector `sid` sets `creating` to `sid` and fires
`SectorStart` for it.  `handleWaitDeals` for the sector number in `creating`
clears it in its first statement, and at its return `creating` is unset unless
the matching pass of that same call created a further sector; `handleWaitDeals`
for any other sector number leaves `creating` as it is. -/
theorem tryCreateDealSector_gates (env : InputEnv) (m : Sealing) (sp : Int) (cfg : Config)
    (now : Time) (sector : SectorInfo) (hcfg : env.getConfig = .ok cfg) :
    ((m.creating.isSome = true ∨
      (cfg.MaxSealingSectorsForDeals > 0 ∧ m.stats.curSealing ≥ cfg.MaxSealingSectorsForDeals) ∨
      (cfg.MaxWaitDealsSectors > 0 ∧ m.stats.curStaging ≥ cfg.MaxWaitDealsSectors)) →
      tryCreateDealSector env m sp = (m, none, [])) ∧
    (m.creating = none →
      (cfg.MaxSealingSectorsForDeals = 0 ∨ m.stats.curSealing < cfg.MaxSealingSectorsForDeals) →
      (cfg.MaxWaitDealsSectors = 0 ∨ m.stats.curStaging < cfg.MaxWaitDealsSectors) →
      ∀ sid, env.scNext = .ok sid → env.newSector sid = none →
        (tryCreateDealSector env m sp).1.creating = some sid ∧
        (tryCreateDealSector env m sp).2.2 =
          [InputEvent.nextSectorNumber, InputEvent.newSector sid,
           InputEvent.sendSectorStart sid sp]) ∧
    (m.creating = some sector.SectorNumber →
      (clearCreating m sector.SectorNumber).creating = none ∧
      ((handleWaitDeals env m now sector).1.creating = none ∨
        ∃ sid, (handleWaitDeals env m now sector).1.creating = some sid ∧
          InputEvent.sendSectorStart sid sector.SectorType ∈
            (handleWaitDeals env m now sector).2.2)) ∧
    (∀ c, m.creating = some c → c ≠ sector.SectorNumber →
      (handleWaitDeals env m now sector).1.creating = some c) := by
  refine ⟨?_, ?_, ?_, ?_⟩
  · intro h
    unfold tryCreateDealSector
    by_cases h1 : m.creating.isSome = true
    · rw [if_pos h1]
    · rw [if_neg h1, hcfg]
      simp only
      by_cases h2 : cfg.MaxSealingSectorsForDeals > 0 ∧
          m.stats.curSealing ≥ cfg.MaxSealingSectorsForDeals
      · rw [if_pos h2]
      · rw [if_neg h2]
        rcases h with h | h | h
        · exact absurd h h1
        · exact absurd h h2
        · rw [if_pos h]
  · intro hnone hs hw sid hnext hnew
    have h1 : ¬ m.creating.isSome = true := by rw [hnone]; simp
    have h2 : ¬ (cfg.MaxSealingSectorsForDeals > 0 ∧
        m.stats.curSealing ≥ cfg.MaxSealingSectorsForDeals) := by omega
    have h3 : ¬ (cfg.MaxWaitDealsSectors > 0 ∧
        m.stats.curStaging ≥ cfg.MaxWaitDealsSectors) := by omega
    unfold tryCreateDealSector
    rw [if_neg h1, hcfg]
    simp only
    rw [if_neg h2, if_neg h3]
    unfold createSector
    rw [hnext]
    simp only
    rw [hnew]
    exact ⟨rfl, rfl⟩
  · intro hc
    have hclear : (clearCreating m sector.SectorNumber).creating = none := by
      unfold clearCreating
      rw [if_pos hc]
    refine ⟨hclear, ?_⟩
    rcases handleWaitDeals_creating env m now sector with h | ⟨-, sid, h1, h2⟩
    · left
      rw [h, hclear]
    · exact Or.inr ⟨sid, h1, h2⟩
  · intro c hc hne
    have hkeep : (clearCreating m sector.SectorNumber).creating = some c := by
      unfold clearCreating
      have : ¬ m.creating = some sector.SectorNumber := by
        rw [hc]
        intro h
        exact hne (Option.some.inj h)
      rw [if_neg this, hc]
    rcases handleWaitDeals_creating env m now sector with h | ⟨h0, -⟩
    · rw [h, hkeep]
    · rw [hkeep] at h0
      exact Option.noConfusion h0

/-- C22, at concrete inputs: while sector 7 is being created nothing happens;
`handleWaitDeals` for sector 7 clears `creating`; without a sector in creation
and below the cap, sector 8 is created. -/
theorem tryCreateDealSector_gates_witness :
    envCaps.getConfig = .ok { MaxSealingSectorsForDeals := 2, WaitDealsDelay := 6 * Hour } ∧
    tryCreateDealSector envCaps stateCreatingSeven 0 = (stateCreatingSeven, none, []) ∧
    (clearCreating stateCreatingSeven 7).creating = none ∧
    (handleWaitDeals envCaps stateCreatingSeven (timeUnix 1700000000 + Hour)
      sectorSeven).1.creating = none ∧
    (tryCreateDealSector envCaps { stats := { curSealing := 1 } } 0).1.creating = some 8 :=
  have h := tryCreateDealSector_gates envCaps stateCreatingSeven 0
    { MaxSealingSectorsForDeals := 2, WaitDealsDelay := 6 * Hour }
    (timeUnix 1700000000 + Hour) sectorSeven rfl
  ⟨rfl, h.1 (Or.inl rfl), (h.2.2.1 rfl).1, by decide,
   ((tryCreateDealSector_gates envCaps { stats := { curSealing := 1 } } 0
      { MaxSealingSectorsForDeals := 2, WaitDealsDelay := 6 * Hour }
      (timeUnix 1700000000 + Hour) sectorSeven rfl).2.1 rfl (Or.inr (by decide)) (Or.inl rfl)
      8 rfl rfl).1⟩

/-! ## The sector handlers: when packing starts -/

/-- The part of `maybeStartSealing` after the timer check, when the sector size,
the deal limit and the configuration are obtained: packing starts when the deal
limit is reached, the sector is full or the wait is over; otherwise nothing is
sent and, with a creation time, a timer for the end of the wait is stored. -/
theorem maybeStartSealingChecks_spec (env : InputEnv) (m : Sealing) (now : Time)
    (sector : SectorInfo) (used ssize : Nat) (maxDeals : Int) (cfg : Config)
    (hss : SectorSize sector.SectorType = .ok ssize)
    (hlim : env.dealLimit ssize = .ok maxDeals) (hcfg : env.getConfig = .ok cfg) :
    (((((env.dealIDs sector).length : Nat) : Int) ≥ maxDeals ∨ Padded used = ssize ∨
        (sector.CreationTime ≠ 0 ∧
          now > timeUnix sector.CreationTime + cfg.WaitDealsDelay)) →
      maybeStartSealingChecks env m now sector used =
        startPacking env m { Miner := env.minerID, Number := sector.SectorNumber }) ∧
    (¬ ((((env.dealIDs sector).length : Nat) : Int) ≥ maxDeals ∨ Padded used = ssize ∨
        (sector.CreationTime ≠ 0 ∧
          now > timeUnix sector.CreationTime + cfg.WaitDealsDelay)) →
      maybeStartSealingChecks env m now sector used =
        { m := if sector.CreationTime ≠ 0 then
            armTimer m { Miner := env.minerID, Number := sector.SectorNumber }
              (timeUnix sector.CreationTime + cfg.WaitDealsDelay - now) now
            else m,
          started := false, err := none, trace := [] }) := by
  unfold maybeStartSealingChecks
  simp only [hss, hlim]
  by_cases h1 : (((env.dealIDs sector).length : Nat) : Int) ≥ maxDeals
  · rw [if_pos h1]
    exact ⟨fun _ => rfl, fun h => absurd (Or.inl h1) h⟩
  · rw [if_neg h1]
    by_cases h2 : Padded used = ssize
    · rw [if_pos h2]
      exact ⟨fun _ => rfl, fun h => absurd (Or.inr (Or.inl h2)) h⟩
    · rw [if_neg h2]
      by_cases h3 : sector.CreationTime ≠ 0
      · rw [if_pos h3, hcfg]
        simp only
        by_cases h4 : now > timeUnix sector.CreationTime + cfg.WaitDealsDelay
        · rw [if_pos h4]
          exact ⟨fun _ => rfl, fun h => absurd (Or.inr (Or.inr ⟨h3, h4⟩)) h⟩
        · rw [if_neg h4]
          refine ⟨fun h => ?_, fun _ => ?_⟩
          · rcases h with h | h | h
            · exact absurd h h1
            · exact absurd h h2
            · exact absurd h.2 h4
          · rw [if_pos h3]
      · rw [if_neg h3]
        refine ⟨fun h => ?_, fun _ => ?_⟩
        · rcases h with h | h | h
          · exact absurd h h1
          · exact absurd h h2
          · exact absurd h.1 h3
        · rw [if_neg h3]

/-- The packing triggers of `maybeStartSealing`: when the sector size, the
per-sector deal limit and the configuration are obtained and the stored timer of
the sector, if any, was not stopped by an earlier call, `maybeStartSealing`
reports `started = true` if and only if a packing trigger holds: the stored timer has expired, the number of deals has
reached the limit, the padded used size equals the sector size, or the creation
time is set and `now` is after creation time plus `WaitDealsDelay`.  It sends
`SectorStartPacking` exactly then.  When no trigger holds it returns no error
and, with a creation time set, the timer stored for the sector fires at creation
time plus `WaitDealsDelay`.  Whenever the call made by `handleWaitDeals` reports
`started = true`, the sector is not in `openSectors` afterwards. -/
theorem maybeStartSealing_triggers (env : InputEnv) (m : Sealing) (now : Time)
    (sector : SectorInfo) (used ssize : Nat) (maxDeals : Int) (cfg : Config)
    (hss : SectorSize sector.SectorType = .ok ssize)
    (hlim : env.dealLimit ssize = .ok maxDeals) (hcfg : env.getConfig = .ok cfg)
    (htimer : ∀ st, m.sectorTimers.lookup
      { Miner := env.minerID, Number := sector.SectorNumber } = some st → st.stopped = false) :
    ((maybeStartSealing env m now sector used).started = true ↔
      ((∃ st, m.sectorTimers.lookup { Miner := env.minerID, Number := sector.SectorNumber } =
          some st ∧ st.fireAt ≤ now) ∨
        (((env.dealIDs sector).length : Nat) : Int) ≥ maxDeals ∨ Padded used = ssize ∨
        (sector.CreationTime ≠ 0 ∧
          now > timeUnix sector.CreationTime + cfg.WaitDealsDelay))) ∧
    ((maybeStartSealing env m now sector used).started = true →
      (maybeStartSealing env m now sector used).trace =
        [InputEvent.sendSectorStartPacking
          { Miner := env.minerID, Number := sector.SectorNumber }]) ∧
    ((maybeStartSealing env m now sector used).started = false →
      (maybeStartSealing env m now sector used).trace = [] ∧
      (maybeStartSealing env m now sector used).err = none ∧
      (sector.CreationTime ≠ 0 →
        (maybeStartSealing env m now sector used).m.sectorTimers.lookup
          { Miner := env.minerID, Number := sector.SectorNumber } =
            some { fireAt := timeUnix sector.CreationTime + cfg.WaitDealsDelay })) ∧
    (((m.assignedPieces.lookup
        { Miner := env.minerID, Number := sector.SectorNumber }).getD []).length = 0 →
      (maybeStartSealing env (clearCreating m sector.SectorNumber) now sector
        (sector.Pieces.map (fun p => Unpadded p.Size)).sum).started = true →
      (handleWaitDeals env m now sector).1.openSectors.lookup
        { Miner := env.minerID, Number := sector.SectorNumber } = none) := by
  have hfire : now + (timeUnix sector.CreationTime + cfg.WaitDealsDelay - now) =
      timeUnix sector.CreationTime + cfg.WaitDealsDelay := by
    simp only [Time, Duration]
    omega
  -- the run after the timer check, for any state of the timers
  have hchecks : ∀ m1 : Sealing,
      let T := (((env.dealIDs sector).length : Nat) : Int) ≥ maxDeals ∨ Padded used = ssize ∨
        (sector.CreationTime ≠ 0 ∧ now > timeUnix sector.CreationTime + cfg.WaitDealsDelay)
      let out := maybeStartSealingChecks env m1 now sector used
      (out.started = true ↔ T) ∧
      (out.started = true → out.trace = [InputEvent.sendSectorStartPacking
        { Miner := env.minerID, Number := sector.SectorNumber }]) ∧
      (out.started = false → out.trace = [] ∧ out.err = none ∧
        (sector.CreationTime ≠ 0 → out.m.sectorTimers.lookup
          { Miner := env.minerID, Number := sector.SectorNumber } =
            some { fireAt := timeUnix sector.CreationTime + cfg.WaitDealsDelay })) := by
    intro m1 T out
    obtain ⟨hyes, hno⟩ := maybeStartSealingChecks_spec env m1 now sector used ssize maxDeals cfg
      hss hlim hcfg
    by_cases hT : T
    · have ho : out = startPacking env m1
          { Miner := env.minerID, Number := sector.SectorNumber } := hyes hT
      rw [ho]
      refine ⟨⟨fun _ => hT, fun _ => rfl⟩, fun _ => rfl, fun h => ?_⟩
      exact Bool.noConfusion h
    · have ho := hno hT
      change out = _ at ho
      rw [ho]
      refine ⟨⟨fun h => Bool.noConfusion h, fun h => absurd h hT⟩,
        fun h => Bool.noConfusion h, fun _ => ⟨rfl, rfl, fun hct => ?_⟩⟩
      simp only
      rw [if_pos hct]
      simp only [armTimer, GoMap.lookup_set, if_true, hfire]
  refine ⟨?_, ?_, ?_, ?_⟩
  · unfold maybeStartSealing
    simp only
    cases hl : m.sectorTimers.lookup { Miner := env.minerID, Number := sector.SectorNumber } with
    | none =>
      simp only
      rw [(hchecks m).1]
      constructor
      · exact fun h => Or.inr h
      · rintro (⟨st, h, -⟩ | h)
        · exact Option.noConfusion h
        · exact h
    | some st =>
      simp only
      have hst := htimer st hl
      by_cases hexp : st.fireAt ≤ now
      · have hstop : (st.Stop now).1 = false := by
          unfold Timer.Stop
          rw [if_pos (Or.inr hexp)]
        rw [hstop]
        simp only [Bool.false_eq_true, if_false]
        exact ⟨fun _ => Or.inl ⟨st, rfl, hexp⟩, fun _ => rfl⟩
      · have hstop : (st.Stop now).1 = true := by
          unfold Timer.Stop
          rw [if_neg (by rw [hst]; simpa using hexp)]
        rw [hstop]
        simp only [if_true]
        rw [(hchecks _).1]
        constructor
        · exact fun h => Or.inr h
        · rintro (⟨st2, h, h2⟩ | h)
          · rw [Option.some.inj h] at hexp
            exact absurd h2 hexp
          · exact h
  · unfold maybeStartSealing
    simp only
    cases hl : m.sectorTimers.lookup { Miner := env.minerID, Number := sector.SectorNumber } with
    | none => exact (hchecks m).2.1
    | some st =>
      simp only
      split_ifs
      · exact (hchecks _).2.1
      · exact fun _ => rfl
  · unfold maybeStartSealing
    simp only
    cases hl : m.sectorTimers.lookup { Miner := env.minerID, Number := sector.SectorNumber } with
    | none => exact (hchecks m).2.2
    | some st =>
      simp only
      split_ifs
      · exact (hchecks _).2.2
      · intro h
        exact Bool.noConfusion h
  · intro hassigned hstarted
    unfold handleWaitDeals
    simp only
    have hclear : (clearCreating m sector.SectorNumber).assignedPieces = m.assignedPieces := by
      unfold clearCreating
      split_ifs <;> rfl
    rw [hclear, if_neg (by omega), if_pos (Or.inr hstarted)]
    simp only [GoMap.lookup_delete, if_true]

/-- The packing triggers at a concrete input: sector 7 was created at Unix time
1700000000 with a wait of six hours and its timer is stored; seven hours after
the creation the timer has expired and packing starts. -/
theorem maybeStartSealing_triggers_witness :
    SectorSize sectorSeven.SectorType = .ok 2048 ∧
    envCaps.dealLimit 2048 = .ok 256 ∧
    (maybeStartSealing envCaps stateTimerSeven (timeUnix 1700000000 + 7 * Hour)
      sectorSeven 0).started = true ∧
    (maybeStartSealing envCaps stateTimerSeven (timeUnix 1700000000 + 7 * Hour)
      sectorSeven 0).trace = [InputEvent.sendSectorStartPacking { Miner := 0, Number := 7 }] :=
  have h := maybeStartSealing_triggers envCaps stateTimerSeven (timeUnix 1700000000 + 7 * Hour)
    sectorSeven 0 2048 256 { MaxSealingSectorsForDeals := 2, WaitDealsDelay := 6 * Hour }
    rfl rfl rfl
    (fun st hst => by
      have h0 : stateTimerSeven.sectorTimers.lookup
          { Miner := envCaps.minerID, Number := sectorSeven.SectorNumber } =
          some { fireAt := timeUnix 1700000000 + 6 * Hour } := by decide
      rw [h0] at hst
      rw [← Option.some.inj hst])
  have hs := h.1.mpr (Or.inl ⟨{ fireAt := timeUnix 1700000000 + 6 * Hour }, by decide, by decide⟩)
  ⟨rfl, rfl, hs, h.2.1 hs⟩

/-- C23 (the code at the failing input): sector 7 is created at Unix time
1700000000 and waits six hours for deals.  `handleWaitDeals` half an hour after
the creation arms its timer.  A second call one hour after the creation stops
that timer and then returns on a configuration error without arming a new one.
A third call one second later finds the stopped timer, for which `Stop` reports
`false`: `maybeStartSealing` reports `started = true` and sends
`SectorStartPacking`, although the sector size, the deal limit and the
configuration are obtained, the timer is not due, the sector holds no deal and
no data, and the wait ends only five hours later. -/
theorem maybeStartSealing_starts_on_stopped_timer :
    stateSevenWaiting.sectorTimers =
      [({ Miner := 0, Number := 7 }, { fireAt := timeUnix 1700000000 + 6 * Hour })] ∧
    (handleWaitDeals envConfigDown stateSevenWaiting (timeUnix 1700000000 + Hour)
      sectorSeven).2.1 = some "getting storage config: unreachable" ∧
    stateSevenConfigFailed.sectorTimers =
      [({ Miner := 0, Number := 7 },
        { fireAt := timeUnix 1700000000 + 6 * Hour, stopped := true })] ∧
    (maybeStartSealing envCaps stateSevenConfigFailed (timeUnix 1700000000 + Hour + Second)
      sectorSeven 0).started = true ∧
    (handleWaitDeals envCaps stateSevenConfigFailed (timeUnix 1700000000 + Hour + Second)
      sectorSeven).2.2 = [InputEvent.sendSectorStartPacking { Miner := 0, Number := 7 }] ∧
    SectorSize sectorSeven.SectorType = .ok 2048 ∧
    envCaps.dealLimit 2048 = .ok 256 ∧
    envCaps.getConfig = .ok { MaxSealingSectorsForDeals := 2, WaitDealsDelay := 6 * Hour } ∧
    ¬ (timeUnix 1700000000 + 6 * Hour ≤ timeUnix 1700000000 + Hour + Second) ∧
    ¬ ((((envCaps.dealIDs sectorSeven).length : Nat) : Int) ≥ 256) ∧
    Padded 0 ≠ 2048 ∧
    ¬ (timeUnix 1700000000 + Hour + Second >
      timeUnix sectorSeven.CreationTime + 6 * Hour) :=
  ⟨by decide, by decide, by decide, by decide, by decide, rfl, rfl, rfl, by decide, by decide,
   by decide, by decide⟩

/-! ## The sector handlers: deals that are not written -/

/-- C24: in the loop of `handleAddPiece`, at any position `i` of the list of
assigned deals and with any offset reached so far, a pending deal that exceeds
the per-sector deal limit (`len(DealIDs) + (i + 1) > maxDeals`), or that does
not fit after the required padding
(`offset.Padded + padLength + size.Padded > ssize`), gets exactly one event, a
call of its `accepted` callback with an error: no piece is written, the offset,
the piece sizes and the new pieces are as before, the handler does not return,
and the loop goes on with the remaining deals. -/
theorem addPieceLoop_rejects (env : InputEnv) (m : Sealing) (sector : SectorInfo)
    (ssize : Nat) (maxDeals : Int) (i : Nat) (piece : Cid) (rest : List Cid)
    (st : AddPieceState) (deal : pendingPiece)
    (hdeal : m.pendingPieces.lookup piece = some deal)
    (hrej : (((env.dealIDs sector).length : Nat) : Int) + ((i : Int) + 1) > maxDeals ∨
      Padded st.offset + (env.getRequiredPadding (Padded st.offset) (Padded deal.size)).2 +
        Padded deal.size > ssize) :
    ∃ e,
      (addPieceStep env m sector ssize maxDeals i st piece).1.trace =
        st.trace ++ [InputEvent.accepted piece sector.SectorNumber st.offset (some e)] ∧
      (addPieceStep env m sector ssize maxDeals i st piece).1.offset = st.offset ∧
      (addPieceStep env m sector ssize maxDeals i st piece).1.pieceSizes = st.pieceSizes ∧
      (addPieceStep env m sector ssize maxDeals i st piece).1.newPieces = st.newPieces ∧
      (addPieceStep env m sector ssize maxDeals i st piece).2 = none ∧
      addPieceLoop env m sector ssize maxDeals i (piece :: rest) st =
        addPieceLoop env m sector ssize maxDeals (i + 1) rest
          (addPieceStep env m sector ssize maxDeals i st piece).1 := by
  have hstep : ∃ e, addPieceStep env m sector ssize maxDeals i st piece =
      ({ st with trace := st.trace ++
          [InputEvent.accepted piece sector.SectorNumber st.offset (some e)] }, none) := by
    unfold addPieceStep
    simp only [hdeal]
    by_cases h1 : (((env.dealIDs sector).length : Nat) : Int) + ((i : Int) + 1) > maxDeals
    · rw [if_pos h1]
      exact ⟨_, rfl⟩
    · rw [if_neg h1]
      have h2 := hrej.resolve_left h1
      rw [if_pos h2]
      exact ⟨_, rfl⟩
  obtain ⟨e, he⟩ := hstep
  refine ⟨e, ?_, ?_, ?_, ?_, ?_, ?_⟩
  · rw [he]
  · rw [he]
  · rw [he]
  · rw [he]
  · rw [he]
  · rw [addPieceLoop, he]

/-- C24, at a concrete input: sector 7 of 2 KiB gets the deals 8, 9 and 10 of
unpadded sizes 508, 1016 and 1016; after 8 and 9 the third deal does not fit. -/
theorem addPieceLoop_rejects_witness :
    stateThreeAssigned.pendingPieces.lookup 10 = some { size := 1016, assigned := true } ∧
    ∃ e, (addPieceStep {} stateThreeAssigned sectorSeven 2048 256 2
        { offset := 1524, pieceSizes := [508, 1016] } 10).1.trace =
      [InputEvent.accepted 10 7 1524 (some e)] ∧
    (handleAddPiece {} stateThreeAssigned sectorSeven).2.2 =
      [InputEvent.sealerAddPiece 7 [] 508 false,
       InputEvent.accepted 8 7 0 none,
       InputEvent.sealerAddPiece 7 [508] 1016 false,
       InputEvent.accepted 9 7 508 none,
       InputEvent.accepted 10 7 1524
         (some "piece 10 assigned to sector 7 with not enough space"),
       InputEvent.sendSectorPieceAdded 7
         [{ Size := 512, DealInfo := some { DealID := 0, DealSchedule :=
              { StartEpoch := 0, EndEpoch := 0 } } },
          { Size := 1024, DealInfo := some { DealID := 0, DealSchedule :=
              { StartEpoch := 0, EndEpoch := 0 } } }]] :=
  have h := addPieceLoop_rejects {} stateThreeAssigned sectorSeven 2048 256 2 10 []
    { offset := 1524, pieceSizes := [508, 1016] } { size := 1016, assigned := true }
    (by decide) (Or.inr (by decide))
  ⟨by decide, h.choose, h.choose_spec.1, by decide⟩

/-! ## The sector handlers: failures of the sealer -/

/-- The padding loop only calls the sealer; when it runs to its end every call
succeeded, and when it stops its last call failed. -/
theorem writePads_trace (env : InputEnv) (m : Sealing) (sn : Nat) (pads : List Nat)
    (st : AddPieceState) (hq : ∀ ev ∈ st.trace, quietEvent env m ev) :
    ((writePads env sn pads st).2 = none →
      ∀ ev ∈ (writePads env sn pads st).1.trace, quietEvent env m ev) ∧
    (∀ e, (writePads env sn pads st).2 = some e →
      ∃ pre existing size, (writePads env sn pads st).1.trace =
          pre ++ [InputEvent.sealerAddPiece sn existing size true] ∧
        env.sealerAddPiece existing size true = .error e ∧
        ∀ ev ∈ pre, quietEvent env m ev) := by
  induction pads generalizing st with
  | nil =>
    refine ⟨fun _ => hq, fun e h => ?_⟩
    exact Option.noConfusion h
  | cons p rest ih =>
    unfold writePads
    cases hs : env.sealerAddPiece st.pieceSizes (Unpadded p) true with
    | error e0 =>
      simp only
      refine ⟨fun h => Option.noConfusion h, fun e h => ?_⟩
      have he : e0 = e := Option.some.inj h
      subst he
      exact ⟨st.trace, st.pieceSizes, Unpadded p, rfl, hs, hq⟩
    | ok ppi =>
      simp only
      apply ih
      intro ev hev
      rcases List.mem_append.mp hev with h | h
      · exact hq ev h
      · rw [List.mem_singleton] at h
        exact Or.inl ⟨sn, st.pieceSizes, Unpadded p, true, ppi, h, hs⟩

/-- One round of the loop of `handleAddPiece` keeps the trace quiet unless the
sealer fails, and then the trace ends with the failure. -/
theorem addPieceStep_trace (env : InputEnv) (m : Sealing) (sector : SectorInfo) (ssize : Nat)
    (maxDeals : Int) (i : Nat) (st : AddPieceState) (piece : Cid)
    (hq : ∀ ev ∈ st.trace, quietEvent env m ev) :
    endsOk env m sector.SectorNumber (addPieceStep env m sector ssize maxDeals i st piece).2
      (addPieceStep env m sector ssize maxDeals i st piece).1.trace := by
  unfold addPieceStep
  cases hl : m.pendingPieces.lookup piece with
  | none => exact hq
  | some deal =>
    have hsome : (m.pendingPieces.lookup piece).isSome = true := by rw [hl]; rfl
    have hacc : ∀ off err, quietEvent env m
        (InputEvent.accepted piece sector.SectorNumber off err) :=
      fun off err => Or.inr ⟨piece, sector.SectorNumber, off, err, rfl, hsome⟩
    have hadd : ∀ ev, ∀ tr : List InputEvent, (∀ ev ∈ tr, quietEvent env m ev) →
        quietEvent env m ev → ∀ ev2 ∈ tr ++ [ev], quietEvent env m ev2 := by
      intro ev tr htr hev ev2 h2
      rcases List.mem_append.mp h2 with h | h
      · exact htr ev2 h
      · rw [List.mem_singleton] at h
        rw [h]
        exact hev
    simp only
    split_ifs with h1 h2
    · exact hadd _ _ hq (hacc _ _)
    · exact hadd _ _ hq (hacc _ _)
    · have hw := writePads_trace env m sector.SectorNumber
        (env.getRequiredPadding (Padded st.offset) (Padded deal.size)).1
        { st with offset := st.offset +
            Unpadded (env.getRequiredPadding (Padded st.offset) (Padded deal.size)).2 } hq
      rcases hwp : writePads env sector.SectorNumber
        (env.getRequiredPadding (Padded st.offset) (Padded deal.size)).1
        { st with offset := st.offset +
            Unpadded (env.getRequiredPadding (Padded st.offset) (Padded deal.size)).2 }
        with ⟨st1, r⟩
      rw [hwp] at hw
      cases r with
      | some e =>
        obtain ⟨pre, ex, sz, htr, herr, hpre⟩ := hw.2 e rfl
        simp only at htr
        simp only [endsOk]
        refine ⟨pre, ex, sz, true, e, piece,
          st.offset + Unpadded (env.getRequiredPadding (Padded st.offset) (Padded deal.size)).2,
          ?_, herr, rfl, hsome, hpre⟩
        rw [htr]
        simp
      | none =>
        have hq1 := hw.1 rfl
        simp only at hq1
        simp only
        cases hs : env.sealerAddPiece st1.pieceSizes deal.size false with
        | error e =>
          simp only [endsOk]
          exact ⟨st1.trace, st1.pieceSizes, deal.size, false, e, piece,
            st.offset + Unpadded (env.getRequiredPadding (Padded st.offset) (Padded deal.size)).2,
            rfl, hs, rfl, hsome, hq1⟩
        | ok ppi =>
          simp only [endsOk]
          intro ev hev
          rcases List.mem_append.mp hev with h | h
          · exact hq1 ev h
          · simp only [List.mem_cons, List.mem_singleton, List.not_mem_nil, or_false] at h
            rcases h with h | h
            · exact Or.inl ⟨_, _, _, _, ppi, h, hs⟩
            · rw [h]
              exact hacc _ _

/-- The loop of `handleAddPiece` keeps the trace quiet unless the sealer fails,
and then the trace ends with the failure. -/
theorem addPieceLoop_trace (env : InputEnv) (m : Sealing) (sector : SectorInfo) (ssize : Nat)
    (maxDeals : Int) (pending : List Cid) (i : Nat) (st : AddPieceState)
    (hq : ∀ ev ∈ st.trace, quietEvent env m ev) :
    endsOk env m sector.SectorNumber
      (some (addPieceLoop env m sector ssize maxDeals i pending st).2)
      (addPieceLoop env m sector ssize maxDeals i pending st).1.trace := by
  induction pending generalizing i st with
  | nil => exact hq
  | cons piece rest ih =>
    unfold addPieceLoop
    have hs := addPieceStep_trace env m sector ssize maxDeals i st piece hq
    rcases hst : addPieceStep env m sector ssize maxDeals i st piece with ⟨st1, r⟩
    rw [hst] at hs
    cases r with
    | some e => exact hs
    | none => exact ih (i + 1) st1 hs

/-- Quiet events of two matcher states with the same pending pieces. -/
theorem quietEvent_congr (env : InputEnv) (m m1 : Sealing)
    (h : m1.pendingPieces = m.pendingPieces) (ev : InputEvent) (hq : quietEvent env m1 ev) :
    quietEvent env m ev := by
  unfold quietEvent at hq ⊢
  rw [h] at hq
  exact hq

/-- A trace that ends with a failure of the sealer, for two matcher states with the
same pending pieces. -/
theorem failedTrace_congr (env : InputEnv) (m m1 : Sealing)
    (h : m1.pendingPieces = m.pendingPieces) (sn : Nat) (err : String) (tr : List InputEvent)
    (hf : failedTrace env m1 sn err tr) : failedTrace env m sn err tr := by
  obtain ⟨pre, ex, sz, pad, e, piece, off, h1, h2, h3, h4, h5⟩ := hf
  rw [h] at h4
  exact ⟨pre, ex, sz, pad, e, piece, off, h1, h2, h3, h4,
    fun ev hev => quietEvent_congr env m m1 h ev (h5 ev hev)⟩

/-- The trace of `handleAddPiece`: quiet events followed by one send of
`SectorPieceAdded`, or quiet events alone when the handler returns an error of
its own, or a trace that ends with a failure of the sealer, which is then what
the handler sends and returns. -/
theorem handleAddPiece_trace (env : InputEnv) (m : Sealing) (sector : SectorInfo) :
    (∃ pre np, (handleAddPiece env m sector).2.2 =
        pre ++ [InputEvent.sendSectorPieceAdded sector.SectorNumber np] ∧
      ∀ ev ∈ pre, quietEvent env m ev) ∨
    (∀ ev ∈ (handleAddPiece env m sector).2.2, quietEvent env m ev) ∨
    (∃ err, failedTrace env m sector.SectorNumber err (handleAddPiece env m sector).2.2 ∧
      (handleAddPiece env m sector).2.1 =
        env.ctxSend (InputEvent.sendSectorAddPieceFailed sector.SectorNumber err)) := by
  unfold handleAddPiece
  simp only
  cases SectorSize sector.SectorType with
  | error e => exact Or.inr (Or.inl (fun ev h => absurd h (List.not_mem_nil ev)))
  | ok ssize =>
    simp only
    cases m.assignedPieces.lookup { Miner := env.minerID, Number := sector.SectorNumber } with
    | none => exact Or.inl ⟨[], [], rfl, fun ev h => absurd h (List.not_mem_nil ev)⟩
    | some pending =>
      simp only
      cases env.dealLimit ssize with
      | error e => exact Or.inr (Or.inl (fun ev h => absurd h (List.not_mem_nil ev)))
      | ok maxDeals =>
        simp only
        have hp : (takeAssigned m { Miner := env.minerID, Number := sector.SectorNumber }).pendingPieces =
            m.pendingPieces := rfl
        have hl := addPieceLoop_trace env
          (takeAssigned m { Miner := env.minerID, Number := sector.SectorNumber })
          sector ssize maxDeals pending 0 (addPieceStart sector)
          (fun ev h => absurd h (List.not_mem_nil ev))
        rcases hloop : addPieceLoop env
          (takeAssigned m { Miner := env.minerID, Number := sector.SectorNumber })
          sector ssize maxDeals 0 pending (addPieceStart sector) with ⟨st, e⟩
        rw [hloop] at hl
        cases e with
        | done =>
          exact Or.inl ⟨st.trace, st.newPieces, rfl,
            fun ev hev => quietEvent_congr env m _ hp ev (hl ev hev)⟩
        | notFound c =>
          exact Or.inr (Or.inl (fun ev hev => quietEvent_congr env m _ hp ev (hl ev hev)))
        | failed err =>
          exact Or.inr (Or.inr ⟨err, failedTrace_congr env m _ hp _ _ _ hl, rfl⟩)

/-- C25: whenever a call of the sealer's `AddPiece` made by `handleAddPiece`, for
a padding piece or for the data of a deal, fails with `e`, the trace of the
handler ends right after it with the `accepted` callback of that deal, invoked
with the wrapped error, and `SectorAddPieceFailed` with the same error, whose
send is what the handler returns: all events before the failing call are
successful writes and `accepted` callbacks of earlier deals, `SectorPieceAdded`
is not sent, and nothing is written or reported for the deals that follow. -/
theorem handleAddPiece_sealer_failure (env : InputEnv) (m : Sealing) (sector : SectorInfo)
    (sn : Nat) (existing : List Nat) (size : Nat) (isPadding : Bool) (e : String)
    (hcall : InputEvent.sealerAddPiece sn existing size isPadding ∈
      (handleAddPiece env m sector).2.2)
    (herr : env.sealerAddPiece existing size isPadding = .error e) :
    ∃ pre piece offset,
      (handleAddPiece env m sector).2.2 =
        pre ++ [InputEvent.sealerAddPiece sector.SectorNumber existing size isPadding,
          InputEvent.accepted piece sector.SectorNumber offset
            (some (errWriting isPadding e)),
          InputEvent.sendSectorAddPieceFailed sector.SectorNumber (errWriting isPadding e)] ∧
      (∀ ev ∈ pre, quietEvent env m ev) ∧
      (∀ sn2 np, InputEvent.sendSectorPieceAdded sn2 np ∉ (handleAddPiece env m sector).2.2) ∧
      (handleAddPiece env m sector).2.1 =
        env.ctxSend (InputEvent.sendSectorAddPieceFailed sector.SectorNumber
          (errWriting isPadding e)) := by
  -- a failing call is not a quiet event
  have hnq : ¬ quietEvent env m (InputEvent.sealerAddPiece sn existing size isPadding) := by
    rintro (⟨sn1, ex1, sz1, pad1, r, h1, h2⟩ | ⟨c, sn1, off, err, h1, -⟩)
    · injection h1 with _ hex hsz hpad
      rw [← hex, ← hsz, ← hpad, herr] at h2
      exact Except.noConfusion h2
    · exact InputEvent.noConfusion h1
  have hnp : ∀ sn2 np, ¬ quietEvent env m (InputEvent.sendSectorPieceAdded sn2 np) := by
    rintro sn2 np (⟨sn1, ex1, sz1, pad1, r, h1, -⟩ | ⟨c, sn1, off, err, h1, -⟩)
    · exact InputEvent.noConfusion h1
    · exact InputEvent.noConfusion h1
  rcases handleAddPiece_trace env m sector with ⟨pre, np, htr, hpre⟩ | hq | ⟨err, hf, hret⟩
  · rw [htr] at hcall
    rcases List.mem_append.mp hcall with h | h
    · exact absurd (hpre _ h) hnq
    · rw [List.mem_singleton] at h
      exact InputEvent.noConfusion h
  · exact absurd (hq _ hcall) hnq
  · obtain ⟨pre, ex1, sz1, pad1, e1, piece, offset, htr, herr1, herrw, -, hpre⟩ := hf
    rw [htr] at hcall
    have hsame : InputEvent.sealerAddPiece sn existing size isPadding =
        InputEvent.sealerAddPiece sector.SectorNumber ex1 sz1 pad1 := by
      rcases List.mem_append.mp hcall with h | h
      · exact absurd (hpre _ h) hnq
      · simp only [List.mem_cons, List.mem_singleton, List.not_mem_nil, or_false] at h
        rcases h with h | h | h
        · exact h
        · exact InputEvent.noConfusion h
        · exact InputEvent.noConfusion h
    injection hsame with hsn hex hsz hpad
    subst hex hsz hpad
    rw [herr] at herr1
    have he : e = e1 := Except.error.inj herr1
    subst he
    subst herrw
    refine ⟨pre, piece, offset, htr, hpre, ?_, hret⟩
    intro sn2 np hmem
    rw [htr] at hmem
    rcases List.mem_append.mp hmem with h | h
    · exact hnp sn2 np (hpre _ h)
    · simp only [List.mem_cons, List.mem_singleton, List.not_mem_nil, or_false] at h
      rcases h with h | h | h <;> exact InputEvent.noConfusion h

/-- C25, at a concrete input: the sealer fails on the second piece of sector 7,
which is the data of deal 9. -/
theorem handleAddPiece_sealer_failure_witness :
    envDiskFull.sealerAddPiece [508] 1016 false = .error "disk full" ∧
    (handleAddPiece envDiskFull stateThreeAssigned sectorSeven).2.2 =
      [InputEvent.sealerAddPiece 7 [] 508 false,
       InputEvent.accepted 8 7 0 none,
       InputEvent.sealerAddPiece 7 [508] 1016 false,
       InputEvent.accepted 9 7 508 (some "writing piece: disk full"),
       InputEvent.sendSectorAddPieceFailed 7 "writing piece: disk full"] ∧
    ∀ sn2 np, InputEvent.sendSectorPieceAdded sn2 np ∉
      (handleAddPiece envDiskFull stateThreeAssigned sectorSeven).2.2 :=
  have h := handleAddPiece_sealer_failure envDiskFull stateThreeAssigned sectorSeven 7 [508]
    1016 false "disk full" (by decide) rfl
  ⟨rfl, by decide, h.choose_spec.choose_spec.choose_spec.2.2.1⟩

/-! ## The sector handlers: the lifetime of a pending piece -/

/-- C27 (counterexample): deal 8 is pending and assigned to sector 7;
`handleAddPiece` writes its piece and invokes its `accepted` callback without
error, and afterwards the hash 8 is still a key of `pendingPieces`, so that
`AddPieceToAnySector` for the same proposal is rejected as already pending. -/
theorem handleAddPiece_leaves_piece_pending :
    InputEvent.accepted 8 7 0 none ∈ (handleAddPiece {} stateThreeAssigned sectorSeven).2.2 ∧
    (handleAddPiece {} stateThreeAssigned sectorSeven).1.pendingPieces.has 8 = true ∧
    (AddPieceToAnySector {} (handleAddPiece {} stateThreeAssigned sectorSeven).1 508
      (.ok 8)).2.1 = some "piece for deal 8 already pending" := by
  decide

/-- The handler `handleAddPiece` does not touch `pendingPieces`. -/
theorem handleAddPiece_pending (env : InputEnv) (m : Sealing) (sector : SectorInfo) :
    (handleAddPiece env m sector).1.pendingPieces = m.pendingPieces := by
  unfold handleAddPiece
  simp only
  cases SectorSize sector.SectorType with
  | error e => rfl
  | ok ssize =>
    simp only
    cases m.assignedPieces.lookup { Miner := env.minerID, Number := sector.SectorNumber } with
    | none => rfl
    | some pending =>
      simp only
      cases env.dealLimit ssize with
      | error e => rfl
      | ok maxDeals =>
        simp only
        rcases addPieceLoop env
          (takeAssigned m { Miner := env.minerID, Number := sector.SectorNumber })
          sector ssize maxDeals 0 pending (addPieceStart sector) with ⟨st, e⟩
        cases e <;> rfl

/-- Every `accepted` callback that `handleAddPiece` invokes belongs to a piece of
`pendingPieces`. -/
theorem handleAddPiece_accepted_pending (env : InputEnv) (m : Sealing) (sector : SectorInfo)
    (c : Cid) (sn off : Nat) (err : Option String)
    (h : InputEvent.accepted c sn off err ∈ (handleAddPiece env m sector).2.2) :
    (m.pendingPieces.lookup c).isSome = true := by
  have hq : ∀ ev, quietEvent env m ev → ev = InputEvent.accepted c sn off err →
      (m.pendingPieces.lookup c).isSome = true := by
    rintro ev (⟨sn1, ex1, sz1, pad1, r, h1, -⟩ | ⟨c1, sn1, off1, err1, h1, h2⟩) hev
    · rw [h1] at hev
      exact InputEvent.noConfusion hev
    · rw [h1] at hev
      injection hev with hc
      rw [← hc]
      exact h2
  rcases handleAddPiece_trace env m sector with ⟨pre, np, htr, hpre⟩ | hall | ⟨e, hf, -⟩
  · rw [htr] at h
    rcases List.mem_append.mp h with h1 | h1
    · exact hq _ (hpre _ h1) rfl
    · rw [List.mem_singleton] at h1
      exact InputEvent.noConfusion h1
  · exact hq _ (hall _ h) rfl
  · obtain ⟨pre, ex1, sz1, pad1, e1, piece, offset, htr, -, -, hsome, hpre⟩ := hf
    rw [htr] at h
    rcases List.mem_append.mp h with h1 | h1
    · exact hq _ (hpre _ h1) rfl
    · simp only [List.mem_cons, List.mem_singleton, List.not_mem_nil, or_false] at h1
      rcases h1 with h1 | h1 | h1
      · exact InputEvent.noConfusion h1
      · injection h1 with hc
        rw [hc]
        exact hsome
      · exact InputEvent.noConfusion h1

/-- The candidates of one pending piece all name that piece. -/
theorem matchesOfPiece_deal (cap : Nat) (c : Cid) (piece : pendingPiece)
    (os : GoMap SectorID openSector) : ∀ mt ∈ matchesOfPiece cap c piece os, mt.deal = c := by
  induction os with
  | nil =>
    intro mt h
    exact absurd h (List.not_mem_nil mt)
  | cons e rest ih =>
    obtain ⟨id, sector⟩ := e
    intro mt h
    unfold matchesOfPiece at h
    simp only at h
    split_ifs at h
    · rcases List.mem_cons.mp h with h1 | h1
      · rw [h1]
      · exact ih mt h1
    · exact ih mt h

/-- A matching pass builds no candidate for a deal whose entries are flagged
assigned, and does not list it among the pieces to assign. -/
theorem buildMatches_skips (cap : Nat) (os : GoMap SectorID openSector) (c : Cid)
    (l : GoMap Cid pendingPiece) (h : ∀ e ∈ l, e.1 = c → e.2.assigned = true) :
    (∀ mt ∈ (buildMatches cap os l).1, mt.deal ≠ c) ∧ c ∉ (buildMatches cap os l).2 := by
  induction l with
  | nil =>
    exact ⟨fun mt hm => absurd hm (List.not_mem_nil mt), List.not_mem_nil c⟩
  | cons e rest ih =>
    obtain ⟨c0, p⟩ := e
    have ih2 := ih (fun e he => h e (List.mem_cons_of_mem _ he))
    by_cases ha : p.assigned = true
    · rw [buildMatches_cons_assigned _ _ _ _ _ ha]
      exact ih2
    · rw [buildMatches_cons_unassigned _ _ _ _ _ (Bool.eq_false_iff.mpr ha)]
      have hne : c0 ≠ c := fun hc => ha (h (c0, p) (List.mem_cons_self _ _) hc)
      refine ⟨fun mt hm => ?_, fun hm => ?_⟩
      · rcases List.mem_append.mp hm with h1 | h1
        · rw [matchesOfPiece_deal cap c0 p os mt h1]
          exact hne
        · exact ih2.1 mt h1
      · rcases List.mem_cons.mp hm with h1 | h1
        · exact hne h1.symm
        · exact ih2.2 h1

/-- C27 (amended): a pending piece is not removed when it is accepted into a
sector.  After `handleAddPiece` has written a deal's piece and invoked its
`accepted` callback without error, `pendingPieces` is as before and the deal's
proposal hash is still one of its keys; a later `AddPieceToAnySector` for the
same proposal returns an error at once and changes nothing, the error being
"already pending" when the size checks pass; and a later matching pass builds
no candidate for the piece and does not count it as waiting, as long as it is
flagged assigned. -/
theorem handleAddPiece_keeps_pending (env : InputEnv) (m : Sealing) (sector : SectorInfo)
    (c : Cid) (sn off : Nat)
    (hacc : InputEvent.accepted c sn off none ∈ (handleAddPiece env m sector).2.2) :
    (handleAddPiece env m sector).1.pendingPieces = m.pendingPieces ∧
    ((handleAddPiece env m sector).1.pendingPieces.lookup c).isSome = true ∧
    (∀ (env2 : InputEnv) (size : Nat),
      ∃ e, AddPieceToAnySector env2 (handleAddPiece env m sector).1 size (.ok c) =
        ((handleAddPiece env m sector).1, some e, [])) ∧
    (∀ (env2 : InputEnv) (size : Nat) (sp : Int) (ssize : Nat),
      env2.paddedSize size = size → env2.currentSealProof = .ok sp →
      SectorSize sp = .ok ssize → size ≤ Unpadded ssize →
      (AddPieceToAnySector env2 (handleAddPiece env m sector).1 size (.ok c)).2.1 =
        some ("piece for deal " ++ toString c ++ " already pending")) ∧
    ((∀ e ∈ m.pendingPieces, e.1 = c → e.2.assigned = true) →
      ∀ cap,
        (∀ mt ∈ (buildMatches cap (handleAddPiece env m sector).1.openSectors
          (handleAddPiece env m sector).1.pendingPieces).1, mt.deal ≠ c) ∧
        c ∉ (buildMatches cap (handleAddPiece env m sector).1.openSectors
          (handleAddPiece env m sector).1.pendingPieces).2) := by
  have hp := handleAddPiece_pending env m sector
  have hsome : ((handleAddPiece env m sector).1.pendingPieces.lookup c).isSome = true := by
    rw [hp]
    exact handleAddPiece_accepted_pending env m sector c sn off none hacc
  refine ⟨hp, hsome, ?_, ?_, ?_⟩
  · intro env2 size
    rcases AddPieceToAnySector_cases env2 (handleAddPiece env m sector).1 size (.ok c) with
      h | ⟨c2, sp, ssize, hc, hnone, -⟩
    · exact h
    · have hcc : c = c2 := Except.ok.inj hc
      rw [← hcc] at hnone
      rw [hnone] at hsome
      exact Bool.noConfusion hsome
  · intro env2 size sp ssize h1 h2 h3 h4
    unfold AddPieceToAnySector
    rw [if_neg (by rw [h1]; exact fun h => h rfl), h2]
    simp only [h3]
    rw [if_neg (by omega), if_pos hsome]
  · intro hass cap
    rw [hp]
    exact buildMatches_skips cap _ c m.pendingPieces hass

/-- C27 (amended), at a concrete input: deal 8 of `stateThreeAssigned` after
`handleAddPiece` for sector 7. -/
theorem handleAddPiece_keeps_pending_witness :
    InputEvent.accepted 8 7 0 none ∈ (handleAddPiece {} stateThreeAssigned sectorSeven).2.2 ∧
    ((handleAddPiece {} stateThreeAssigned sectorSeven).1.pendingPieces.lookup 8).isSome = true ∧
    ∃ e, AddPieceToAnySector {} (handleAddPiece {} stateThreeAssigned sectorSeven).1 508
      (.ok 8) = ((handleAddPiece {} stateThreeAssigned sectorSeven).1, some e, []) :=
  have h := handleAddPiece_keeps_pending {} stateThreeAssigned sectorSeven 8 7 0 (by decide)
  ⟨by decide, h.2.1, h.2.2.1 {} 508⟩

/-! ## The sector handlers: capacity and offsets -/

/-- Unpadding a multiple of 128. -/
theorem unpadded_mul (k : Nat) : Unpadded (128 * k) = 127 * k := by
  unfold Unpadded
  rw [Nat.mul_div_cancel_left k (by decide : 0 < 128)]
  omega

/-- Padding a multiple of 127. -/
theorem padded_mul (k : Nat) : Padded (127 * k) = 128 * k := by
  unfold Padded
  rw [Nat.mul_div_cancel_left k (by decide : 0 < 127)]
  omega

/-- A list of valid padded sizes sums to `128 * k` and its unpadded sizes sum to
`127 * k`. -/
theorem sizes128 (l : List Nat) (h : ∀ p ∈ l, 128 ∣ p) :
    ∃ k, l.sum = 128 * k ∧ (l.map Unpadded).sum = 127 * k := by
  induction l with
  | nil => exact ⟨0, rfl, rfl⟩
  | cons p rest ih =>
    obtain ⟨k, h1, h2⟩ := ih (fun q hq => h q (List.mem_cons_of_mem _ hq))
    obtain ⟨j, hj⟩ := h p (List.mem_cons_self _ _)
    refine ⟨j + k, ?_, ?_⟩
    · rw [List.sum_cons, h1, hj]
      omega
    · rw [List.map_cons, List.sum_cons, h2, hj, unpadded_mul]
      omega

/-- Padded sizes sum to at most the padded sum of their unpadded sizes. -/
theorem sum_le_padded (l : List Nat) : l.sum ≤ Padded (l.map Unpadded).sum := by
  induction l with
  | nil => exact Nat.zero_le _
  | cons p rest ih =>
    rw [List.map_cons, List.sum_cons, List.sum_cons]
    unfold Padded Unpadded at *
    omega

/-- The padded sizes of padding pieces sum to the sum of the pads. -/
theorem sumPadded_pads (pads : List Nat) :
    sumPadded (pads.map (fun p => ({ Size := p, DealInfo := none } : Piece))) = pads.sum := by
  unfold sumPadded
  rw [List.map_map]
  congr 1
  exact List.map_id _

/-- The padded sizes of two lists of pieces. -/
theorem sumPadded_append (a b : List Piece) : sumPadded (a ++ b) = sumPadded a + sumPadded b := by
  unfold sumPadded
  rw [List.map_append, List.sum_append]

/-- The offsets of a trace given in two parts. -/
theorem offsetsOk_append (pp : GoMap Cid pendingPiece) (t1 t2 : List InputEvent)
    (cur : List Nat) :
    offsetsOk pp cur (t1 ++ t2) ↔
      offsetsOk pp cur t1 ∧ offsetsOk pp (cur ++ t1.filterMap writtenSize) t2 := by
  induction t1 generalizing cur with
  | nil => simp [offsetsOk]
  | cons ev rest ih =>
    rw [List.cons_append, offsetsOk, offsetsOk, ih, and_assoc]
    cases hw : writtenSize ev with
    | none => simp [List.filterMap_cons, hw]
    | some sz => simp [List.filterMap_cons, hw]

/-- Calls of the sealer report no offset. -/
theorem offsetsOk_calls (pp : GoMap Cid pendingPiece) (calls : List InputEvent)
    (h : onlySealerCalls calls) (cur : List Nat) : offsetsOk pp cur calls := by
  induction calls generalizing cur with
  | nil => trivial
  | cons ev rest ih =>
    obtain ⟨sn, ex, sz, pad, hev⟩ := h ev (List.mem_cons_self _ _)
    rw [offsetsOk, hev]
    exact ⟨trivial, ih (fun e he => h e (List.mem_cons_of_mem _ he)) _⟩

/-- An event of a trace with the right offsets is right for the sizes written
before it. -/
theorem offsetsOk_split (pp : GoMap Cid pendingPiece) (cur : List Nat)
    (pre : List InputEvent) (ev : InputEvent) (post : List InputEvent)
    (h : offsetsOk pp cur (pre ++ ev :: post)) :
    acceptedOk pp (cur ++ pre.filterMap writtenSize ++ (writtenSize ev).toList) ev := by
  rw [offsetsOk_append, offsetsOk] at h
  exact h.2.1

/-- The padding loop under the size contracts: every pad is written with its own
size, and only the sealer is called. -/
theorem writePads_sizes (env : InputEnv) (sn : Nat) (pads : List Nat) (st : AddPieceState)
    (hc : sizeContracts env) (hp : ∀ p ∈ pads, 128 ∣ p) :
    (writePads env sn pads st).1.offset = st.offset ∧
    (∃ calls, (writePads env sn pads st).1.trace = st.trace ++ calls ∧ onlySealerCalls calls ∧
      ((writePads env sn pads st).2 = none →
        calls.filterMap writtenSize = pads.map Unpadded)) ∧
    ((writePads env sn pads st).2 = none →
      (writePads env sn pads st).1.pieceSizes = st.pieceSizes ++ pads.map Unpadded ∧
      (writePads env sn pads st).1.newPieces =
        st.newPieces ++ pads.map (fun p => ({ Size := p, DealInfo := none } : Piece))) := by
  induction pads generalizing st with
  | nil =>
    refine ⟨rfl, ⟨[], ?_, ?_, fun _ => rfl⟩, fun _ => ⟨?_, ?_⟩⟩
    · simp [writePads]
    · exact fun ev h => absurd h (List.not_mem_nil ev)
    · simp [writePads]
    · simp [writePads]
  | cons p rest ih =>
    unfold writePads
    cases hs : env.sealerAddPiece st.pieceSizes (Unpadded p) true with
    | error e =>
      simp only
      refine ⟨trivial, ⟨[InputEvent.sealerAddPiece sn st.pieceSizes (Unpadded p) true], rfl, ?_,
        fun h => Option.noConfusion h⟩, fun h => Option.noConfusion h⟩
      intro ev hev
      rw [List.mem_singleton] at hev
      exact ⟨_, _, _, _, hev⟩
    | ok ppi =>
      simp only
      have hppi : ppi = p := by
        rw [hc.2 _ _ _ _ hs]
        obtain ⟨j, hj⟩ := hp p (List.mem_cons_self _ _)
        rw [hj, unpadded_mul, padded_mul]
      obtain ⟨h1, ⟨calls, h2, h3, h4⟩, h5⟩ := ih
        { st with
          pieceSizes := st.pieceSizes ++ [Unpadded p],
          newPieces := st.newPieces ++ [{ Size := ppi, DealInfo := none }],
          trace := st.trace ++ [InputEvent.sealerAddPiece sn st.pieceSizes (Unpadded p) true] }
        (fun q hq => hp q (List.mem_cons_of_mem _ hq))
      refine ⟨h1, ⟨InputEvent.sealerAddPiece sn st.pieceSizes (Unpadded p) true :: calls, ?_, ?_,
        ?_⟩, ?_⟩
      · rw [h2]
        simp
      · intro ev hev
        rcases List.mem_cons.mp hev with h | h
        · exact ⟨_, _, _, _, h⟩
        · exact h3 ev h
      · intro hn
        rw [List.filterMap_cons, List.map_cons, h4 hn]
        rfl
      · intro hn
        obtain ⟨h6, h7⟩ := h5 hn
        rw [h6, h7, hppi]
        simp

/-- One round of the loop of `handleAddPiece` under the size contracts: the
offsets reported are right, and the invariant of the loop holds again when the
loop goes on. -/
theorem addPieceStep_inv (env : InputEnv) (m : Sealing) (sector : SectorInfo) (ssize : Nat)
    (maxDeals : Int) (i : Nat) (st : AddPieceState) (piece : Cid)
    (hc : sizeContracts env) (hinv : addPieceInv m.pendingPieces sector ssize st) :
    offsetsOk m.pendingPieces (sector.Pieces.map (fun p => Unpadded p.Size))
      (addPieceStep env m sector ssize maxDeals i st piece).1.trace ∧
    ((addPieceStep env m sector ssize maxDeals i st piece).2 = none →
      addPieceInv m.pendingPieces sector ssize
        (addPieceStep env m sector ssize maxDeals i st piece).1) := by
  obtain ⟨ha, hb, hsum, hcap, hg⟩ := hinv
  unfold addPieceStep
  cases hl : m.pendingPieces.lookup piece with
  | none => exact ⟨hg, fun h => Option.noConfusion h⟩
  | some deal =>
    have hrej : ∀ e : String,
        offsetsOk m.pendingPieces (sector.Pieces.map (fun p => Unpadded p.Size))
          (st.trace ++ [InputEvent.accepted piece sector.SectorNumber st.offset (some e)]) ∧
        addPieceInv m.pendingPieces sector ssize
          { st with trace := st.trace ++
            [InputEvent.accepted piece sector.SectorNumber st.offset (some e)] } := by
      intro e
      have h1 : offsetsOk m.pendingPieces (sector.Pieces.map (fun p => Unpadded p.Size))
          (st.trace ++ [InputEvent.accepted piece sector.SectorNumber st.offset (some e)]) :=
        (offsetsOk_append _ _ _ _).mpr ⟨hg, by simp [offsetsOk, acceptedOk]⟩
      refine ⟨h1, ?_, hb, hsum, hcap, h1⟩
      simp only [List.filterMap_append, List.filterMap_cons, List.filterMap_nil, writtenSize,
        List.append_nil]
      exact ha
    simp only
    split_ifs with h1 h2
    · exact ⟨(hrej _).1, fun _ => (hrej _).2⟩
    · exact ⟨(hrej _).1, fun _ => (hrej _).2⟩
    · obtain ⟨hpsum, hp128⟩ := hc.1 (Padded st.offset) (Padded deal.size)
      obtain ⟨k, hk1, hk2⟩ := sizes128 _ hp128
      have hunp : Unpadded (env.getRequiredPadding (Padded st.offset) (Padded deal.size)).2 =
          127 * k := by
        rw [← hpsum, hk1, unpadded_mul]
      have W := writePads_sizes env sector.SectorNumber
        (env.getRequiredPadding (Padded st.offset) (Padded deal.size)).1
        { st with offset := st.offset +
            Unpadded (env.getRequiredPadding (Padded st.offset) (Padded deal.size)).2 } hc hp128
      rcases hwp : writePads env sector.SectorNumber
        (env.getRequiredPadding (Padded st.offset) (Padded deal.size)).1
        { st with offset := st.offset +
            Unpadded (env.getRequiredPadding (Padded st.offset) (Padded deal.size)).2 }
        with ⟨st1, r⟩
      rw [hwp] at W
      obtain ⟨W1, ⟨calls, W2, W3, W4⟩, W5⟩ := W
      simp only at W1 W2 W4 W5
      have hpre : offsetsOk m.pendingPieces (sector.Pieces.map (fun p => Unpadded p.Size))
          st1.trace := by
        rw [W2]
        exact (offsetsOk_append _ _ _ _).mpr ⟨hg, offsetsOk_calls _ _ W3 _⟩
      cases r with
      | some e =>
        simp only
        refine ⟨(offsetsOk_append _ _ _ _).mpr ⟨hpre, by simp [offsetsOk, acceptedOk]⟩,
          fun h => Option.noConfusion h⟩
      | none =>
        obtain ⟨W6, W7⟩ := W5 rfl
        have W8 := W4 rfl
        simp only
        cases hs : env.sealerAddPiece st1.pieceSizes deal.size false with
        | error e =>
          simp only
          refine ⟨(offsetsOk_append _ _ _ _).mpr ⟨hpre, by simp [offsetsOk, acceptedOk]⟩,
            fun h => Option.noConfusion h⟩
        | ok ppi =>
          simp only
          have hppi : ppi = Padded deal.size := hc.2 _ _ _ _ hs
          have hsizes : st1.pieceSizes =
              sector.Pieces.map (fun p => Unpadded p.Size) ++
                st1.trace.filterMap writtenSize := by
            rw [W6, W2, List.filterMap_append, W8, ha, List.append_assoc]
          have hsum1 : st1.pieceSizes.sum = st.offset + 127 * k := by
            rw [W6, List.sum_append, hk2, hb]
          have hoff : offsetsOk m.pendingPieces (sector.Pieces.map (fun p => Unpadded p.Size))
              (st1.trace ++
                [InputEvent.sealerAddPiece sector.SectorNumber st1.pieceSizes deal.size false,
                 InputEvent.accepted piece sector.SectorNumber
                  (st.offset + Unpadded
                    (env.getRequiredPadding (Padded st.offset) (Padded deal.size)).2) none]) := by
            refine (offsetsOk_append _ _ _ _).mpr ⟨hpre, ?_⟩
            rw [← hsizes]
            simp only [offsetsOk, acceptedOk, writtenSize, Option.toList, List.append_nil,
              true_and, and_true]
            exact ⟨deal, st1.pieceSizes, hl, rfl, by rw [hsum1, hunp]⟩
          have hfit : Padded st.offset +
              (env.getRequiredPadding (Padded st.offset) (Padded deal.size)).2 +
              Padded deal.size ≤ ssize := by omega
          rw [← hpsum, hk1] at hfit
          have hnew : sumPadded sector.Pieces +
              sumPadded (st1.newPieces ++ [{ Size := ppi, DealInfo := some deal.deal }]) =
              sumPadded sector.Pieces + sumPadded st.newPieces + 128 * k + Padded deal.size := by
            rw [W7, sumPadded_append, sumPadded_append, sumPadded_pads, hk1, hppi]
            simp only [sumPadded, List.map_cons, List.map_nil, List.sum_cons, List.sum_nil]
            omega
          refine ⟨hoff, fun _ => ⟨?_, ?_, ?_, ?_, hoff⟩⟩
          · simp only [List.filterMap_append, List.filterMap_cons, List.filterMap_nil,
              writtenSize]
            rw [← List.append_assoc, ← hsizes]
          · simp only
            rw [List.sum_append, hsum1, hunp]
            simp
          · simp only
            rw [hnew, hunp]
            unfold Padded at hsum hfit ⊢
            omega
          · simp only
            rw [hnew]
            omega

/-- A round of the loop of `handleAddPiece` never ends the loop as done. -/
theorem addPieceStep_not_done (env : InputEnv) (m : Sealing) (sector : SectorInfo)
    (ssize : Nat) (maxDeals : Int) (i : Nat) (st : AddPieceState) (piece : Cid) :
    (addPieceStep env m sector ssize maxDeals i st piece).2 ≠ some AddPieceEnd.done := by
  unfold addPieceStep
  cases m.pendingPieces.lookup piece with
  | none => exact fun h => AddPieceEnd.noConfusion (Option.some.inj h)
  | some deal =>
    simp only
    split_ifs
    · exact fun h => Option.noConfusion h
    · exact fun h => Option.noConfusion h
    · rcases writePads env sector.SectorNumber
        (env.getRequiredPadding (Padded st.offset) (Padded deal.size)).1
        { st with offset := st.offset +
            Unpadded (env.getRequiredPadding (Padded st.offset) (Padded deal.size)).2 }
        with ⟨st1, r⟩
      cases r with
      | some e => exact fun h => AddPieceEnd.noConfusion (Option.some.inj h)
      | none =>
        simp only
        cases env.sealerAddPiece st1.pieceSizes deal.size false with
        | error e => exact fun h => AddPieceEnd.noConfusion (Option.some.inj h)
        | ok ppi => exact fun h => Option.noConfusion h

/-- The loop of `handleAddPiece` under the size contracts: the offsets reported
are right, and the invariant holds when the loop runs to its end. -/
theorem addPieceLoop_inv (env : InputEnv) (m : Sealing) (sector : SectorInfo) (ssize : Nat)
    (maxDeals : Int) (pending : List Cid) (i : Nat) (st : AddPieceState)
    (hc : sizeContracts env) (hinv : addPieceInv m.pendingPieces sector ssize st) :
    offsetsOk m.pendingPieces (sector.Pieces.map (fun p => Unpadded p.Size))
      (addPieceLoop env m sector ssize maxDeals i pending st).1.trace ∧
    ((addPieceLoop env m sector ssize maxDeals i pending st).2 = AddPieceEnd.done →
      addPieceInv m.pendingPieces sector ssize
        (addPieceLoop env m sector ssize maxDeals i pending st).1) := by
  induction pending generalizing i st with
  | nil => exact ⟨hinv.2.2.2.2, fun _ => hinv⟩
  | cons piece rest ih =>
    unfold addPieceLoop
    have hs := addPieceStep_inv env m sector ssize maxDeals i st piece hc hinv
    have hnd := addPieceStep_not_done env m sector ssize maxDeals i st piece
    rcases hst : addPieceStep env m sector ssize maxDeals i st piece with ⟨st1, r⟩
    rw [hst] at hs hnd
    cases r with
    | some e =>
      refine ⟨hs.1, fun h => ?_⟩
      simp only at h
      rw [h] at hnd
      exact absurd rfl hnd
    | none => exact ih (i + 1) st1 (hs.2 rfl)

/-- A trace of the loop of `handleAddPiece` holds no `SectorPieceAdded`. -/
theorem endsOk_no_pieceAdded (env : InputEnv) (m : Sealing) (sn : Nat)
    (e : Option AddPieceEnd) (tr : List InputEvent) (h : endsOk env m sn e tr) (sn2 : Nat)
    (np : List Piece) : InputEvent.sendSectorPieceAdded sn2 np ∉ tr := by
  have hnp : ¬ quietEvent env m (InputEvent.sendSectorPieceAdded sn2 np) := by
    rintro (⟨sn1, ex1, sz1, pad1, r, h1, -⟩ | ⟨c, sn1, off, err, h1, -⟩)
    · exact InputEvent.noConfusion h1
    · exact InputEvent.noConfusion h1
  have hquiet : (∀ ev ∈ tr, quietEvent env m ev) →
      InputEvent.sendSectorPieceAdded sn2 np ∉ tr := fun hq hm => hnp (hq _ hm)
  have hfailed : ∀ err, failedTrace env m sn err tr →
      InputEvent.sendSectorPieceAdded sn2 np ∉ tr := by
    rintro err ⟨pre, ex, sz, pad, e1, piece, off, htr, -, -, -, hpre⟩ hm
    rw [htr] at hm
    rcases List.mem_append.mp hm with h1 | h1
    · exact hnp (hpre _ h1)
    · simp only [List.mem_cons, List.mem_singleton, List.not_mem_nil, or_false] at h1
      rcases h1 with h1 | h1 | h1 <;> exact InputEvent.noConfusion h1
  cases e with
  | none => exact hquiet h
  | some e1 =>
    cases e1 with
    | done => exact hquiet h
    | notFound c => exact hquiet h
    | failed err => exact hfailed err h

/-- The handler `handleAddPiece` under the size contracts: what it reports in
`SectorPieceAdded` fits into the sector, and the offsets it reports are right. -/
theorem handleAddPiece_inv (env : InputEnv) (m : Sealing) (sector : SectorInfo) (ssize : Nat)
    (hss : SectorSize sector.SectorType = .ok ssize)
    (hcap : sumPadded sector.Pieces ≤ ssize)
    (hc : sizeContracts env) :
    (∀ sn np, InputEvent.sendSectorPieceAdded sn np ∈ (handleAddPiece env m sector).2.2 →
      sumPadded sector.Pieces + sumPadded np ≤ ssize) ∧
    offsetsOk m.pendingPieces (sector.Pieces.map (fun p => Unpadded p.Size))
      (handleAddPiece env m sector).2.2 := by
  unfold handleAddPiece
  simp only [hss]
  cases m.assignedPieces.lookup { Miner := env.minerID, Number := sector.SectorNumber } with
  | none =>
    simp only
    refine ⟨fun sn np h => ?_, by simp [offsetsOk, acceptedOk]⟩
    rw [List.mem_singleton] at h
    injection h with _ hnp
    rw [hnp]
    simpa [sumPadded] using hcap
  | some pending =>
    simp only
    cases env.dealLimit ssize with
    | error e =>
      exact ⟨fun sn np h => absurd h (List.not_mem_nil _), trivial⟩
    | ok maxDeals =>
      simp only
      -- the state before the loop satisfies the invariant
      have hstart : addPieceInv m.pendingPieces sector ssize (addPieceStart sector) := by
        have hle := sum_le_padded (sector.Pieces.map (fun p => p.Size))
        rw [List.map_map] at hle
        refine ⟨?_, rfl, ?_, ?_, trivial⟩
        · simp [addPieceStart]
        · show sumPadded sector.Pieces + sumPadded [] ≤
            Padded (sector.Pieces.map (fun p => Unpadded p.Size)).sum
          exact hle
        · show sumPadded sector.Pieces + sumPadded [] ≤ ssize
          exact hcap
      have hl := addPieceLoop_inv env
        (takeAssigned m { Miner := env.minerID, Number := sector.SectorNumber })
        sector ssize maxDeals pending 0 (addPieceStart sector) hc hstart
      have hq := addPieceLoop_trace env
        (takeAssigned m { Miner := env.minerID, Number := sector.SectorNumber })
        sector ssize maxDeals pending 0 (addPieceStart sector)
        (fun ev h => absurd h (List.not_mem_nil ev))
      have hno := endsOk_no_pieceAdded env _ _ _ _ hq
      rcases hloop : addPieceLoop env
        (takeAssigned m { Miner := env.minerID, Number := sector.SectorNumber })
        sector ssize maxDeals 0 pending (addPieceStart sector) with ⟨st, e⟩
      rw [hloop] at hl hno
      simp only at hl hno
      cases e with
      | done =>
        simp only
        obtain ⟨-, -, -, hle, -⟩ := hl.2 rfl
        refine ⟨fun sn np h => ?_, (offsetsOk_append _ _ _ _).mpr
          ⟨hl.1, by simp [offsetsOk, acceptedOk]⟩⟩
        rcases List.mem_append.mp h with h1 | h1
        · exact absurd h1 (hno sn np)
        · rw [List.mem_singleton] at h1
          injection h1 with _ hnp
          rw [hnp]
          exact hle
      | notFound c => exact ⟨fun sn np h => absurd h (hno sn np), hl.1⟩
      | failed err => exact ⟨fun sn np h => absurd h (hno sn np), hl.1⟩

/-- C26: for a sector of size `ssize` whose existing pieces have padded sizes
that sum to at most `ssize`, every matcher state and every list of assigned
deals, a `GetRequiredPadding` that returns valid pad sizes (multiples of 128)
summing to its total, and a sealer that returns pieces of the padded size asked
for: the padded sizes of the existing pieces plus all padding and data pieces
reported in `SectorPieceAdded` sum to at most `ssize`; and at every `accepted`
callback without error, the pieces in the sector (the existing ones followed by
all pieces written so far in this call) are some list `P` followed by the piece
of the deal, and the offset reported is the sum of the unpadded sizes of `P`. -/
theorem handleAddPiece_capacity (env : InputEnv) (m : Sealing) (sector : SectorInfo)
    (ssize : Nat)
    (hss : SectorSize sector.SectorType = .ok ssize)
    (hcap : sumPadded sector.Pieces ≤ ssize)
    (hc : sizeContracts env) :
    (∀ sn np, InputEvent.sendSectorPieceAdded sn np ∈ (handleAddPiece env m sector).2.2 →
      sumPadded sector.Pieces + sumPadded np ≤ ssize) ∧
    (∀ pre c sn offset post,
      (handleAddPiece env m sector).2.2 =
        pre ++ InputEvent.accepted c sn offset none :: post →
      ∃ d P, m.pendingPieces.lookup c = some d ∧
        sector.Pieces.map (fun p => Unpadded p.Size) ++ pre.filterMap writtenSize =
          P ++ [d.size] ∧
        offset = P.sum) := by
  obtain ⟨h1, h2⟩ := handleAddPiece_inv env m sector ssize hss hcap hc
  refine ⟨h1, fun pre c sn offset post htr => ?_⟩
  rw [htr] at h2
  have h3 := offsetsOk_split _ _ _ _ _ h2
  simpa [acceptedOk, writtenSize] using h3

/-- The size contracts hold for the environment `envAligned`. -/
theorem sizeContracts_envAligned : sizeContracts envAligned := by
  refine ⟨fun a b => ?_, fun _ _ _ _ h => (Except.ok.inj h).symm⟩
  simp only [envAligned]
  split_ifs with h
  · simp [h.1]
  · simp

/-- C26, at a concrete input: sector 7 of 2 KiB gets the deals 8, 9 and 10 of
unpadded sizes 508, 1016 and 1016; deal 8 is placed at offset 0, a padding piece
of 512 bytes follows, deal 9 is placed at offset 1016 and deal 10 is dropped; the
pieces reported fill the sector exactly. -/
theorem handleAddPiece_capacity_witness :
    (handleAddPiece envAligned stateThreeAssigned sectorSeven).2.2 =
      [InputEvent.sealerAddPiece 7 [] 508 false,
       InputEvent.accepted 8 7 0 none,
       InputEvent.sealerAddPiece 7 [508] 508 true,
       InputEvent.sealerAddPiece 7 [508, 508] 1016 false,
       InputEvent.accepted 9 7 1016 none,
       InputEvent.accepted 10 7 2032
         (some "piece 10 assigned to sector 7 with not enough space"),
       InputEvent.sendSectorPieceAdded 7
         [{ Size := 512, DealInfo := some { DealID := 0, DealSchedule :=
              { StartEpoch := 0, EndEpoch := 0 } } },
          { Size := 512, DealInfo := none },
          { Size := 1024, DealInfo := some { DealID := 0, DealSchedule :=
              { StartEpoch := 0, EndEpoch := 0 } } }]] ∧
    sumPadded sectorSeven.Pieces +
      sumPadded
        [{ Size := 512, DealInfo := some { DealID := 0, DealSchedule :=
              { StartEpoch := 0, EndEpoch := 0 } } },
          { Size := 512, DealInfo := none },
          { Size := 1024, DealInfo := some { DealID := 0, DealSchedule :=
              { StartEpoch := 0, EndEpoch := 0 } } }] ≤ 2048 :=
  have h := handleAddPiece_capacity envAligned stateThreeAssigned sectorSeven 2048 rfl
    (by decide) sizeContracts_envAligned
  ⟨by decide, h.1 7 _ (by decide)⟩

end VenusSealer
